import Mathlib

/-!
Audio-to-score aligner: state graph, likelihoods and onset extraction.

A shallow embedding of `AudioToScoreAligner.cpp` and `SimpleHMM.cpp`.

Conventions of the embedding:

* `double` and `float` values are exact numbers.  The state graph and the
  inference passes use `ℚ`; the observation likelihood is generic in its
  number type so that it can be read over `ℝ` with `Real.exp` and `Real.log`.
  Rounding of floating-point arithmetic is not modelled for the values that
  are stored or compared, and a quotient by zero, which is a non-finite
  `double` in the source, has Lean's value `0`.
* The number `M` of micro states of an event is the one exception: it is an
  integer obtained by `round` from a `double`, and one rounding error can
  change it.  The operations leading to it are rounded by `toDouble` to the
  nearest binary64 number, halves to even, as the `double` operations of the
  source are; the exponent range of binary64 is not modelled.
* `std::map<State, V>` is an association list kept in key order; `m[k] = v`
  is `mapInsert`, `m.find(k)` is `mapFind`.
* `v[i]` on a `std::vector` outside its bounds has no defined value: the
  embedding returns `none`.  `.at(k)` on a missing key throws: also `none`.
* A local `int` read before it is written has an indeterminate value, which
  the embedding takes as an argument.
* The inference passes call `aligner.getLikelihood(frame, event)` also with the
  event indices -1 and -2 of the two boundary states, where the source reads
  outside its table.  The passes therefore take the likelihood as a function
  argument, and what is proved about them holds whatever that function returns.
* Conversions between `int`, `float` and `double` are exact, and `int` values
  are unbounded.
-/

namespace PianoAligner

/-! ## States and hypotheses (`SimpleHMM.h`) -/

/-- A state of the chain: `eventIndex = -1` is the state before the first
event, `eventIndex = -2` the state after the last one. -/
structure State where
  eventIndex : Int
  microIndex : Int
deriving DecidableEq

/-- The state before the first event, `State(-1, 0)`. -/
def startingState : State := ⟨-1, 0⟩

/-- The state after the last event, `State(-2, 0)`. -/
def lastState : State := ⟨-2, 0⟩

/-- The order `State::operator<`: event index first, then micro index. -/
def State.lt (s other : State) : Bool :=
  if s.eventIndex < other.eventIndex then true
  else if s.eventIndex > other.eventIndex then false
  else if s.microIndex < other.microIndex then true
  else false

/-- A state with a probability. -/
structure Hypothesis where
  state : State
  prob : ℚ
deriving DecidableEq

/-- The equality `Hypothesis::operator==`. -/
def Hypothesis.eq (h other : Hypothesis) : Bool :=
  if h.state = other.state ∧ h.prob = other.prob then true else false

/-- The order `Hypothesis::operator<`: probability first, then state. -/
def Hypothesis.lt (h other : Hypothesis) : Bool :=
  if h.prob < other.prob then true
  else if h.prob > other.prob then false
  else h.state.lt other.state

/-- The order `Hypothesis::operator>`. -/
def Hypothesis.gt (h other : Hypothesis) : Bool :=
  !(h.lt other || h.eq other)

/-! ## Ordered maps keyed by states -/

/-- The lookup `m.find(k)`: the value stored under `k`, if any. -/
def mapFind {V : Type} : List (State × V) → State → Option V
  | [], _ => none
  | (k', v') :: rest, k => if k' = k then some v' else mapFind rest k

/-- The assignment `m[k] = v`: overwrite the entry of `k`, or insert it at its
place in key order. -/
def mapInsert {V : Type} : List (State × V) → State → V → List (State × V)
  | [], k, v => [(k, v)]
  | (k', v') :: rest, k, v =>
    if k' = k then (k, v) :: rest
    else if k.lt k' then (k, v) :: (k', v') :: rest
    else (k', v') :: mapInsert rest k v

/-- The type of `m_nextStates` and `m_prevStates`. -/
abbrev TransMap := List (State × List (State × ℚ))

/-- The assignment `m[a][b] = v` on a map of maps: `m[a]` is created empty when
absent. -/
def setTrans (m : TransMap) (a b : State) (v : ℚ) : TransMap :=
  mapInsert m a (mapInsert ((mapFind m a).getD []) b v)

/-- The value stored at `m[a][b]`, if both keys are present. -/
def getTrans (m : TransMap) (a b : State) : Option ℚ :=
  (mapFind m a).bind (fun row => mapFind row b)

/-- Whether `a` is a key of the outer map. -/
def hasKey (m : TransMap) (a : State) : Bool :=
  (mapFind m a).isSome

/-- The sum of the probabilities stored in `m[a]`. -/
def rowSum (m : TransMap) (a : State) : ℚ :=
  (((mapFind m a).getD []).map Prod.snd).sum

/-! ## The aligner (`AudioToScoreAligner.cpp`) -/

/-- Modelled from the spec: the cell type of the likelihood table, declared in
the header `AudioToScoreAligner.h`; the source builds it as
`Likelihood(0, false)` and reads its fields `likelihood` and `calculated`. -/
structure Likelihood (α : Type) where
  likelihood : α
  calculated : Bool

/-- Modelled from the spec: a musical event of the score, declared in the score
header; the source reads `duration.getValue()`, `tempo` and `eventTemplate`. -/
structure MusicalEvent (α : Type) where
  duration : ℚ
  tempo : ℚ
  eventTemplate : List α

/-- Modelled from the spec: the fields of the class `AudioToScoreAligner`,
declared in the header `AudioToScoreAligner.h`; the names are those used in
`AudioToScoreAligner.cpp`, and `m_score` is the event list of the score. -/
structure AudioToScoreAligner (α : Type) where
  m_inputSampleRate : ℚ
  m_hopSize : Int
  m_score : List (MusicalEvent α)
  m_dataFeatures : List (List α)
  m_likelihoods : List (List (Likelihood α))

/-- The read `v[i]` for an `int` index: defined only inside the bounds. -/
def vecAt {β : Type} (v : List β) (i : Int) : Option β :=
  if i < 0 then none else v[i.toNat]?

/-- The write `v[i][j] = x` on a vector of vectors, inside the bounds. -/
def vecSet2 {β : Type} (v : List (List β)) (i j : Nat) (x : β) : List (List β) :=
  match v[i]? with
  | some row => v.set i (row.set j x)
  | none => v

/-- The method `AudioToScoreAligner::supplyFeature`. -/
def AudioToScoreAligner.supplyFeature {α : Type} (a : AudioToScoreAligner α)
    (s : List α) : AudioToScoreAligner α :=
  { a with m_dataFeatures := a.m_dataFeatures ++ [s] }

/-- The method `AudioToScoreAligner::initializeLikelihoods`: one row per frame, one cell
`Likelihood(0, false)` per event, appended to the table. -/
def AudioToScoreAligner.initializeLikelihoods {α : Type} [Zero α]
    (a : AudioToScoreAligner α) : AudioToScoreAligner α :=
  let frames := a.m_dataFeatures.length
  let events := a.m_score.length
  let row : List (Likelihood α) :=
    (List.range events).foldl (fun l _ => l ++ [Likelihood.mk 0 false]) []
  let table := (List.range frames).foldl (fun t _ => t ++ [row]) a.m_likelihoods
  { a with m_likelihoods := table }

/-- The loop over the bins of `getLikelihood`:
`score += m_dataFeatures[frame][bin] * log(eventTemplate[bin])`. -/
def likelihoodScore {α : Type} [Zero α] [Add α] [Mul α] (log : α → α)
    (x tau : List α) : Option α :=
  (List.range x.length).foldlM
    (fun score (bin : Nat) => do
      let xb ← vecAt x (bin : Int)
      let tb ← vecAt tau (bin : Int)
      pure (score + xb * log tb))
    0

/-- The method `AudioToScoreAligner::getLikelihood`, with `exp` and `log` of `<cmath>` as
arguments.  It returns the value and the aligner with its table updated; the
result is `none` when an index is outside its vector. -/
def AudioToScoreAligner.getLikelihood {α : Type} [Zero α] [Add α] [Mul α]
    (exp log : α → α) (a : AudioToScoreAligner α) (frame event : Int) :
    Option (α × AudioToScoreAligner α) := do
  let row ← vecAt a.m_likelihoods frame
  let cell ← vecAt row event
  if !cell.calculated then
    let ev ← vecAt a.m_score event
    let x ← vecAt a.m_dataFeatures frame
    let score ← likelihoodScore log x ev.eventTemplate
    let table := vecSet2 a.m_likelihoods frame.toNat event.toNat
      { cell with likelihood := exp score }
    pure (exp score, { a with m_likelihoods := table })
  else
    pure (cell.likelihood, a)

/-- A sequence of `getLikelihood` calls, each on the aligner left by the one
before. -/
def AudioToScoreAligner.getLikelihoods {α : Type} [Zero α] [Add α] [Mul α]
    (exp log : α → α) (a : AudioToScoreAligner α) (calls : List (Int × Int)) :
    Option (AudioToScoreAligner α) :=
  calls.foldlM
    (fun st c => (st.getLikelihood exp log c.1 c.2).map Prod.snd) a

/-! ## The state graph (`SimpleHMM::SimpleHMM`) -/

/-- The function `round` of `<cmath>` followed by the conversion to `int`: the nearest
integer, halves away from zero. -/
def cRound (x : ℚ) : Int :=
  if 0 ≤ x then ⌊x + 1 / 2⌋ else -⌊-x + 1 / 2⌋

/-- The value `frames = secs * sr / (double)hopSize` with
`secs = duration * 4 * 60. / tempo`, as an exact number. -/
def eventFrames {α : Type} (sr : ℚ) (hopSize : Int) (event : MusicalEvent α) : ℚ :=
  let secs := event.duration * 4 * 60 / event.tempo
  secs * sr / (hopSize : ℚ)

/-- The power `2^k` for an integer `k`. -/
def pow2 (k : Int) : ℚ :=
  if 0 ≤ k then ((2 ^ k.toNat : Nat) : ℚ) else 1 / ((2 ^ (-k).toNat : Nat) : ℚ)

/-- The binary logarithm of a natural number, rounded down, by repeated
halving; the first argument bounds the number of halvings. -/
def log2Fuel : Nat → Nat → Nat
  | 0, _ => 0
  | fuel + 1, n => if 2 ≤ n then log2Fuel fuel (n / 2) + 1 else 0

/-- The binary exponent of a positive number `x`: the `e` with
`2^e ≤ x < 2^(e+1)`. -/
def binadeExp (x : ℚ) : Int :=
  let e0 : Int := (log2Fuel x.num.natAbs x.num.natAbs : Int) - (log2Fuel x.den x.den : Int)
  if pow2 e0 ≤ x then e0 else e0 - 1

/-- The integer nearest to `y`, halves to the even one. -/
def roundHalfEven (y : ℚ) : Int :=
  let f := ⌊y⌋
  let r := y - f
  if r < 1 / 2 then f else if 1 / 2 < r then f + 1 else if f % 2 = 0 then f else f + 1

/-- The result of one `double` operation whose exact result is `x`: the
number with a significand of 53 bits nearest to `x`, halves to the even
significand (IEEE 754 binary64, round to nearest even).  The exponent is not
bounded: overflow and underflow are not modelled. -/
def toDouble (x : ℚ) : ℚ :=
  if x = 0 then 0
  else
    let ulp : ℚ := pow2 (binadeExp |x| - 52)
    (roundHalfEven (x / ulp) : ℚ) * ulp

/-- The `double` held by the variable `frames`:
`secs = duration * 4 * 60. / tempo` and `frames = secs * sr / (double)hopSize`,
each operation rounded. -/
def framesDouble {α : Type} (sr : ℚ) (hopSize : Int) (event : MusicalEvent α) : ℚ :=
  let secs := toDouble (toDouble (toDouble (event.duration * 4) * 60) / event.tempo)
  toDouble (toDouble (secs * sr) / (hopSize : ℚ))

/-- The `double` passed to `round`: `frames*frames / (var + frames)` with
`var = (0.25*0.25) * frames * frames`, each operation rounded. -/
def microQuotient (frames : ℚ) : ℚ :=
  let var := toDouble (toDouble ((0.25 * 0.25) * frames) * frames)
  toDouble (toDouble (frames * frames) / toDouble (var + frames))

/-- The number `M` of micro states of an event:
`round(frames*frames / (var + frames))`, raised to 1 when smaller.  `M` is an
integer cut out of a `double`, so the operations leading to it are rounded as
the `double` operations of the source are. -/
def microCount {α : Type} (sr : ℚ) (hopSize : Int) (event : MusicalEvent α) : Int :=
  let frames := framesDouble sr hopSize event
  let M := cRound (microQuotient frames)
  if M < 1 then 1 else M

/-- The self-loop probability of an event: `p = 1. - M / frames`, a stored
value, in exact arithmetic. -/
def selfLoop {α : Type} (sr : ℚ) (hopSize : Int) (event : MusicalEvent α) : ℚ :=
  1 - (microCount sr hopSize event : ℚ) / eventFrames sr hopSize event

/-- The two maps under construction and the last state added. -/
structure Chain where
  nextStates : TransMap
  prevStates : TransMap
  tail : State

/-- The body of the loop over `m`: add the state `(eventIndex, m)` with its
self-loop and the transition from the tail. -/
def addMicroState (eventIndex : Int) (p tailProb : ℚ) (c : Chain) (m : Nat) : Chain :=
  let newState : State := ⟨eventIndex, m⟩
  let next1 := setTrans c.nextStates newState newState p
  let prev1 := setTrans c.prevStates newState newState p
  if m = 0 then
    { nextStates := setTrans next1 c.tail newState tailProb
      prevStates := setTrans prev1 newState c.tail tailProb
      tail := newState }
  else
    { nextStates := setTrans next1 c.tail newState (1 - p)
      prevStates := setTrans prev1 newState c.tail (1 - p)
      tail := newState }

/-- The variables carried by the loop over the events. -/
structure EventLoop where
  chain : Chain
  tailProb : ℚ
  eventIndex : Int

/-- The body of the loop over the events. -/
def addEvent {α : Type} (sr : ℚ) (hopSize : Int) (l : EventLoop)
    (event : MusicalEvent α) : EventLoop :=
  let M := microCount sr hopSize event
  let p := selfLoop sr hopSize event
  { chain := (List.range M.toNat).foldl (addMicroState l.eventIndex p l.tailProb) l.chain
    tailProb := 1 - p
    eventIndex := l.eventIndex + 1 }

/-- The graph before the first event: the starting state with its self-loop
`p = 0.975`, and `tailProb = 1 - p`. -/
def initialLoop : EventLoop :=
  let p : ℚ := 0.975
  { chain :=
      { nextStates := setTrans [] startingState startingState p
        prevStates := setTrans [] startingState startingState p
        tail := startingState }
    tailProb := 1 - p
    eventIndex := 0 }

/-- The end of the constructor: add the ending state. -/
def addLastState (l : EventLoop) : Chain :=
  let next1 := setTrans l.chain.nextStates lastState lastState 1
  let prev1 := setTrans l.chain.prevStates lastState lastState 1
  { nextStates := setTrans next1 l.chain.tail lastState l.tailProb
    prevStates := setTrans prev1 lastState l.chain.tail l.tailProb
    tail := l.chain.tail }

/-- The fields of `SimpleHMM`. -/
structure SimpleHMM (α : Type) where
  m_aligner : AudioToScoreAligner α
  m_nextStates : TransMap
  m_prevStates : TransMap

/-- The constructor `SimpleHMM::SimpleHMM`: with a hop size of 0 the constructor returns with
both maps empty. -/
def SimpleHMM.new {α : Type} (aligner : AudioToScoreAligner α) : SimpleHMM α :=
  let events := aligner.m_score
  let sr := aligner.m_inputSampleRate
  let hopSize := aligner.m_hopSize
  if hopSize = 0 then
    { m_aligner := aligner, m_nextStates := [], m_prevStates := [] }
  else
    let c := addLastState (events.foldl (addEvent sr hopSize) initialLoop)
    { m_aligner := aligner, m_nextStates := c.nextStates, m_prevStates := c.prevStates }

/-! ## Forward and backward passes (`SimpleHMM.cpp`) -/

/-- The constant `BEAM_SEARCH_WIDTH`. -/
def BEAM_SEARCH_WIDTH : Nat := 200

/-- The merge of the hypotheses by state, in a `map<State, double>`. -/
def mergeHypotheses (hypotheses : List Hypothesis) : List (State × ℚ) :=
  hypotheses.foldl
    (fun merged h =>
      match mapFind merged h.state with
      | none => mapInsert merged h.state h.prob
      | some v => mapInsert merged h.state (v + h.prob))
    []

/-- Merge, sort by `std::greater<Hypothesis>`, trim to the beam width, and
divide by the total. -/
def mergeSortNormalize (hypotheses : List Hypothesis) : List Hypothesis :=
  let merged := mergeHypotheses hypotheses
  let hs := merged.map (fun kv => Hypothesis.mk kv.1 kv.2)
  let sorted := hs.insertionSort (fun a b => a.gt b = true)
  let trimmed := if sorted.length > BEAM_SEARCH_WIDTH then sorted.take BEAM_SEARCH_WIDTH else sorted
  let total := trimmed.foldl (fun t h => t + h.prob) 0
  trimmed.map (fun h => { h with prob := h.prob / total })

/-- The proposals of the forward pass at `frame` from the list of the frame
before. -/
def forwardProposals (getLikelihood : Int → Int → Option ℚ) (nextStates : TransMap)
    (frame : Nat) (previous : List Hypothesis) : Option (List Hypothesis) :=
  previous.foldlM
    (fun hypotheses hypo => do
      let successors ← mapFind nextStates hypo.state
      successors.foldlM
        (fun hypotheses next => do
          let like ← getLikelihood frame next.1.eventIndex
          pure (hypotheses ++ [Hypothesis.mk next.1 (hypo.prob * next.2 * like)]))
        hypotheses)
    []

/-- The function `getForwardProbs`; `getLikelihood` stands for `aligner.getLikelihood`. -/
def getForwardProbs (getLikelihood : Int → Int → Option ℚ) (nextStates : TransMap)
    (totalFrames : Nat) : Option (List (List Hypothesis)) :=
  (List.range' 1 (totalFrames - 1)).foldlM
    (fun forward frame => do
      let previous ← forward[frame - 1]?
      let proposals ← forwardProposals getLikelihood nextStates frame previous
      let hypotheses := mergeSortNormalize proposals
      let _ ← hypotheses.mapM (fun h => getLikelihood frame h.state.eventIndex)
      pure (forward ++ [hypotheses]))
    [[Hypothesis.mk startingState 1]]

/-- The proposals of the backward pass at `frame` from the list of the frame
after. -/
def backwardProposals (getLikelihood : Int → Int → Option ℚ) (prevStates : TransMap)
    (frame : Nat) (later : List Hypothesis) : Option (List Hypothesis) :=
  later.foldlM
    (fun hypotheses hypo => do
      let like ← getLikelihood (frame + 1) hypo.state.eventIndex
      let predecessors ← mapFind prevStates hypo.state
      pure (predecessors.foldl
        (fun hypotheses prev =>
          hypotheses ++ [Hypothesis.mk prev.1 (hypo.prob * prev.2 * like)])
        hypotheses))
    []

/-- The function `getBackwardProbs`. -/
def getBackwardProbs (getLikelihood : Int → Int → Option ℚ) (prevStates : TransMap)
    (totalFrames : Nat) : Option (List (List Hypothesis)) :=
  let backward0 : List (List Hypothesis) := List.replicate totalFrames []
  let backward1 :=
    if totalFrames > 0 then backward0.set (totalFrames - 1) [Hypothesis.mk lastState 1]
    else backward0
  (List.range (totalFrames - 1)).reverse.foldlM
    (fun backward frame => do
      let later ← backward[frame + 1]?
      let proposals ← backwardProposals getLikelihood prevStates frame later
      pure (backward.set frame (mergeSortNormalize proposals)))
    backward1

/-! ## Posterior and onset extraction (`SimpleHMM::getAlignmentResults`) -/

/-- The posterior list of one frame: for each forward hypothesis, the first
backward hypothesis of the same state. -/
def combineFrame (forward backward : List Hypothesis) : List Hypothesis :=
  forward.foldl
    (fun hypotheses hypo1 =>
      match backward.find? (fun hypo2 => decide (hypo1.state = hypo2.state)) with
      | some hypo2 => hypotheses ++ [Hypothesis.mk hypo1.state (hypo1.prob * hypo2.prob)]
      | none => hypotheses)
    []

/-- The posterior lists of all frames, each then sorted. -/
def posterior (forward backward : List (List Hypothesis)) (totalFrames : Nat) :
    Option (List (List Hypothesis)) := do
  let post ← (List.range totalFrames).foldlM
    (fun post frame => do
      let f ← forward[frame]?
      let b ← backward[frame]?
      pure (post ++ [combineFrame f b]))
    []
  pure (post.map (fun p => p.insertionSort (fun a b => a.gt b = true)))

/-- The constant `windowSize`. -/
def windowSize : Int := 3

/-- The score of the window starting at `frame`: the posterior mass on the
state `(event, 0)` over `windowSize` frames. -/
def windowScore (post : List (List Hypothesis)) (event : Int) (frame : Nat) : ℚ :=
  (List.range' frame windowSize.toNat).foldl
    (fun score t =>
      (post.getD t []).foldl
        (fun score h =>
          if h.state.eventIndex = event ∧ h.state.microIndex = 0 then score + h.prob
          else score)
        score)
    0

/-- The loop over the window starts of one event, from `startFrame` while
`frame + windowSize < post.size() + 1`; it carries `bestScore` and
`bestStartFrame`, the second starting at the value `indeterminate`. -/
def bestWindow (post : List (List Hypothesis)) (event : Int) (startFrame : Nat)
    (indeterminate : Int) : ℚ × Int :=
  (List.range' startFrame (post.length + 1 - windowSize.toNat - startFrame)).foldl
    (fun best frame =>
      let score := windowScore post event frame
      if score > best.1 then (score, (frame : Int) + windowSize / 2) else best)
    (0, indeterminate)

/-- The loop over the events: one entry of `results` per event. -/
def extractOnsets (post : List (List Hypothesis)) (numEvents : Nat)
    (indeterminate : Nat → Int) : List Int :=
  (List.range numEvents).foldl
    (fun (results : List Int) (event : Nat) =>
      let startFrame0 : Int :=
        if results.length = 0 then 0
        else results.getLastD 0 - windowSize / 2 + 1
      let startFrame : Int := if startFrame0 < 0 then 0 else startFrame0
      results ++ [(bestWindow post (event : Int) startFrame.toNat (indeterminate event)).2])
    []

/-- The method `SimpleHMM::getAlignmentResults`.  `getLikelihood` stands for
`m_aligner.getLikelihood`, and `indeterminate event` is the value that the
uninitialised `bestStartFrame` holds in the iteration of `event`. -/
def SimpleHMM.getAlignmentResults {α : Type} (hmm : SimpleHMM α)
    (getLikelihood : Int → Int → Option ℚ) (indeterminate : Nat → Int) :
    Option (List Int) := do
  let totalFrames := hmm.m_aligner.m_dataFeatures.length
  let forward ← getForwardProbs getLikelihood hmm.m_nextStates totalFrames
  let backward ← getBackwardProbs getLikelihood hmm.m_prevStates totalFrames
  let post ← posterior forward backward totalFrames
  let numEvents := hmm.m_aligner.m_score.length
  pure (extractOnsets post numEvents indeterminate)

/-- The method `AudioToScoreAligner::align`. -/
def AudioToScoreAligner.align {α : Type} [Zero α] (a : AudioToScoreAligner α)
    (getLikelihood : Int → Int → Option ℚ) (indeterminate : Nat → Int) :
    Option (List Int) :=
  (SimpleHMM.new a.initializeLikelihoods).getAlignmentResults getLikelihood indeterminate

/-! ## The chain as a list of added states

The constructor adds its states one at a time, each with a self-loop and a
transition from the state added before.  The definitions below list these
additions; `new_nextStates_eq` and `new_prevStates_eq` show that the
constructor is the fold of `Chain.add` over the list. -/

/-- One added state: the state, its self-loop probability, and the probability
of the transition entering it from the tail. -/
structure Item where
  state : State
  self : ℚ
  enter : ℚ

/-- The four writes that add one state, and the move of the tail. -/
def Chain.add (c : Chain) (it : Item) : Chain :=
  { nextStates := setTrans (setTrans c.nextStates it.state it.state it.self) c.tail it.state it.enter
    prevStates := setTrans (setTrans c.prevStates it.state it.state it.self) it.state c.tail it.enter
    tail := it.state }

/-- The states added for one event of index `e`, self-loop `p`, `M` micro
states, entered with probability `q`. -/
def microItems (e : Int) (p q : ℚ) (M : Nat) : List Item :=
  (List.range M).map (fun (m : Nat) => Item.mk ⟨e, m⟩ p (if m = 0 then q else 1 - p))

/-- The states added for a list of events, the first having index `k` and
being entered with probability `q`. -/
def eventItems {α : Type} (sr : ℚ) (hopSize : Int) :
    List (MusicalEvent α) → Int → ℚ → List Item
  | [], _, _ => []
  | ev :: rest, k, q =>
    microItems k (selfLoop sr hopSize ev) q (microCount sr hopSize ev).toNat
      ++ eventItems sr hopSize rest (k + 1) (1 - selfLoop sr hopSize ev)

/-- The value of `tailProb` after a list of events, starting from `q`. -/
def finalTailProb {α : Type} (sr : ℚ) (hopSize : Int) :
    List (MusicalEvent α) → ℚ → ℚ
  | [], q => q
  | ev :: rest, _ => finalTailProb sr hopSize rest (1 - selfLoop sr hopSize ev)

/-- All states added by the constructor after the starting state. -/
def allItems {α : Type} (sr : ℚ) (hopSize : Int) (events : List (MusicalEvent α)) :
    List Item :=
  eventItems sr hopSize events 0 (1 - 0.975)
    ++ [Item.mk lastState 1 (finalTailProb sr hopSize events (1 - 0.975))]

/-- The last state of a list of items, or `t` when the list is empty. -/
def lastOf (t : State) (items : List Item) : State :=
  (items.getLast?.map Item.state).getD t

/-- Each item is entered with the probability left over by the self-loop of
the item before it, the first one with `q`. -/
def Linked : ℚ → List Item → Prop
  | _, [] => True
  | q, it :: rest => it.enter = q ∧ Linked (1 - it.self) rest

/-- The probability left for the transition leaving the last item, `q` when
the list is empty. -/
def pendingAfter : ℚ → List Item → ℚ
  | q, [] => q
  | _, it :: rest => pendingAfter (1 - it.self) rest

/-- The state `b` follows `a` in the chain: `b` is the ending state, or the next
micro state of the same event, or the first micro state of the next event. -/
def Follows (a b : State) : Prop :=
  -1 ≤ a.eventIndex ∧
    (b = lastState ∨
      (b.eventIndex = a.eventIndex ∧ b.microIndex = a.microIndex + 1 ∧ 0 ≤ a.eventIndex) ∨
      (b.eventIndex = a.eventIndex + 1 ∧ b.microIndex = 0))

/-- Each item follows the one before it, the first one follows `t`. -/
def Stepped : State → List Item → Prop
  | _, [] => True
  | t, it :: rest => Follows t it.state ∧ Stepped it.state rest

/-- The invariant of the row sums: `S` lists the states present, every row
but the one of the tail sums to 1, and the row of the tail misses `q`. -/
def RowInv (c : Chain) (S : List State) (q : ℚ) : Prop :=
  (∀ a, hasKey c.nextStates a = true → a ∈ S) ∧
  (∀ a b, getTrans c.nextStates a b ≠ none → b ∈ S) ∧
  c.tail ∈ S ∧ hasKey c.nextStates c.tail = true ∧
  (∀ a, hasKey c.nextStates a = true → a ≠ c.tail → rowSum c.nextStates a = 1) ∧
  rowSum c.nextStates c.tail = 1 - q

/-- The table of an aligner `a` in use, `a0` being the aligner before
`initializeLikelihoods`: same score and features, one row per frame and one
cell per event, no cell marked as calculated. -/
def TableOK {α : Type} (a0 a : AudioToScoreAligner α) : Prop :=
  a.m_score = a0.m_score ∧ a.m_dataFeatures = a0.m_dataFeatures ∧
    a.m_likelihoods.length = a0.m_dataFeatures.length ∧
    ∀ row ∈ a.m_likelihoods, row.length = a0.m_score.length ∧
      ∀ cell ∈ row, cell.calculated = false

/-! ## Examples used below -/

/-- A score of one event of half a quarter note at tempo 120, with one feature
frame, at 48000 Hz and a hop of 768 samples. -/
def oneFrame : AudioToScoreAligner ℚ :=
  { m_inputSampleRate := 48000, m_hopSize := 768,
    m_score := [{ duration := 1 / 2, tempo := 120, eventTemplate := [1] }],
    m_dataFeatures := [[0]], m_likelihoods := [] }

/-- The same with two events. -/
def twoEvents : AudioToScoreAligner ℚ :=
  { m_inputSampleRate := 48000, m_hopSize := 768,
    m_score := [{ duration := 1 / 2, tempo := 120, eventTemplate := [1] },
      { duration := 1 / 2, tempo := 120, eventTemplate := [1] }],
    m_dataFeatures := [[0]], m_likelihoods := [] }

/-- Two short events, of 1/128 of a quarter note: `frames = 125/128`. -/
def shortEvents : AudioToScoreAligner ℚ :=
  { m_inputSampleRate := 48000, m_hopSize := 768,
    m_score := [{ duration := 1 / 128, tempo := 120, eventTemplate := [1] },
      { duration := 1 / 128, tempo := 120, eventTemplate := [1] }],
    m_dataFeatures := [[0]], m_likelihoods := [] }

/-- Two short events with eight feature frames. -/
def shortRun : AudioToScoreAligner ℚ :=
  { m_inputSampleRate := 48000, m_hopSize := 768,
    m_score := [{ duration := 1 / 128, tempo := 120, eventTemplate := [1] },
      { duration := 1 / 128, tempo := 120, eventTemplate := [1] }],
    m_dataFeatures := [[0], [0], [0], [0], [0], [0], [0], [0]], m_likelihoods := [] }

/-- One event and one feature frame over the reals. -/
def realFrame : AudioToScoreAligner ℝ :=
  { m_inputSampleRate := 48000, m_hopSize := 768,
    m_score := [{ duration := 1 / 2, tempo := 120, eventTemplate := [1, 2] }],
    m_dataFeatures := [[3, 4]], m_likelihoods := [] }

/-! ## Descriptions used in the statements on the passes and on the vote -/

/-- The posterior lists that `getAlignmentResults` holds in `post` when the
loop over the events starts. -/
def SimpleHMM.posteriors {α : Type} (hmm : SimpleHMM α)
    (getLikelihood : Int → Int → Option ℚ) : Option (List (List Hypothesis)) := do
  let totalFrames := hmm.m_aligner.m_dataFeatures.length
  let forward ← getForwardProbs getLikelihood hmm.m_nextStates totalFrames
  let backward ← getBackwardProbs getLikelihood hmm.m_prevStates totalFrames
  posterior forward backward totalFrames

/-- The hypotheses of a frame after the merge, the sort and the trim, before
the division by the total. -/
def sortAndTrim (hypotheses : List Hypothesis) : List Hypothesis :=
  let sorted := ((mergeHypotheses hypotheses).map (fun kv => Hypothesis.mk kv.1 kv.2)).insertionSort
    (fun a b => a.gt b = true)
  if sorted.length > BEAM_SEARCH_WIDTH then sorted.take BEAM_SEARCH_WIDTH else sorted

/-- The total by which the hypotheses of a frame are divided. -/
def totalOf (hypotheses : List Hypothesis) : ℚ :=
  hypotheses.foldl (fun t h => t + h.prob) 0

/-- The mass that a list of hypotheses puts on the state `s`. -/
def massOf (hypotheses : List Hypothesis) (s : State) : ℚ :=
  ((hypotheses.filter (fun h => decide (h.state = s))).map Hypothesis.prob).sum

/-- The first window start tried for an event, given the results so far:
0, or the last result minus `windowSize/2` plus 1, raised to 0. -/
def startFrameOf (results : List Int) : Int :=
  let startFrame0 : Int :=
    if results.length = 0 then 0
    else results.getLastD 0 - windowSize / 2 + 1
  if startFrame0 < 0 then 0 else startFrame0

/-- The posterior mass that frame `u` puts on the entry state `(event, 0)`. -/
def entryMass (post : List (List Hypothesis)) (event : Int) (u : Nat) : ℚ :=
  massOf (post.getD u []) ⟨event, 0⟩

/-- The score of the window starting at `t`, in the words of the
specification: the sum of the entry mass over the frames `t, …, t + W - 1`. -/
def specScore (post : List (List Hypothesis)) (event : Int) (t : Nat) : ℚ :=
  ((List.range' t windowSize.toNat).map (entryMass post event)).sum

/-- Two events of 62.5 frames each, with five feature frames. -/
def fiveFrames : AudioToScoreAligner ℚ :=
  { m_inputSampleRate := 48000, m_hopSize := 768,
    m_score := [{ duration := 1 / 2, tempo := 120, eventTemplate := [1] },
      { duration := 1 / 2, tempo := 120, eventTemplate := [1] }],
    m_dataFeatures := [[0], [0], [0], [0], [0]], m_likelihoods := [] }

/-- Two events of 4 frames each (`M = 3`, `p = 1/4`), with ten all-zero feature
frames. -/
def silentRun : AudioToScoreAligner ℚ :=
  { m_inputSampleRate := 48000, m_hopSize := 768,
    m_score := [{ duration := 4 / 125, tempo := 120, eventTemplate := [1] },
      { duration := 4 / 125, tempo := 120, eventTemplate := [1] }],
    m_dataFeatures := [[0], [0], [0], [0], [0], [0], [0], [0], [0], [0]],
    m_likelihoods := [] }

/-- The posterior lists of `silentRun` when every likelihood is 1. -/
def silentPost : List (List Hypothesis) :=
  ((SimpleHMM.new silentRun.initializeLikelihoods).posteriors (fun _ _ => some 1)).getD []

/-- The first window start of the event `e` in the words of the
specification: 0 for the first event, otherwise the result of the event before
minus `⌊W/2⌋` plus 1, raised to 0. -/
def specStartFrame (results : List Int) (e : Nat) : Nat :=
  (if e = 0 then (0 : Int)
    else max 0 (results.getD (e - 1) 0 - windowSize / 2 + 1)).toNat

/-- One event whose tempo is 0, with three feature frames. -/
def zeroTempo : AudioToScoreAligner ℚ :=
  { m_inputSampleRate := 48000, m_hopSize := 768,
    m_score := [{ duration := 1 / 2, tempo := 0, eventTemplate := [1] }],
    m_dataFeatures := [[0], [0], [0]], m_likelihoods := [] }

/-- Two events and no feature frame. -/
def noFrames : AudioToScoreAligner ℚ :=
  { m_inputSampleRate := 48000, m_hopSize := 768,
    m_score := [{ duration := 1 / 2, tempo := 120, eventTemplate := [1] },
      { duration := 1 / 2, tempo := 120, eventTemplate := [1] }],
    m_dataFeatures := [], m_likelihoods := [] }

/-- The mass proposed for the state `s` at frame `t` by the backward
recurrence, in the words of the specification: the sum, over the hypotheses
`(s', b)` of the list at `t + 1` and the transitions from `s` to `s'` stored in
`prevStates[s']`, of `b * p(s → s') * L(t + 1, s'.eventIndex)`. -/
def specBackwardMass (getLikelihood : Int → Int → Option ℚ) (prevStates : TransMap)
    (t : Nat) (later : List Hypothesis) (s : State) : ℚ :=
  (later.map (fun h' =>
    ((((mapFind prevStates h'.state).getD []).filter (fun e => decide (e.1 = s))).map
      (fun e => h'.prob * e.2 * (getLikelihood (t + 1) h'.state.eventIndex).getD 0)).sum)).sum

/-- The forward lists of `shortEvents` over four frames, every likelihood
being 1. -/
def shortForward : List (List Hypothesis) :=
  (getForwardProbs (fun _ _ => some 1) (SimpleHMM.new shortEvents).m_nextStates 4).getD []

/-- The backward lists of `shortEvents` over four frames, every likelihood
being 1. -/
def shortBackward : List (List Hypothesis) :=
  (getBackwardProbs (fun _ _ => some 1) (SimpleHMM.new shortEvents).m_prevStates 4).getD []

/-- The posterior lists made of `shortForward` and `shortBackward`. -/
def shortPost : List (List Hypothesis) :=
  (posterior shortForward shortBackward 4).getD []

theorem mapFind_mapInsert {V : Type} (m : List (State × V)) (k : State) (v : V) (x : State) :
    mapFind (mapInsert m k v) x = if x = k then some v else mapFind m x := by
  induction m with
  | nil =>
    by_cases h : x = k
    · simp [mapInsert, mapFind, h]
    · have h' : ¬ k = x := fun e => h e.symm
      simp [mapInsert, mapFind, h, h']
  | cons hd tl ih =>
    obtain ⟨k', v'⟩ := hd
    by_cases hk : k' = k
    · subst hk
      by_cases h : x = k'
      · simp [mapInsert, mapFind, h]
      · have h' : ¬ k' = x := fun e => h e.symm
        simp [mapInsert, mapFind, h, h']
    · by_cases hlt : k.lt k' = true
      · by_cases h : x = k
        · simp [mapInsert, mapFind, hk, hlt, h]
        · have h' : ¬ k = x := fun e => h e.symm
          simp [mapInsert, mapFind, hk, hlt, h, h']
      · by_cases h : x = k
        · subst h
          simp [mapInsert, mapFind, hk, hlt, ih]
        · simp [mapInsert, mapFind, hk, hlt, ih, h]

theorem sum_mapInsert_fresh (row : List (State × ℚ)) (k : State) (v : ℚ)
    (h : mapFind row k = none) :
    ((mapInsert row k v).map Prod.snd).sum = (row.map Prod.snd).sum + v := by
  induction row with
  | nil => simp [mapInsert]
  | cons hd tl ih =>
    obtain ⟨k', v'⟩ := hd
    by_cases hk : k' = k
    · simp [mapFind, hk] at h
    · simp only [mapFind, hk, if_false] at h
      by_cases hlt : k.lt k' = true
      · simp [mapInsert, hk, hlt]; ring
      · simp [mapInsert, hk, hlt, ih h]; ring

theorem getTrans_setTrans (m : TransMap) (a b : State) (v : ℚ) (x y : State) :
    getTrans (setTrans m a b v) x y =
      if x = a ∧ y = b then some v else getTrans m x y := by
  unfold getTrans setTrans
  rw [mapFind_mapInsert]
  by_cases hx : x = a
  · subst hx
    simp only [if_true, Option.some_bind, true_and, mapFind_mapInsert]
    by_cases hy : y = b
    · simp [hy]
    · simp only [hy, if_false]
      cases mapFind m x <;> simp [mapFind]
  · simp [hx]

theorem hasKey_setTrans (m : TransMap) (a b : State) (v : ℚ) (x : State) :
    hasKey (setTrans m a b v) x = (decide (x = a) || hasKey m x) := by
  unfold hasKey setTrans
  rw [mapFind_mapInsert]
  by_cases hx : x = a <;> simp [hx]

theorem rowSum_setTrans_ne (m : TransMap) (a b : State) (v : ℚ) (x : State) (hx : x ≠ a) :
    rowSum (setTrans m a b v) x = rowSum m x := by
  unfold rowSum setTrans
  rw [mapFind_mapInsert]
  simp [hx]

theorem rowSum_setTrans_fresh (m : TransMap) (a b : State) (v : ℚ)
    (h : getTrans m a b = none) :
    rowSum (setTrans m a b v) a = rowSum m a + v := by
  unfold rowSum setTrans
  rw [mapFind_mapInsert]
  simp only [if_true, Option.getD_some]
  apply sum_mapInsert_fresh
  unfold getTrans at h
  cases hm : mapFind m a with
  | none => simp [mapFind]
  | some row => simpa [hm] using h

/-! ## The constructor as a fold -/

theorem addMicroState_eq (e : Int) (p q : ℚ) (c : Chain) (m : Nat) :
    addMicroState e p q c m = c.add (Item.mk ⟨e, m⟩ p (if m = 0 then q else 1 - p)) := by
  unfold addMicroState Chain.add
  by_cases h : m = 0 <;> simp [h]

theorem foldl_addMicroState (e : Int) (p q : ℚ) (M : Nat) (c : Chain) :
    (List.range M).foldl (addMicroState e p q) c = (microItems e p q M).foldl Chain.add c := by
  have h : addMicroState e p q =
      fun c m => c.add (Item.mk ⟨e, m⟩ p (if m = 0 then q else 1 - p)) := by
    funext c m
    exact addMicroState_eq e p q c m
  rw [h, microItems, List.foldl_map]

theorem foldl_addEvent {α : Type} (sr : ℚ) (hopSize : Int) (events : List (MusicalEvent α))
    (l : EventLoop) :
    events.foldl (addEvent sr hopSize) l =
      { chain := (eventItems sr hopSize events l.eventIndex l.tailProb).foldl Chain.add l.chain
        tailProb := finalTailProb sr hopSize events l.tailProb
        eventIndex := l.eventIndex + events.length } := by
  induction events generalizing l with
  | nil => simp [eventItems, finalTailProb]
  | cons ev rest ih =>
    rw [List.foldl_cons, ih]
    simp only [addEvent, foldl_addMicroState, eventItems, finalTailProb, List.foldl_append,
      List.length_cons, Nat.cast_add, Nat.cast_one]
    congr 1
    ring

theorem new_nextStates_eq {α : Type} (aligner : AudioToScoreAligner α)
    (hhop : aligner.m_hopSize ≠ 0) :
    (SimpleHMM.new aligner).m_nextStates =
      ((allItems aligner.m_inputSampleRate aligner.m_hopSize aligner.m_score).foldl
        Chain.add initialLoop.chain).nextStates := by
  unfold SimpleHMM.new allItems
  simp only [hhop, if_false, foldl_addEvent, List.foldl_append, List.foldl_cons, List.foldl_nil]
  rfl

theorem new_prevStates_eq {α : Type} (aligner : AudioToScoreAligner α)
    (hhop : aligner.m_hopSize ≠ 0) :
    (SimpleHMM.new aligner).m_prevStates =
      ((allItems aligner.m_inputSampleRate aligner.m_hopSize aligner.m_score).foldl
        Chain.add initialLoop.chain).prevStates := by
  unfold SimpleHMM.new allItems
  simp only [hhop, if_false, foldl_addEvent, List.foldl_append, List.foldl_cons, List.foldl_nil]
  rfl

/-! ## One added state -/

theorem getTrans_add_next (c : Chain) (it : Item) (x y : State) :
    getTrans (c.add it).nextStates x y =
      if x = c.tail ∧ y = it.state then some it.enter
      else if x = it.state ∧ y = it.state then some it.self
      else getTrans c.nextStates x y := by
  simp only [Chain.add, getTrans_setTrans]

theorem getTrans_add_prev (c : Chain) (it : Item) (x y : State) :
    getTrans (c.add it).prevStates x y =
      if x = it.state ∧ y = c.tail then some it.enter
      else if x = it.state ∧ y = it.state then some it.self
      else getTrans c.prevStates x y := by
  simp only [Chain.add, getTrans_setTrans]

theorem hasKey_add_next (c : Chain) (it : Item) (x : State) :
    hasKey (c.add it).nextStates x =
      (decide (x = c.tail) || (decide (x = it.state) || hasKey c.nextStates x)) := by
  simp only [Chain.add, hasKey_setTrans]

theorem hasKey_add_prev (c : Chain) (it : Item) (x : State) :
    hasKey (c.add it).prevStates x = (decide (x = it.state) || hasKey c.prevStates x) := by
  simp only [Chain.add, hasKey_setTrans]
  cases hasKey c.prevStates x <;> simp

theorem lastOf_cons (t : State) (it : Item) (rest : List Item) :
    lastOf t (it :: rest) = lastOf it.state rest := by
  cases rest with
  | nil => simp [lastOf]
  | cons it2 rest2 =>
    unfold lastOf
    rw [List.getLast?_cons_cons]
    cases h : (it2 :: rest2).getLast? with
    | none => simp at h
    | some x => simp

theorem tail_foldl_add (items : List Item) (c : Chain) :
    (items.foldl Chain.add c).tail = lastOf c.tail items := by
  induction items generalizing c with
  | nil => simp [lastOf]
  | cons it rest ih =>
    rw [List.foldl_cons, ih, lastOf_cons]
    rfl

theorem lastOf_append (t : State) (l1 l2 : List Item) :
    lastOf t (l1 ++ l2) = lastOf (lastOf t l1) l2 := by
  induction l1 generalizing t with
  | nil => simp [lastOf]
  | cons it rest ih => rw [List.cons_append, lastOf_cons, lastOf_cons, ih]

/-- A transition into a state that is not added keeps its value. -/
theorem getTrans_foldl_frame (items : List Item) (c : Chain) (a b : State)
    (hb : b ∉ items.map Item.state) :
    getTrans (items.foldl Chain.add c).nextStates a b = getTrans c.nextStates a b := by
  induction items generalizing c with
  | nil => rfl
  | cons it rest ih =>
    simp only [List.map_cons, List.mem_cons, not_or] at hb
    rw [List.foldl_cons, ih _ hb.2, getTrans_add_next]
    simp [hb.1]

/-- The two maps of the chain hold the same transitions. -/
theorem consistent_foldl (items : List Item) (c : Chain)
    (h : ∀ a b, getTrans c.nextStates a b = getTrans c.prevStates b a) :
    ∀ a b, getTrans (items.foldl Chain.add c).nextStates a b =
      getTrans (items.foldl Chain.add c).prevStates b a := by
  induction items generalizing c with
  | nil => exact h
  | cons it rest ih =>
    rw [List.foldl_cons]
    apply ih
    intro a b
    rw [getTrans_add_next, getTrans_add_prev, h]
    by_cases h1 : a = c.tail ∧ b = it.state
    · simp [h1.1, h1.2]
    · have h1' : ¬ (b = it.state ∧ a = c.tail) := fun e => h1 ⟨e.2, e.1⟩
      by_cases h2 : a = it.state ∧ b = it.state
      · simp [h1, h1', h2.1, h2.2]
      · have h2' : ¬ (b = it.state ∧ a = it.state) := fun e => h2 ⟨e.2, e.1⟩
        simp [h1, h1', h2, h2']

theorem getTrans_nil (a b : State) : getTrans [] a b = none := rfl

theorem consistent_initial (a b : State) :
    getTrans initialLoop.chain.nextStates a b = getTrans initialLoop.chain.prevStates b a := by
  simp only [initialLoop, getTrans_setTrans]
  by_cases h : a = startingState ∧ b = startingState
  · simp [h.1, h.2]
  · have h' : ¬ (b = startingState ∧ a = startingState) := fun e => h ⟨e.2, e.1⟩
    simp [h, h', getTrans_nil]

theorem hasKey_nil (a : State) : hasKey [] a = false := rfl

/-- The two maps of the constructor hold the same transitions. -/
theorem new_consistent {α : Type} (aligner : AudioToScoreAligner α) (a b : State) :
    getTrans (SimpleHMM.new aligner).m_nextStates a b =
      getTrans (SimpleHMM.new aligner).m_prevStates b a := by
  by_cases hhop : aligner.m_hopSize = 0
  · simp [SimpleHMM.new, hhop, getTrans_nil]
  · rw [new_nextStates_eq aligner hhop, new_prevStates_eq aligner hhop]
    exact consistent_foldl _ _ consistent_initial a b

/-! ## Row sums -/

theorem rowSum_of_not_hasKey (m : TransMap) (a : State) (h : hasKey m a = false) :
    rowSum m a = 0 := by
  unfold hasKey at h
  unfold rowSum
  cases hm : mapFind m a with
  | none => simp
  | some row => simp [hm] at h

theorem getTrans_of_not_hasKey (m : TransMap) (a b : State) (h : hasKey m a = false) :
    getTrans m a b = none := by
  unfold hasKey at h
  unfold getTrans
  cases hm : mapFind m a with
  | none => simp
  | some row => simp [hm] at h

theorem rowInv_add (c : Chain) (S : List State) (q : ℚ) (it : Item)
    (h : RowInv c S q) (hfresh : it.state ∉ S) (henter : it.enter = q) :
    RowInv (c.add it) (S ++ [it.state]) (1 - it.self) := by
  obtain ⟨hkeys, htargets, htail, htailkey, hsum, hsumtail⟩ := h
  have hne : it.state ≠ c.tail := fun e => hfresh (e ▸ htail)
  have hne' : c.tail ≠ it.state := fun e => hne e.symm
  have hnokey : hasKey c.nextStates it.state = false := by
    cases hk : hasKey c.nextStates it.state with
    | false => rfl
    | true => exact absurd (hkeys _ hk) hfresh
  have hnone : ∀ a, getTrans c.nextStates a it.state = none := by
    intro a
    by_contra hc
    exact hfresh (htargets a _ hc)
  -- the two rows that change
  have hrow_new : rowSum (c.add it).nextStates it.state = it.self := by
    simp only [Chain.add]
    rw [rowSum_setTrans_ne _ _ _ _ _ hne, rowSum_setTrans_fresh _ _ _ _ (hnone _),
      rowSum_of_not_hasKey _ _ hnokey, zero_add]
  have hrow_tail : rowSum (c.add it).nextStates c.tail = 1 := by
    simp only [Chain.add]
    rw [rowSum_setTrans_fresh, rowSum_setTrans_ne _ _ _ _ _ hne', hsumtail, henter]
    · ring
    · rw [getTrans_setTrans]
      simp [hne', hnone]
  refine ⟨?_, ?_, ?_, ?_, ?_, ?_⟩
  · intro a ha
    rw [hasKey_add_next] at ha
    simp only [Bool.or_eq_true, decide_eq_true_eq] at ha
    rcases ha with ha | ha | ha
    · rw [ha]; exact List.mem_append_left _ htail
    · rw [ha]; simp
    · exact List.mem_append_left _ (hkeys a ha)
  · intro a b hab
    rw [getTrans_add_next] at hab
    by_cases h1 : a = c.tail ∧ b = it.state
    · rw [h1.2]; simp
    · by_cases h2 : a = it.state ∧ b = it.state
      · rw [h2.2]; simp
      · simp only [h1, h2, if_false] at hab
        exact List.mem_append_left _ (htargets a b hab)
  · simp [Chain.add]
  · rw [hasKey_add_next]
    simp [Chain.add]
  · intro a ha hat
    have hat' : a ≠ it.state := hat
    rw [hasKey_add_next] at ha
    simp only [Bool.or_eq_true, decide_eq_true_eq] at ha
    rcases ha with ha | ha | ha
    · rw [ha]; exact hrow_tail
    · exact absurd ha hat'
    · by_cases hct : a = c.tail
      · rw [hct]; exact hrow_tail
      · simp only [Chain.add]
        rw [rowSum_setTrans_ne _ _ _ _ _ hct, rowSum_setTrans_ne _ _ _ _ _ hat']
        exact hsum a ha hct
  · show rowSum (c.add it).nextStates it.state = 1 - (1 - it.self)
    rw [hrow_new]; ring

theorem rowInv_foldl (items : List Item) (c : Chain) (S : List State) (q : ℚ)
    (h : RowInv c S q) (hlinked : Linked q items)
    (hnodup : (S ++ items.map Item.state).Nodup) :
    ∃ q', RowInv (items.foldl Chain.add c) (S ++ items.map Item.state) q' := by
  induction items generalizing c S q with
  | nil => exact ⟨q, by simpa using h⟩
  | cons it rest ih =>
    obtain ⟨henter, hrest⟩ := hlinked
    have hfresh : it.state ∉ S := by
      intro hmem
      have := List.disjoint_of_nodup_append hnodup hmem
      exact this (by simp)
    have hstep := rowInv_add c S q it h hfresh henter
    have hnodup' : ((S ++ [it.state]) ++ rest.map Item.state).Nodup := by
      simpa [List.append_assoc] using hnodup
    obtain ⟨q', hq'⟩ := ih (c.add it) (S ++ [it.state]) (1 - it.self) hstep hrest hnodup'
    exact ⟨q', by simpa [List.append_assoc] using hq'⟩

theorem rowInv_initial : RowInv initialLoop.chain [startingState] (1 - 0.975) := by
  have hkey : ∀ a, hasKey initialLoop.chain.nextStates a = decide (a = startingState) := by
    intro a
    simp [initialLoop, hasKey_setTrans, hasKey_nil]
  have hsum : rowSum initialLoop.chain.nextStates startingState = 0.975 := by
    simp only [initialLoop]
    rw [rowSum_setTrans_fresh _ _ _ _ (getTrans_nil _ _), rowSum_of_not_hasKey _ _ (hasKey_nil _)]
    norm_num
  refine ⟨?_, ?_, ?_, ?_, ?_, ?_⟩
  · intro a ha
    rw [hkey] at ha
    simpa using ha
  · intro a b hab
    simp only [initialLoop, getTrans_setTrans, getTrans_nil] at hab
    by_cases h : a = startingState ∧ b = startingState
    · simp [h.2]
    · simp [h] at hab
  · simp [initialLoop]
  · rw [hkey]; simp [initialLoop]
  · intro a ha hne
    rw [hkey] at ha
    simp only [decide_eq_true_eq] at ha
    exact absurd ha hne
  · show rowSum initialLoop.chain.nextStates startingState = 1 - (1 - 0.975)
    rw [hsum]; norm_num

/-! ## The list of added states -/

theorem microCount_pos {α : Type} (sr : ℚ) (hopSize : Int) (ev : MusicalEvent α) :
    1 ≤ microCount sr hopSize ev := by
  unfold microCount
  simp only
  split
  · exact le_refl 1
  · omega

theorem microCount_toNat {α : Type} (sr : ℚ) (hopSize : Int) (ev : MusicalEvent α) :
    ∃ n : Nat, (microCount sr hopSize ev).toNat = n + 1 := by
  have h := microCount_pos sr hopSize ev
  refine ⟨(microCount sr hopSize ev).toNat - 1, ?_⟩
  omega

theorem microItems_succ (e : Int) (p q : ℚ) (M : Nat) :
    microItems e p q (M + 1) =
      microItems e p q M ++ [Item.mk ⟨e, M⟩ p (if M = 0 then q else 1 - p)] := by
  simp [microItems, List.range_succ]

theorem linked_append (q : ℚ) (l1 l2 : List Item) :
    Linked q (l1 ++ l2) ↔ Linked q l1 ∧ Linked (pendingAfter q l1) l2 := by
  induction l1 generalizing q with
  | nil => simp [Linked, pendingAfter]
  | cons it rest ih => simp [Linked, pendingAfter, ih, and_assoc]

theorem pendingAfter_append (q : ℚ) (l1 l2 : List Item) :
    pendingAfter q (l1 ++ l2) = pendingAfter (pendingAfter q l1) l2 := by
  induction l1 generalizing q with
  | nil => simp [pendingAfter]
  | cons it rest ih => simp [pendingAfter, ih]

theorem linked_microItems (e : Int) (p q : ℚ) (M : Nat) :
    Linked q (microItems e p q M) ∧
      pendingAfter q (microItems e p q M) = if M = 0 then q else 1 - p := by
  induction M with
  | zero => simp [microItems, Linked, pendingAfter]
  | succ n ih =>
    rw [microItems_succ, linked_append, pendingAfter_append, ih.2]
    refine ⟨⟨ih.1, ?_⟩, ?_⟩
    · simp [Linked]
    · simp [pendingAfter]

theorem linked_eventItems {α : Type} (sr : ℚ) (hopSize : Int)
    (events : List (MusicalEvent α)) (k : Int) (q : ℚ) :
    Linked q (eventItems sr hopSize events k q) ∧
      pendingAfter q (eventItems sr hopSize events k q) = finalTailProb sr hopSize events q := by
  induction events generalizing k q with
  | nil => simp [eventItems, Linked, pendingAfter, finalTailProb]
  | cons ev rest ih =>
    obtain ⟨n, hn⟩ := microCount_toNat sr hopSize ev
    have hm := linked_microItems k (selfLoop sr hopSize ev) q (microCount sr hopSize ev).toNat
    have hpend : pendingAfter q
        (microItems k (selfLoop sr hopSize ev) q (microCount sr hopSize ev).toNat) =
        1 - selfLoop sr hopSize ev := by
      rw [hm.2, hn]; simp
    simp only [eventItems, finalTailProb]
    rw [linked_append, pendingAfter_append, hpend]
    exact ⟨⟨hm.1, (ih _ _).1⟩, (ih _ _).2⟩

theorem linked_allItems {α : Type} (sr : ℚ) (hopSize : Int)
    (events : List (MusicalEvent α)) :
    Linked (1 - 0.975) (allItems sr hopSize events) := by
  unfold allItems
  rw [linked_append, (linked_eventItems sr hopSize events 0 _).2]
  exact ⟨(linked_eventItems sr hopSize events 0 _).1, by simp [Linked]⟩

theorem mem_states_microItems (e : Int) (p q : ℚ) (M : Nat) (s : State) :
    s ∈ (microItems e p q M).map Item.state ↔ ∃ m : Nat, m < M ∧ s = ⟨e, m⟩ := by
  simp only [microItems, List.map_map, List.mem_map, List.mem_range, Function.comp]
  constructor
  · rintro ⟨m, hm, rfl⟩
    exact ⟨m, hm, rfl⟩
  · rintro ⟨m, hm, rfl⟩
    exact ⟨m, hm, rfl⟩

theorem nodup_states_microItems (e : Int) (p q : ℚ) (M : Nat) :
    ((microItems e p q M).map Item.state).Nodup := by
  simp only [microItems, List.map_map]
  apply List.Nodup.map _ (List.nodup_range M)
  intro a b hab
  simp only [Function.comp, State.mk.injEq, true_and] at hab
  exact_mod_cast hab

/-- The states of the events: the micro states `(k + i, m)` with `m` below the
count of the event at position `i`. -/
theorem mem_states_eventItems {α : Type} (sr : ℚ) (hopSize : Int)
    (events : List (MusicalEvent α)) (k : Int) (q : ℚ) (s : State) :
    s ∈ (eventItems sr hopSize events k q).map Item.state ↔
      ∃ (i : Nat) (ev : MusicalEvent α), events[i]? = some ev ∧
        ∃ m : Nat, (m : Int) < microCount sr hopSize ev ∧ s = ⟨k + i, m⟩ := by
  induction events generalizing k q with
  | nil => simp [eventItems]
  | cons ev rest ih =>
    simp only [eventItems, List.map_append, List.mem_append, mem_states_microItems, ih]
    constructor
    · rintro (⟨m, hm, rfl⟩ | ⟨i, ev', hi, m, hm, rfl⟩)
      · exact ⟨0, ev, by simp, m, by omega, by simp⟩
      · refine ⟨i + 1, ev', by simpa using hi, m, hm, ?_⟩
        simp only [State.mk.injEq, and_true]
        push_cast
        ring
    · rintro ⟨i, ev', hi, m, hm, rfl⟩
      cases i with
      | zero =>
        left
        simp only [List.getElem?_cons_zero, Option.some.injEq] at hi
        subst hi
        exact ⟨m, by omega, by simp⟩
      | succ j =>
        right
        refine ⟨j, ev', by simpa using hi, m, hm, ?_⟩
        simp only [State.mk.injEq, and_true]
        push_cast
        ring

theorem nodup_states_eventItems {α : Type} (sr : ℚ) (hopSize : Int)
    (events : List (MusicalEvent α)) (k : Int) (q : ℚ) :
    ((eventItems sr hopSize events k q).map Item.state).Nodup := by
  induction events generalizing k q with
  | nil => simp [eventItems]
  | cons ev rest ih =>
    simp only [eventItems, List.map_append]
    rw [List.nodup_append]
    refine ⟨nodup_states_microItems _ _ _ _, ih _ _, ?_⟩
    intro s hs1 hs2
    rw [mem_states_microItems] at hs1
    rw [mem_states_eventItems] at hs2
    obtain ⟨m, _, rfl⟩ := hs1
    obtain ⟨i, ev', _, m', _, h⟩ := hs2
    simp only [State.mk.injEq] at h
    omega

theorem nodup_all_states {α : Type} (sr : ℚ) (hopSize : Int)
    (events : List (MusicalEvent α)) :
    ([startingState] ++ (allItems sr hopSize events).map Item.state).Nodup := by
  unfold allItems
  simp only [List.map_append, List.map_cons, List.map_nil, List.singleton_append,
    List.nodup_cons, List.mem_append, List.mem_singleton, not_or]
  refine ⟨⟨?_, by decide⟩, ?_⟩
  · rw [mem_states_eventItems]
    rintro ⟨i, ev, _, m, _, h⟩
    simp only [startingState, State.mk.injEq] at h
    omega
  · rw [List.nodup_append]
    refine ⟨nodup_states_eventItems _ _ _ _ _, by simp, ?_⟩
    intro s hs1 hs2
    rw [mem_states_eventItems] at hs1
    obtain ⟨i, ev, _, m, _, rfl⟩ := hs1
    simp only [List.mem_singleton, lastState, State.mk.injEq] at hs2
    omega

theorem lastOf_allItems {α : Type} (sr : ℚ) (hopSize : Int)
    (events : List (MusicalEvent α)) (t : State) :
    lastOf t (allItems sr hopSize events) = lastState := by
  unfold allItems
  rw [lastOf_append]
  simp [lastOf]

/-- Every row of the built graph, the one of the ending state apart, sums
to 1. -/
theorem new_rowSum {α : Type} (aligner : AudioToScoreAligner α) (s : State)
    (hs : hasKey (SimpleHMM.new aligner).m_nextStates s = true) (hne : s ≠ lastState) :
    rowSum (SimpleHMM.new aligner).m_nextStates s = 1 := by
  by_cases hhop : aligner.m_hopSize = 0
  · simp [SimpleHMM.new, hhop, hasKey_nil] at hs
  · rw [new_nextStates_eq aligner hhop] at hs ⊢
    obtain ⟨q', hinv⟩ := rowInv_foldl _ _ _ _ rowInv_initial
      (linked_allItems aligner.m_inputSampleRate aligner.m_hopSize aligner.m_score)
      (nodup_all_states aligner.m_inputSampleRate aligner.m_hopSize aligner.m_score)
    obtain ⟨_, _, _, _, hsum, _⟩ := hinv
    apply hsum s hs
    rw [tail_foldl_add, lastOf_allItems]
    exact hne

/-! ## The shape of the transitions -/

theorem edges_foldl (items : List Item) (c : Chain)
    (h : ∀ a b, getTrans c.nextStates a b ≠ none → a = b ∨ Follows a b)
    (hstep : Stepped c.tail items) :
    ∀ a b, getTrans (items.foldl Chain.add c).nextStates a b ≠ none → a = b ∨ Follows a b := by
  induction items generalizing c with
  | nil => exact h
  | cons it rest ih =>
    rw [List.foldl_cons]
    apply ih
    · intro a b hab
      rw [getTrans_add_next] at hab
      by_cases h1 : a = c.tail ∧ b = it.state
      · right
        rw [h1.1, h1.2]
        exact hstep.1
      · by_cases h2 : a = it.state ∧ b = it.state
        · left
          rw [h2.1, h2.2]
        · simp only [h1, h2, if_false] at hab
          exact h a b hab
    · exact hstep.2

theorem stepped_append (t : State) (l1 l2 : List Item) :
    Stepped t (l1 ++ l2) ↔ Stepped t l1 ∧ Stepped (lastOf t l1) l2 := by
  induction l1 generalizing t with
  | nil => simp [Stepped, lastOf]
  | cons it rest ih => simp [Stepped, lastOf_cons, ih, and_assoc]

theorem lastOf_microItems (e : Int) (p q : ℚ) (M : Nat) (t : State) :
    lastOf t (microItems e p q M) = if M = 0 then t else ⟨e, ((M - 1 : Nat) : Int)⟩ := by
  cases M with
  | zero => simp [microItems, lastOf]
  | succ n =>
    rw [microItems_succ, lastOf_append]
    simp [lastOf]

theorem stepped_microItems (e : Int) (p q : ℚ) (M : Nat) (t : State)
    (he : 0 ≤ e) (ht : t.eventIndex = e - 1) :
    Stepped t (microItems e p q M) := by
  induction M with
  | zero => simp [microItems, Stepped]
  | succ n ih =>
    rw [microItems_succ, stepped_append, lastOf_microItems]
    refine ⟨ih, ?_, trivial⟩
    by_cases hn : n = 0
    · subst hn
      rw [if_pos rfl]
      exact ⟨by omega, Or.inr (Or.inr ⟨by show e = t.eventIndex + 1; omega, rfl⟩)⟩
    · rw [if_neg hn]
      refine ⟨he.trans' (by decide), Or.inr (Or.inl ⟨rfl, ?_, he⟩)⟩
      show ((n : Nat) : Int) = ((n - 1 : Nat) : Int) + 1
      omega

theorem stepped_eventItems {α : Type} (sr : ℚ) (hopSize : Int)
    (events : List (MusicalEvent α)) (k : Int) (q : ℚ) (t : State)
    (hk : 0 ≤ k) (ht : t.eventIndex = k - 1) :
    Stepped t (eventItems sr hopSize events k q) ∧
      (lastOf t (eventItems sr hopSize events k q)).eventIndex = k + events.length - 1 := by
  induction events generalizing k q t with
  | nil => simp [eventItems, Stepped, lastOf, ht]
  | cons ev rest ih =>
    obtain ⟨n, hn⟩ := microCount_toNat sr hopSize ev
    simp only [eventItems]
    rw [stepped_append, lastOf_append]
    have hlast : (lastOf t (microItems k (selfLoop sr hopSize ev) q
        (microCount sr hopSize ev).toNat)).eventIndex = (k + 1) - 1 := by
      rw [lastOf_microItems, hn]
      simp
    have h := ih (k + 1) (1 - selfLoop sr hopSize ev) _ (by omega) hlast
    refine ⟨⟨stepped_microItems _ _ _ _ _ hk ht, h.1⟩, ?_⟩
    rw [h.2]
    simp only [List.length_cons, Nat.cast_add, Nat.cast_one]
    ring

theorem stepped_allItems {α : Type} (sr : ℚ) (hopSize : Int)
    (events : List (MusicalEvent α)) :
    Stepped startingState (allItems sr hopSize events) := by
  unfold allItems
  rw [stepped_append]
  have h := stepped_eventItems sr hopSize events 0 (1 - 0.975) startingState (le_refl 0)
    (by simp [startingState])
  refine ⟨h.1, ?_, trivial⟩
  refine ⟨?_, Or.inl rfl⟩
  rw [h.2]
  omega

/-- Every transition of the built graph is a self-loop or leads to the state
that follows. -/
theorem new_edges {α : Type} (aligner : AudioToScoreAligner α) (a b : State)
    (h : getTrans (SimpleHMM.new aligner).m_nextStates a b ≠ none) :
    a = b ∨ Follows a b := by
  by_cases hhop : aligner.m_hopSize = 0
  · simp [SimpleHMM.new, hhop, getTrans_nil] at h
  · rw [new_nextStates_eq aligner hhop] at h
    refine edges_foldl _ _ ?_ (stepped_allItems _ _ _) a b h
    intro x y hxy
    simp only [initialLoop, getTrans_setTrans, getTrans_nil] at hxy
    by_cases hs : x = startingState ∧ y = startingState
    · left; rw [hs.1, hs.2]
    · simp [hs] at hxy

/-! ## The states and the values of the built graph -/

theorem hasKey_foldl_next (items : List Item) (c : Chain)
    (ht : hasKey c.nextStates c.tail = true) (s : State) :
    hasKey (items.foldl Chain.add c).nextStates s = true ↔
      hasKey c.nextStates s = true ∨ s ∈ items.map Item.state := by
  induction items generalizing c with
  | nil => simp
  | cons it rest ih =>
    have ht' : hasKey (c.add it).nextStates (c.add it).tail = true := by
      rw [hasKey_add_next]
      simp [Chain.add]
    rw [List.foldl_cons, ih _ ht', hasKey_add_next]
    simp only [Bool.or_eq_true, decide_eq_true_eq, List.map_cons, List.mem_cons]
    constructor
    · rintro ((h | h | h) | h)
      · left; rw [h]; exact ht
      · right; left; exact h
      · left; exact h
      · right; right; exact h
    · rintro (h | h | h)
      · left; right; right; exact h
      · left; right; left; exact h
      · right; exact h

theorem hasKey_foldl_prev (items : List Item) (c : Chain) (s : State) :
    hasKey (items.foldl Chain.add c).prevStates s = true ↔
      hasKey c.prevStates s = true ∨ s ∈ items.map Item.state := by
  induction items generalizing c with
  | nil => simp
  | cons it rest ih =>
    rw [List.foldl_cons, ih, hasKey_add_prev]
    simp only [Bool.or_eq_true, decide_eq_true_eq, List.map_cons, List.mem_cons]
    constructor
    · rintro ((h | h) | h)
      · right; left; exact h
      · left; exact h
      · right; right; exact h
    · rintro (h | h | h)
      · left; right; exact h
      · left; left; exact h
      · right; exact h

theorem lastOf_mem (t : State) (items : List Item) :
    lastOf t items = t ∨ lastOf t items ∈ items.map Item.state := by
  induction items generalizing t with
  | nil => left; simp [lastOf]
  | cons it rest ih =>
    rw [lastOf_cons]
    rcases ih it.state with h | h
    · right; rw [h]; simp
    · right; simp only [List.map_cons, List.mem_cons]; right; exact h

/-- In a chain of pairwise distinct states, each added state keeps its
self-loop and the transition that entered it. -/
theorem chain_edges (pre : List Item) (it : Item) (post : List Item) (c : Chain)
    (hnodup : (c.tail :: (pre ++ it :: post).map Item.state).Nodup) :
    getTrans ((pre ++ it :: post).foldl Chain.add c).nextStates it.state it.state
        = some it.self ∧
      getTrans ((pre ++ it :: post).foldl Chain.add c).nextStates (lastOf c.tail pre) it.state
        = some it.enter := by
  simp only [List.map_append, List.map_cons, List.nodup_cons, List.mem_append, List.mem_cons,
    not_or] at hnodup
  obtain ⟨⟨hc1, hc2, _⟩, hnd⟩ := hnodup
  rw [List.nodup_append] at hnd
  obtain ⟨_, hnd2, hdisj⟩ := hnd
  have hpost : it.state ∉ post.map Item.state := (List.nodup_cons.mp hnd2).1
  have hpre : it.state ∉ pre.map Item.state := fun hmem => hdisj hmem (by simp)
  have hlast : lastOf c.tail pre ≠ it.state := by
    rcases lastOf_mem c.tail pre with h | h
    · rw [h]; exact hc2
    · intro e
      exact hpre (e ▸ h)
  rw [List.foldl_append, List.foldl_cons]
  constructor
  · rw [getTrans_foldl_frame _ _ _ _ hpost, getTrans_add_next, tail_foldl_add]
    have h1 : ¬ (it.state = lastOf c.tail pre ∧ it.state = it.state) := fun e => hlast e.1.symm
    rw [if_neg h1, if_pos ⟨rfl, rfl⟩]
  · rw [getTrans_foldl_frame _ _ _ _ hpost, getTrans_add_next, tail_foldl_add,
      if_pos ⟨rfl, rfl⟩]

theorem microItems_split (e : Int) (p q : ℚ) (M m : Nat) (hm : m < M) :
    ∃ post, microItems e p q M =
      microItems e p q m ++ Item.mk ⟨e, m⟩ p (if m = 0 then q else 1 - p) :: post := by
  induction M with
  | zero => omega
  | succ n ih =>
    by_cases hmn : m = n
    · subst hmn
      exact ⟨[], microItems_succ e p q m⟩
    · obtain ⟨post, hpost⟩ := ih (by omega)
      refine ⟨post ++ [Item.mk ⟨e, n⟩ p (if n = 0 then q else 1 - p)], ?_⟩
      rw [microItems_succ, hpost]
      simp

theorem eventItems_append {α : Type} (sr : ℚ) (hopSize : Int)
    (l1 l2 : List (MusicalEvent α)) (k : Int) (q : ℚ) :
    eventItems sr hopSize (l1 ++ l2) k q =
      eventItems sr hopSize l1 k q ++
        eventItems sr hopSize l2 (k + l1.length) (finalTailProb sr hopSize l1 q) := by
  induction l1 generalizing k q with
  | nil => simp [eventItems, finalTailProb]
  | cons ev rest ih =>
    have hk : k + 1 + (rest.length : Int) = k + ((rest.length + 1 : Nat) : Int) := by
      push_cast
      ring
    show microItems k (selfLoop sr hopSize ev) q (microCount sr hopSize ev).toNat ++
        eventItems sr hopSize (rest ++ l2) (k + 1) (1 - selfLoop sr hopSize ev) =
      (microItems k (selfLoop sr hopSize ev) q (microCount sr hopSize ev).toNat ++
        eventItems sr hopSize rest (k + 1) (1 - selfLoop sr hopSize ev)) ++
        eventItems sr hopSize l2 (k + ((rest.length + 1 : Nat) : Int))
          (finalTailProb sr hopSize rest (1 - selfLoop sr hopSize ev))
    rw [ih, hk, List.append_assoc]

theorem events_split {α : Type} (events : List (MusicalEvent α)) (i : Nat)
    (ev : MusicalEvent α) (h : events[i]? = some ev) :
    events = events.take i ++ ev :: events.drop (i + 1) := by
  induction events generalizing i with
  | nil => simp at h
  | cons hd tl ih =>
    cases i with
    | zero =>
      simp only [List.getElem?_cons_zero, Option.some.injEq] at h
      simp [h]
    | succ j =>
      simp only [List.getElem?_cons_succ] at h
      simp only [List.take_succ_cons, List.drop_succ_cons, List.cons_append, List.cons.injEq,
        true_and]
      exact ih j h

theorem length_take_of_getElem? {α : Type} (events : List (MusicalEvent α)) (i : Nat)
    (ev : MusicalEvent α) (h : events[i]? = some ev) : (events.take i).length = i := by
  have hlt : i < events.length := by
    by_contra hc
    rw [List.getElem?_eq_none (by omega)] at h
    exact absurd h (by simp)
  simp [List.length_take]
  omega

/-- The chain splits at the micro state `m` of the event at position `i`. -/
theorem allItems_split {α : Type} (sr : ℚ) (hopSize : Int) (events : List (MusicalEvent α))
    (i : Nat) (ev : MusicalEvent α) (h : events[i]? = some ev) (m : Nat)
    (hm : (m : Int) < microCount sr hopSize ev) :
    ∃ post, allItems sr hopSize events =
      (eventItems sr hopSize (events.take i) 0 (1 - 0.975) ++
          microItems i (selfLoop sr hopSize ev)
            (finalTailProb sr hopSize (events.take i) (1 - 0.975)) m) ++
        Item.mk ⟨i, m⟩ (selfLoop sr hopSize ev)
          (if m = 0 then finalTailProb sr hopSize (events.take i) (1 - 0.975)
            else 1 - selfLoop sr hopSize ev) :: post := by
  have hm' : m < (microCount sr hopSize ev).toNat := by omega
  obtain ⟨post, hpost⟩ := microItems_split i (selfLoop sr hopSize ev)
    (finalTailProb sr hopSize (events.take i) (1 - 0.975)) _ m hm'
  have hlen := length_take_of_getElem? events i ev h
  refine ⟨post ++ (eventItems sr hopSize (events.drop (i + 1)) (i + 1)
      (1 - selfLoop sr hopSize ev) ++
      [Item.mk lastState 1 (finalTailProb sr hopSize events (1 - 0.975))]), ?_⟩
  have hsplit : eventItems sr hopSize events 0 (1 - 0.975) =
      eventItems sr hopSize (events.take i ++ ev :: events.drop (i + 1)) 0 (1 - 0.975) := by
    rw [← events_split events i ev h]
  unfold allItems
  rw [hsplit, eventItems_append, hlen]
  simp only [eventItems, zero_add, hpost, List.append_assoc, List.cons_append]

theorem nodup_chain_states {α : Type} (sr : ℚ) (hopSize : Int)
    (events : List (MusicalEvent α)) :
    (initialLoop.chain.tail :: (allItems sr hopSize events).map Item.state).Nodup :=
  nodup_all_states sr hopSize events

/-- The self-loop stored for the micro state `m` of the event at position `i`
is the value `p` computed for that event. -/
theorem new_self {α : Type} (aligner : AudioToScoreAligner α)
    (hhop : aligner.m_hopSize ≠ 0) (i : Nat) (ev : MusicalEvent α)
    (h : aligner.m_score[i]? = some ev) (m : Nat)
    (hm : (m : Int) < microCount aligner.m_inputSampleRate aligner.m_hopSize ev) :
    getTrans (SimpleHMM.new aligner).m_nextStates ⟨i, m⟩ ⟨i, m⟩ =
      some (selfLoop aligner.m_inputSampleRate aligner.m_hopSize ev) := by
  obtain ⟨post, hsplit⟩ := allItems_split aligner.m_inputSampleRate aligner.m_hopSize
    aligner.m_score i ev h m hm
  have hnodup := nodup_chain_states aligner.m_inputSampleRate aligner.m_hopSize aligner.m_score
  rw [hsplit] at hnodup
  rw [new_nextStates_eq aligner hhop, hsplit]
  exact (chain_edges _ _ _ _ hnodup).1

theorem value_foldl (items : List Item) (c : Chain) (a b : State) (v : ℚ)
    (h : getTrans (items.foldl Chain.add c).nextStates a b = some v) :
    getTrans c.nextStates a b = some v ∨ ∃ it ∈ items, v = it.self ∨ v = it.enter := by
  induction items generalizing c with
  | nil => left; exact h
  | cons it rest ih =>
    rw [List.foldl_cons] at h
    rcases ih _ h with h1 | ⟨it', hmem, hv⟩
    · rw [getTrans_add_next] at h1
      by_cases c1 : a = c.tail ∧ b = it.state
      · rw [if_pos c1] at h1
        right
        exact ⟨it, by simp, Or.inr (Option.some.inj h1).symm⟩
      · rw [if_neg c1] at h1
        by_cases c2 : a = it.state ∧ b = it.state
        · rw [if_pos c2] at h1
          right
          exact ⟨it, by simp, Or.inl (Option.some.inj h1).symm⟩
        · rw [if_neg c2] at h1
          left
          exact h1
    · right
      exact ⟨it', List.mem_cons_of_mem _ hmem, hv⟩

theorem values_microItems (e : Int) (p q : ℚ) (M : Nat) (it : Item)
    (h : it ∈ microItems e p q M) : it.self = p ∧ (it.enter = q ∨ it.enter = 1 - p) := by
  simp only [microItems, List.mem_map, List.mem_range] at h
  obtain ⟨m, _, rfl⟩ := h
  by_cases hm : m = 0 <;> simp [hm]

theorem values_eventItems {α : Type} (sr : ℚ) (hopSize : Int)
    (events : List (MusicalEvent α)) (k : Int) (q : ℚ) (it : Item)
    (h : it ∈ eventItems sr hopSize events k q) :
    (∃ ev ∈ events, it.self = selfLoop sr hopSize ev) ∧
      (it.enter = q ∨ ∃ ev ∈ events, it.enter = 1 - selfLoop sr hopSize ev) := by
  induction events generalizing k q with
  | nil => simp [eventItems] at h
  | cons ev rest ih =>
    simp only [eventItems, List.mem_append] at h
    rcases h with h | h
    · have hv := values_microItems _ _ _ _ _ h
      refine ⟨⟨ev, by simp, hv.1⟩, ?_⟩
      rcases hv.2 with h2 | h2
      · left; exact h2
      · right; exact ⟨ev, by simp, h2⟩
    · obtain ⟨⟨ev', hmem, hs⟩, he⟩ := ih _ _ h
      refine ⟨⟨ev', List.mem_cons_of_mem _ hmem, hs⟩, ?_⟩
      rcases he with h2 | ⟨ev2, hmem2, h2⟩
      · right; exact ⟨ev, by simp, h2⟩
      · right; exact ⟨ev2, List.mem_cons_of_mem _ hmem2, h2⟩

theorem finalTailProb_value {α : Type} (sr : ℚ) (hopSize : Int)
    (events : List (MusicalEvent α)) (q : ℚ) :
    finalTailProb sr hopSize events q = q ∨
      ∃ ev ∈ events, finalTailProb sr hopSize events q = 1 - selfLoop sr hopSize ev := by
  induction events generalizing q with
  | nil => left; rfl
  | cons ev rest ih =>
    right
    simp only [finalTailProb]
    rcases ih (1 - selfLoop sr hopSize ev) with h | ⟨ev', hmem, h⟩
    · exact ⟨ev, by simp, h⟩
    · exact ⟨ev', List.mem_cons_of_mem _ hmem, h⟩

/-- Every probability stored in the built graph is one of the constants of the
constructor, or the self-loop `p` of an event, or `1 - p`. -/
theorem new_values {α : Type} (aligner : AudioToScoreAligner α) (a b : State) (v : ℚ)
    (h : getTrans (SimpleHMM.new aligner).m_nextStates a b = some v) :
    v = 0.975 ∨ v = 1 - 0.975 ∨ v = 1 ∨
      ∃ ev ∈ aligner.m_score,
        v = selfLoop aligner.m_inputSampleRate aligner.m_hopSize ev ∨
        v = 1 - selfLoop aligner.m_inputSampleRate aligner.m_hopSize ev := by
  by_cases hhop : aligner.m_hopSize = 0
  · simp [SimpleHMM.new, hhop, getTrans_nil] at h
  · rw [new_nextStates_eq aligner hhop] at h
    rcases value_foldl _ _ _ _ _ h with h1 | ⟨it, hmem, hv⟩
    · left
      simp only [initialLoop, getTrans_setTrans, getTrans_nil] at h1
      by_cases hs : a = startingState ∧ b = startingState
      · rw [if_pos hs] at h1
        exact (Option.some.inj h1).symm
      · rw [if_neg hs] at h1
        exact absurd h1 (by simp)
    · simp only [allItems, List.mem_append, List.mem_singleton] at hmem
      rcases hmem with hmem | hmem
      · obtain ⟨⟨ev, hev, hs⟩, he⟩ := values_eventItems _ _ _ _ _ _ hmem
        rcases hv with hv | hv
        · right; right; right
          exact ⟨ev, hev, Or.inl (hv.trans hs)⟩
        · rcases he with he | ⟨ev2, hev2, he⟩
          · right; left
            exact hv.trans he
          · right; right; right
            exact ⟨ev2, hev2, Or.inr (hv.trans he)⟩
      · subst hmem
        rcases hv with hv | hv
        · right; right; left
          exact hv
        · rcases finalTailProb_value aligner.m_inputSampleRate aligner.m_hopSize
            aligner.m_score (1 - 0.975) with he | ⟨ev2, hev2, he⟩
          · right; left
            exact hv.trans he
          · right; right; right
            exact ⟨ev2, hev2, Or.inr (hv.trans he)⟩

theorem eventFrames_pos {α : Type} (sr : ℚ) (hopSize : Int) (ev : MusicalEvent α)
    (hsr : 0 < sr) (hhop : 0 < hopSize) (hd : 0 < ev.duration) (ht : 0 < ev.tempo) :
    0 < eventFrames sr hopSize ev := by
  unfold eventFrames
  have hh : (0 : ℚ) < (hopSize : ℚ) := by exact_mod_cast hhop
  positivity

theorem selfLoop_lt_one {α : Type} (sr : ℚ) (hopSize : Int) (ev : MusicalEvent α)
    (hf : 0 < eventFrames sr hopSize ev) : selfLoop sr hopSize ev < 1 := by
  unfold selfLoop
  have hM : (0 : ℚ) < (microCount sr hopSize ev : ℚ) := by
    have := microCount_pos sr hopSize ev
    exact_mod_cast (by omega : (0 : Int) < microCount sr hopSize ev)
  have := div_pos hM hf
  linarith

theorem selfLoop_nonneg_iff {α : Type} (sr : ℚ) (hopSize : Int) (ev : MusicalEvent α)
    (hf : 0 < eventFrames sr hopSize ev) :
    0 ≤ selfLoop sr hopSize ev ↔
      (microCount sr hopSize ev : ℚ) ≤ eventFrames sr hopSize ev := by
  unfold selfLoop
  rw [sub_nonneg, div_le_one hf]

/-! ## The likelihood -/

theorem vecAt_natCast {β : Type} (v : List β) (i : Nat) : vecAt v (i : Int) = v[i]? := by
  simp [vecAt]

theorem vecAt_neg {β : Type} (v : List β) (i : Int) (h : i < 0) : vecAt v i = none := by
  simp [vecAt, h]

theorem foldl_append_replicate {β : Type} (row : β) (n : Nat) (init : List β) :
    (List.range n).foldl (fun t _ => t ++ [row]) init = init ++ List.replicate n row := by
  induction n with
  | zero => simp
  | succ k ih =>
    rw [List.range_succ, List.foldl_append, ih]
    simp [List.replicate_succ']

theorem initializeLikelihoods_table {α : Type} [Zero α] (a : AudioToScoreAligner α) :
    a.initializeLikelihoods.m_likelihoods =
      a.m_likelihoods ++ List.replicate a.m_dataFeatures.length
        (List.replicate a.m_score.length (Likelihood.mk 0 false)) := by
  unfold AudioToScoreAligner.initializeLikelihoods
  simp only [foldl_append_replicate]
  rfl

/-- The loop over the bins computes the sum of `x[b] * log(tau[b])`. -/
theorem likelihoodScore_eq (log : ℝ → ℝ) (x tau : List ℝ) (h : x.length ≤ tau.length) :
    likelihoodScore log x tau =
      some (∑ b in Finset.range x.length, x.getD b 0 * log (tau.getD b 0)) := by
  unfold likelihoodScore
  have key : ∀ n, n ≤ x.length →
      (List.range n).foldlM
        (fun score (bin : Nat) => do
          let xb ← vecAt x (bin : Int)
          let tb ← vecAt tau (bin : Int)
          pure (score + xb * log tb))
        (0 : ℝ) = some (∑ b in Finset.range n, x.getD b 0 * log (tau.getD b 0)) := by
    intro n
    induction n with
    | zero => intro _; rfl
    | succ k ih =>
      intro hk
      have hx : k < x.length := by omega
      have ht : k < tau.length := by omega
      rw [List.range_succ, List.foldlM_append, ih (by omega)]
      simp [vecAt_natCast, List.getElem?_eq_getElem hx, List.getElem?_eq_getElem ht,
        Finset.sum_range_succ, List.getD_eq_getElem _ _ hx, List.getD_eq_getElem _ _ ht]
  exact key x.length (le_refl _)

theorem tableOK_initializeLikelihoods {α : Type} [Zero α] (a0 : AudioToScoreAligner α)
    (h0 : a0.m_likelihoods = []) : TableOK a0 a0.initializeLikelihoods := by
  refine ⟨rfl, rfl, ?_, ?_⟩
  · rw [initializeLikelihoods_table, h0]
    simp
  · intro row hrow
    rw [initializeLikelihoods_table, h0] at hrow
    simp only [List.nil_append] at hrow
    rw [List.eq_of_mem_replicate hrow]
    refine ⟨by simp, ?_⟩
    intro cell hcell
    rw [List.eq_of_mem_replicate hcell]

theorem tableOK_getLikelihood {α : Type} [Zero α] [Add α] [Mul α] (exp log : α → α)
    (a0 a a' : AudioToScoreAligner α) (frame event : Int) (v : α)
    (h : TableOK a0 a) (hcall : a.getLikelihood exp log frame event = some (v, a')) :
    TableOK a0 a' := by
  unfold AudioToScoreAligner.getLikelihood at hcall
  simp only [Option.bind_eq_bind, Option.bind_eq_some] at hcall
  obtain ⟨row, hrow, cell, hcell, hrest⟩ := hcall
  by_cases hc : cell.calculated = true
  · simp only [hc, Bool.not_true, Bool.false_eq_true, if_false, Option.pure_def,
      Option.some.injEq, Prod.mk.injEq] at hrest
    rw [← hrest.2]
    exact h
  · simp only [hc, Bool.not_false, if_true, Option.bind_eq_some, Option.pure_def,
      Option.some.injEq, Prod.mk.injEq, Bool.not_eq_true] at hrest
    obtain ⟨ev, _, x, _, score, _, _, ha'⟩ := hrest
    obtain ⟨h1, h2, h3, h4⟩ := h
    rw [← ha']
    refine ⟨h1, h2, ?_, ?_⟩
    · show (vecSet2 a.m_likelihoods frame.toNat event.toNat _).length = _
      unfold vecSet2
      split
      · rw [List.length_set]; exact h3
      · exact h3
    · intro r hr
      have hr' : r ∈ vecSet2 a.m_likelihoods frame.toNat event.toNat
          (Likelihood.mk (exp score) false) := hr
      unfold vecSet2 at hr'
      split at hr'
      · rename_i row' hrow'
        rcases List.mem_or_eq_of_mem_set hr' with hmem | heq
        · exact h4 r hmem
        · have hrow'mem : row' ∈ a.m_likelihoods := List.getElem?_mem hrow'
          obtain ⟨hl, hcells⟩ := h4 row' hrow'mem
          rw [heq]
          refine ⟨by rw [List.length_set]; exact hl, ?_⟩
          intro c hcmem
          rcases List.mem_or_eq_of_mem_set hcmem with hmem | heq'
          · exact hcells c hmem
          · rw [heq']
      · exact h4 r hr'

theorem tableOK_getLikelihoods {α : Type} [Zero α] [Add α] [Mul α] (exp log : α → α)
    (a0 : AudioToScoreAligner α) (calls : List (Int × Int)) (a a' : AudioToScoreAligner α)
    (h : TableOK a0 a) (hrun : a.getLikelihoods exp log calls = some a') :
    TableOK a0 a' := by
  induction calls generalizing a with
  | nil =>
    simp only [AudioToScoreAligner.getLikelihoods, List.foldlM_nil, Option.pure_def,
      Option.some.injEq] at hrun
    rw [← hrun]
    exact h
  | cons c rest ih =>
    simp only [AudioToScoreAligner.getLikelihoods, List.foldlM_cons, Option.bind_eq_bind,
      Option.bind_eq_some, Option.map_eq_some'] at hrun
    obtain ⟨a1, ⟨⟨v, a1'⟩, hcall, heq⟩, hrest⟩ := hrun
    simp only at heq
    subst heq
    exact ih a1' (tableOK_getLikelihood exp log a0 a a1' c.1 c.2 v h hcall) hrest

/-- On a table without calculated cells, `getLikelihood` returns the
exponential of the sum over the bins. -/
theorem getLikelihood_of_tableOK (a0 a : AudioToScoreAligner ℝ) (h : TableOK a0 a)
    (t e : Nat) (x : List ℝ) (ev : MusicalEvent ℝ)
    (hx : a0.m_dataFeatures[t]? = some x) (hev : a0.m_score[e]? = some ev)
    (hlen : x.length ≤ ev.eventTemplate.length) :
    (a.getLikelihood Real.exp Real.log t e).map Prod.fst =
      some (Real.exp (∑ b in Finset.range x.length,
        x.getD b 0 * Real.log (ev.eventTemplate.getD b 0))) := by
  obtain ⟨h1, h2, h3, h4⟩ := h
  have ht : t < a.m_likelihoods.length := by
    rw [h3]
    by_contra hc
    rw [List.getElem?_eq_none (by omega)] at hx
    exact absurd hx (by simp)
  have hrowmem : a.m_likelihoods[t] ∈ a.m_likelihoods := List.getElem_mem ht
  obtain ⟨hrowlen, hcells⟩ := h4 _ hrowmem
  have he : e < (a.m_likelihoods[t]).length := by
    rw [hrowlen]
    by_contra hc
    rw [List.getElem?_eq_none (by omega)] at hev
    exact absurd hev (by simp)
  have hcell : (a.m_likelihoods[t])[e].calculated = false := hcells _ (List.getElem_mem he)
  unfold AudioToScoreAligner.getLikelihood
  rw [vecAt_natCast, List.getElem?_eq_getElem ht]
  simp only [Option.bind_eq_bind, Option.some_bind, vecAt_natCast, List.getElem?_eq_getElem he,
    hcell, Bool.not_false, if_true, h1, h2, hev, hx, likelihoodScore_eq _ _ _ hlen,
    Option.pure_def, Option.map_some']

/-! ## Onset extraction -/

theorem length_foldl_snoc {β γ : Type} (f : List β → γ → β) (l : List γ) (init : List β) :
    (l.foldl (fun results e => results ++ [f results e]) init).length =
      init.length + l.length := by
  induction l generalizing init with
  | nil => simp
  | cons e rest ih =>
    rw [List.foldl_cons, ih]
    simp
    omega

theorem extractOnsets_length (post : List (List Hypothesis)) (numEvents : Nat)
    (indeterminate : Nat → Int) :
    (extractOnsets post numEvents indeterminate).length = numEvents := by
  unfold extractOnsets
  rw [length_foldl_snoc (fun (results : List Int) (event : Nat) =>
    (bestWindow post (event : Int)
      (if (if results.length = 0 then (0 : Int) else results.getLastD 0 - windowSize / 2 + 1) < 0
        then (0 : Int)
        else (if results.length = 0 then (0 : Int) else results.getLastD 0 - windowSize / 2 + 1)).toNat
      (indeterminate event)).2)]
  simp

/-- With fewer than `windowSize` frames no window start is tried, and
`bestStartFrame` keeps the value it had before the loop. -/
theorem bestWindow_of_short (post : List (List Hypothesis)) (event : Int) (startFrame : Nat)
    (indeterminate : Int) (h : post.length < 3) :
    bestWindow post event startFrame indeterminate = (0, indeterminate) := by
  unfold bestWindow
  have h0 : post.length + 1 - windowSize.toNat - startFrame = 0 := by
    have : windowSize.toNat = 3 := rfl
    omega
  rw [h0]
  rfl

/-! ## The claims -/

/-- C1: after `initializeLikelihoods` on a fresh aligner and any sequence of
`getLikelihood` calls, `getLikelihood(t, e)` for a frame `t` and an event `e`
whose template has at least as many bins as the frame, each of these bins being
positive, returns `exp (Σ_b x[b] * ln (tau[b]))`, over the reals; this is the
product of the powers `tau[b] ^ x[b]`. -/
theorem getLikelihood_eq_exp_sum (a0 a : AudioToScoreAligner ℝ) (calls : List (Int × Int))
    (h0 : a0.m_likelihoods = [])
    (hrun : a0.initializeLikelihoods.getLikelihoods Real.exp Real.log calls = some a)
    (t e : Nat) (x : List ℝ) (ev : MusicalEvent ℝ)
    (hx : a0.m_dataFeatures[t]? = some x) (hev : a0.m_score[e]? = some ev)
    (hlen : x.length ≤ ev.eventTemplate.length)
    (hpos : ∀ b, b < x.length → 0 < ev.eventTemplate.getD b 0) :
    (a.getLikelihood Real.exp Real.log t e).map Prod.fst =
        some (Real.exp (∑ b in Finset.range x.length,
          x.getD b 0 * Real.log (ev.eventTemplate.getD b 0))) ∧
      Real.exp (∑ b in Finset.range x.length,
          x.getD b 0 * Real.log (ev.eventTemplate.getD b 0)) =
        ∏ b in Finset.range x.length, ev.eventTemplate.getD b 0 ^ x.getD b 0 := by
  refine ⟨getLikelihood_of_tableOK a0 a
    (tableOK_getLikelihoods Real.exp Real.log a0 calls _ a
      (tableOK_initializeLikelihoods a0 h0) hrun)
    t e x ev hx hev hlen, ?_⟩
  rw [Real.exp_sum]
  apply Finset.prod_congr rfl
  intro b hb
  rw [Real.rpow_def_of_pos (hpos b (Finset.mem_range.mp hb)), mul_comm]

theorem getLikelihood_eq_exp_sum_witness :
    (realFrame.initializeLikelihoods.getLikelihood Real.exp Real.log 0 0).map Prod.fst =
        some (Real.exp (∑ b in Finset.range 2,
          ([3, 4] : List ℝ).getD b 0 * Real.log (([1, 2] : List ℝ).getD b 0))) ∧
      Real.exp (∑ b in Finset.range 2,
          ([3, 4] : List ℝ).getD b 0 * Real.log (([1, 2] : List ℝ).getD b 0)) =
        ∏ b in Finset.range 2, ([1, 2] : List ℝ).getD b 0 ^ ([3, 4] : List ℝ).getD b 0 :=
  getLikelihood_eq_exp_sum realFrame realFrame.initializeLikelihoods [] rfl rfl 0 0
    [3, 4] { duration := 1 / 2, tempo := 120, eventTemplate := [1, 2] } rfl rfl (by decide)
    (fun b hb =>
      match b, hb with
      | 0, _ => by simp
      | 1, _ => by simp
      | n + 2, h => absurd h (by simp))

/-- C2: `getLikelihood` has no case for the indices -1 and -2 of the two
boundary states: it reads `m_likelihoods[frame][event]` outside the row, so no
value, and in particular not 1, is defined. -/
theorem getLikelihood_sentinel_undefined {α : Type} [Zero α] [Add α] [Mul α]
    (exp log : α → α) (a : AudioToScoreAligner α) (frame : Int) :
    a.getLikelihood exp log frame (-1) = none ∧ a.getLikelihood exp log frame (-2) = none := by
  unfold AudioToScoreAligner.getLikelihood
  constructor
  · cases h : vecAt a.m_likelihoods frame with
    | none => rfl
    | some row => simp [vecAt]
  · cases h : vecAt a.m_likelihoods frame with
    | none => rfl
    | some row => simp [vecAt]

/-- C3: with one event and one feature frame no window start is tried, and
`align` returns the value held by the uninitialised `bestStartFrame`, whatever
it is. -/
theorem align_oneFrame_indeterminate (getLikelihood : Int → Int → Option ℚ)
    (indeterminate : Nat → Int) :
    oneFrame.align getLikelihood indeterminate = some [indeterminate 0] := by
  rfl

/-- With two events and one feature frame `align` returns the two values held
by the uninitialised `bestStartFrame`. -/
theorem align_twoEvents_indeterminate (getLikelihood : Int → Int → Option ℚ)
    (indeterminate : Nat → Int) :
    twoEvents.align getLikelihood indeterminate =
      some [indeterminate 0, indeterminate 1] := by
  have h : twoEvents.align getLikelihood indeterminate =
      some (extractOnsets [[]] 2 indeterminate) := by
    rfl
  rw [h]
  simp [extractOnsets, List.range_succ, bestWindow_of_short]

/-- C5: when `getAlignmentResults` returns, the result has one entry per event
of the score. -/
theorem getAlignmentResults_length {α : Type} (hmm : SimpleHMM α)
    (getLikelihood : Int → Int → Option ℚ) (indeterminate : Nat → Int) (results : List Int)
    (h : hmm.getAlignmentResults getLikelihood indeterminate = some results) :
    results.length = hmm.m_aligner.m_score.length := by
  unfold SimpleHMM.getAlignmentResults at h
  simp only [Option.bind_eq_bind, Option.bind_eq_some, Option.pure_def, Option.some.injEq] at h
  obtain ⟨forward, _, backward, _, post, _, hres⟩ := h
  rw [← hres]
  exact extractOnsets_length _ _ _

theorem getAlignmentResults_length_witness :
    (SimpleHMM.new shortRun).getAlignmentResults (fun _ _ => some 1) (fun _ => -1)
        = some [2, 5] ∧
      ([2, 5] : List Int).length = (SimpleHMM.new shortRun).m_aligner.m_score.length :=
  ⟨by decide!,
    getAlignmentResults_length (SimpleHMM.new shortRun) (fun _ _ => some 1) (fun _ => -1)
      [2, 5] (by decide!)⟩

/-- C6: in a graph built with a hop size other than 0 from events of positive
duration and tempo, the probabilities stored in `m_nextStates[s]` sum to 1 for
every state `s` of the graph other than the ending state. -/
theorem nextStates_rowSum_one {α : Type} (aligner : AudioToScoreAligner α)
    (_hhop : aligner.m_hopSize ≠ 0)
    (_hpos : ∀ ev ∈ aligner.m_score, 0 < ev.duration ∧ 0 < ev.tempo)
    (s : State) (hs : hasKey (SimpleHMM.new aligner).m_nextStates s = true)
    (hne : s ≠ lastState) :
    rowSum (SimpleHMM.new aligner).m_nextStates s = 1 :=
  new_rowSum aligner s hs hne

theorem nextStates_rowSum_one_witness :
    hasKey (SimpleHMM.new twoEvents).m_nextStates ⟨0, 12⟩ = true ∧
      rowSum (SimpleHMM.new twoEvents).m_nextStates ⟨0, 12⟩ = 1 :=
  ⟨by decide!,
    nextStates_rowSum_one twoEvents (by decide) (by decide!) ⟨0, 12⟩ (by decide!) (by decide)⟩

/-- C7: `m_nextStates[s]` has the key `t` exactly when `m_prevStates[t]` has
the key `s`, and the two maps store the same probability there. -/
theorem nextStates_prevStates_consistent {α : Type} (aligner : AudioToScoreAligner α)
    (s t : State) :
    ((getTrans (SimpleHMM.new aligner).m_nextStates s t).isSome ↔
        (getTrans (SimpleHMM.new aligner).m_prevStates t s).isSome) ∧
      getTrans (SimpleHMM.new aligner).m_nextStates s t =
        getTrans (SimpleHMM.new aligner).m_prevStates t s := by
  have h := new_consistent aligner s t
  exact ⟨by rw [h], h⟩

/-- C8: a transition between two micro states of events never goes to an
earlier event, and inside an event it stays or advances by one micro state; the
starting state is entered only from itself and the ending state is left only
to itself. -/
theorem nextStates_left_to_right {α : Type} (aligner : AudioToScoreAligner α) :
    (∀ s t : State, getTrans (SimpleHMM.new aligner).m_nextStates s t ≠ none →
        0 ≤ s.eventIndex → s.eventIndex < aligner.m_score.length →
        0 ≤ t.eventIndex → t.eventIndex < aligner.m_score.length →
        s.eventIndex ≤ t.eventIndex ∧
          (t.eventIndex = s.eventIndex →
            t.microIndex = s.microIndex ∨ t.microIndex = s.microIndex + 1)) ∧
      (∀ s : State, getTrans (SimpleHMM.new aligner).m_nextStates s startingState ≠ none →
        s = startingState) ∧
      (∀ s : State, getTrans (SimpleHMM.new aligner).m_prevStates startingState s ≠ none →
        s = startingState) ∧
      (∀ t : State, getTrans (SimpleHMM.new aligner).m_nextStates lastState t ≠ none →
        t = lastState) ∧
      (∀ t : State, getTrans (SimpleHMM.new aligner).m_prevStates t lastState ≠ none →
        t = lastState) := by
  have hstart : ∀ s : State,
      getTrans (SimpleHMM.new aligner).m_nextStates s startingState ≠ none →
        s = startingState := by
    intro s h
    rcases new_edges aligner s startingState h with h1 | ⟨h1, h2⟩
    · exact h1
    · rcases h2 with h2 | ⟨h2, _, h3⟩ | ⟨h2, _⟩
      · exact absurd h2 (by decide)
      · simp only [startingState] at h2
        omega
      · simp only [startingState] at h2
        omega
  have hlast : ∀ t : State,
      getTrans (SimpleHMM.new aligner).m_nextStates lastState t ≠ none → t = lastState := by
    intro t h
    rcases new_edges aligner lastState t h with h1 | ⟨h1, _⟩
    · exact h1.symm
    · simp only [lastState] at h1
      omega
  refine ⟨?_, hstart, ?_, hlast, ?_⟩
  · intro s t h hs0 _ ht0 _
    rcases new_edges aligner s t h with h1 | ⟨_, h2⟩
    · subst h1
      exact ⟨le_refl _, fun _ => Or.inl rfl⟩
    · rcases h2 with h2 | ⟨h2, h3, _⟩ | ⟨h2, _⟩
      · rw [h2] at ht0
        simp only [lastState] at ht0
        omega
      · exact ⟨by omega, fun _ => Or.inr h3⟩
      · exact ⟨by omega, fun h4 => by omega⟩
  · intro s h
    rw [← new_consistent] at h
    exact hstart s h
  · intro t h
    rw [← new_consistent] at h
    exact hlast t h

theorem nextStates_left_to_right_witness :
    getTrans (SimpleHMM.new twoEvents).m_nextStates ⟨0, 12⟩ ⟨1, 0⟩ ≠ none ∧
      ((0 : Int) ≤ 1 ∧ ((1 : Int) = 0 → (0 : Int) = 12 ∨ (0 : Int) = 12 + 1)) :=
  ⟨by decide!,
    (nextStates_left_to_right twoEvents).1 ⟨0, 12⟩ ⟨1, 0⟩ (by decide!) (by decide)
      (by decide) (by decide) (by decide)⟩

/-- C9: the constructor raises `M` to 1 but does not clamp `p`: for an event of
1/128 of a quarter note at tempo 120 (48000 Hz, hop 768) `frames = 125/128`,
`M = 1`, and the self-loop stored for its micro state is `-3/125`, not 0; the
transition leaving it has `128/125`. -/
theorem selfLoop_negative_example :
    ((0 : ℚ) < shortEvents.m_inputSampleRate ∧ 0 < shortEvents.m_hopSize ∧
        ∀ ev ∈ shortEvents.m_score, 0 < ev.duration ∧ 0 < ev.tempo) ∧
      getTrans (SimpleHMM.new shortEvents).m_nextStates ⟨0, 0⟩ ⟨0, 0⟩ = some (-3 / 125) ∧
      getTrans (SimpleHMM.new shortEvents).m_nextStates ⟨0, 0⟩ ⟨1, 0⟩ = some (128 / 125) ∧
      ¬ ((0 : ℚ) ≤ -3 / 125) ∧ ¬ ((128 / 125 : ℚ) ≤ 1) := by
  decide!

/-- With positive sample rate, hop size, durations and tempos, the self-loop
stored for every micro state of an event is `p = 1 - M / frames`; it is below
1, and it is non-negative exactly when `M ≤ frames`.  When `M ≤ frames` holds
for every event, every probability stored in the graph lies in `[0, 1]`. -/
theorem selfLoop_stored_unclamped {α : Type} (aligner : AudioToScoreAligner α)
    (hsr : 0 < aligner.m_inputSampleRate) (hhop : 0 < aligner.m_hopSize)
    (hpos : ∀ ev ∈ aligner.m_score, 0 < ev.duration ∧ 0 < ev.tempo) :
    (∀ (e : Nat) (ev : MusicalEvent α), aligner.m_score[e]? = some ev →
        ∀ m : Nat, (m : Int) < microCount aligner.m_inputSampleRate aligner.m_hopSize ev →
          getTrans (SimpleHMM.new aligner).m_nextStates ⟨e, m⟩ ⟨e, m⟩ =
            some (1 - (microCount aligner.m_inputSampleRate aligner.m_hopSize ev : ℚ) /
              eventFrames aligner.m_inputSampleRate aligner.m_hopSize ev)) ∧
      (∀ ev ∈ aligner.m_score,
        selfLoop aligner.m_inputSampleRate aligner.m_hopSize ev < 1 ∧
          (0 ≤ selfLoop aligner.m_inputSampleRate aligner.m_hopSize ev ↔
            (microCount aligner.m_inputSampleRate aligner.m_hopSize ev : ℚ) ≤
              eventFrames aligner.m_inputSampleRate aligner.m_hopSize ev)) ∧
      ((∀ ev ∈ aligner.m_score,
          (microCount aligner.m_inputSampleRate aligner.m_hopSize ev : ℚ) ≤
            eventFrames aligner.m_inputSampleRate aligner.m_hopSize ev) →
        ∀ (s t : State) (v : ℚ),
          getTrans (SimpleHMM.new aligner).m_nextStates s t = some v → 0 ≤ v ∧ v ≤ 1) := by
  have hne : aligner.m_hopSize ≠ 0 := by omega
  have hframes : ∀ ev ∈ aligner.m_score,
      0 < eventFrames aligner.m_inputSampleRate aligner.m_hopSize ev :=
    fun ev hev => eventFrames_pos _ _ ev hsr hhop (hpos ev hev).1 (hpos ev hev).2
  refine ⟨?_, ?_, ?_⟩
  · intro e ev hev m hm
    exact new_self aligner hne e ev hev m hm
  · intro ev hev
    exact ⟨selfLoop_lt_one _ _ ev (hframes ev hev),
      selfLoop_nonneg_iff _ _ ev (hframes ev hev)⟩
  · intro hM s t v hv
    rcases new_values aligner s t v hv with h | h | h | ⟨ev, hev, h⟩
    · rw [h]; norm_num
    · rw [h]; norm_num
    · rw [h]; norm_num
    · have h1 := selfLoop_lt_one _ _ ev (hframes ev hev)
      have h0 := (selfLoop_nonneg_iff _ _ ev (hframes ev hev)).mpr (hM ev hev)
      rcases h with h | h
      · rw [h]; exact ⟨h0, le_of_lt h1⟩
      · rw [h]; constructor <;> linarith

/-! ## Rounding to `double` -/

theorem pow2_eq_zpow (k : Int) : pow2 k = (2 : ℚ) ^ k := by
  unfold pow2
  split_ifs with h
  · obtain ⟨n, rfl⟩ := Int.eq_ofNat_of_zero_le h
    simp
  · push_neg at h
    obtain ⟨n, hn⟩ := Int.eq_ofNat_of_zero_le (by omega : 0 ≤ -k)
    have hk : k = -(n : Int) := by omega
    rw [hn, hk]
    simp

theorem pow2_pos (k : Int) : 0 < pow2 k := by
  rw [pow2_eq_zpow]
  positivity

theorem log2Fuel_spec (fuel n : Nat) (hn : n ≠ 0) (hfuel : n ≤ fuel) :
    2 ^ log2Fuel fuel n ≤ n ∧ n < 2 ^ (log2Fuel fuel n + 1) := by
  induction fuel generalizing n with
  | zero => omega
  | succ fuel ih =>
    unfold log2Fuel
    split_ifs with h2
    · have hhalf : n / 2 ≠ 0 := by omega
      obtain ⟨h1, h3⟩ := ih (n / 2) hhalf (by omega)
      constructor
      · rw [pow_succ]
        omega
      · rw [pow_succ]
        omega
    · constructor
      · simp; omega
      · simp; omega

theorem binadeExp_spec (x : ℚ) (hx : 0 < x) :
    (2 : ℚ) ^ binadeExp x ≤ x ∧ x < (2 : ℚ) ^ (binadeExp x + 1) := by
  have hnum : 0 < x.num := Rat.num_pos.mpr hx
  have hn0 : x.num.natAbs ≠ 0 := by omega
  have hd0 : x.den ≠ 0 := x.den_nz
  obtain ⟨hn1, hn2⟩ := log2Fuel_spec x.num.natAbs x.num.natAbs hn0 le_rfl
  obtain ⟨hd1, hd2⟩ := log2Fuel_spec x.den x.den hd0 le_rfl
  have hxeq : x = (x.num.natAbs : ℚ) / (x.den : ℚ) := by
    have h := (Rat.num_div_den x).symm
    have habs : ((x.num.natAbs : Nat) : ℚ) = (x.num : ℚ) := by
      rw [← Int.cast_natCast, Int.natAbs_of_nonneg (le_of_lt hnum)]
    rw [habs]
    exact h
  set a := log2Fuel x.num.natAbs x.num.natAbs with ha
  set b := log2Fuel x.den x.den with hb
  have hdpos : (0 : ℚ) < (x.den : ℚ) := by exact_mod_cast Nat.pos_of_ne_zero hd0
  have hn1q : (2 : ℚ) ^ a ≤ (x.num.natAbs : ℚ) := by exact_mod_cast hn1
  have hn2q : (x.num.natAbs : ℚ) < (2 : ℚ) ^ (a + 1) := by exact_mod_cast hn2
  have hd1q : (2 : ℚ) ^ b ≤ (x.den : ℚ) := by exact_mod_cast hd1
  have hd2q : (x.den : ℚ) < (2 : ℚ) ^ (b + 1) := by exact_mod_cast hd2
  have hlow : (2 : ℚ) ^ ((a : Int) - (b : Int) - 1) ≤ x := by
    rw [hxeq, le_div_iff₀ hdpos]
    have h1 : (2 : ℚ) ^ ((a : Int) - (b : Int) - 1) * (2 : ℚ) ^ (b + 1) = (2 : ℚ) ^ a := by
      rw [← zpow_natCast, ← zpow_natCast, ← zpow_add₀ (by norm_num : (2 : ℚ) ≠ 0)]
      congr 1
      push_cast
      ring
    have hp : (0 : ℚ) < (2 : ℚ) ^ ((a : Int) - (b : Int) - 1) := by positivity
    calc (2 : ℚ) ^ ((a : Int) - (b : Int) - 1) * (x.den : ℚ)
        ≤ (2 : ℚ) ^ ((a : Int) - (b : Int) - 1) * (2 : ℚ) ^ (b + 1) :=
          mul_le_mul_of_nonneg_left (le_of_lt hd2q) (le_of_lt hp)
      _ = (2 : ℚ) ^ a := h1
      _ ≤ (x.num.natAbs : ℚ) := hn1q
  have hhigh : x < (2 : ℚ) ^ ((a : Int) - (b : Int) + 1) := by
    rw [hxeq, div_lt_iff₀ hdpos]
    have h1 : (2 : ℚ) ^ ((a : Int) - (b : Int) + 1) * (2 : ℚ) ^ b = (2 : ℚ) ^ (a + 1) := by
      rw [← zpow_natCast, ← zpow_natCast, ← zpow_add₀ (by norm_num : (2 : ℚ) ≠ 0)]
      congr 1
      push_cast
      ring
    have hp : (0 : ℚ) < (2 : ℚ) ^ ((a : Int) - (b : Int) + 1) := by positivity
    calc (x.num.natAbs : ℚ) < (2 : ℚ) ^ (a + 1) := hn2q
      _ = (2 : ℚ) ^ ((a : Int) - (b : Int) + 1) * (2 : ℚ) ^ b := h1.symm
      _ ≤ (2 : ℚ) ^ ((a : Int) - (b : Int) + 1) * (x.den : ℚ) :=
          mul_le_mul_of_nonneg_left hd1q (le_of_lt hp)
  unfold binadeExp
  simp only [← ha, ← hb, pow2_eq_zpow]
  split_ifs with h
  · exact ⟨h, hhigh⟩
  · push_neg at h
    refine ⟨hlow, ?_⟩
    rw [sub_add_cancel]
    exact h

theorem roundHalfEven_err (y : ℚ) : |(roundHalfEven y : ℚ) - y| ≤ 1 / 2 := by
  have h1 := Int.floor_le y
  have h2 := Int.lt_floor_add_one y
  unfold roundHalfEven
  simp only
  rw [abs_le]
  split_ifs with ha hb hc
  · constructor <;> linarith
  · push_cast
    constructor <;> linarith
  · constructor <;> linarith
  · push_cast
    constructor <;> linarith

theorem toDouble_err (x : ℚ) : |toDouble x - x| ≤ |x| / 2 ^ 53 := by
  unfold toDouble
  split_ifs with h0
  · rw [h0]; simp
  · simp only
    have hx : 0 < |x| := abs_pos.mpr h0
    obtain ⟨hlow, _⟩ := binadeExp_spec |x| hx
    set e := binadeExp |x| with he
    have hulp : pow2 (e - 52) = (2 : ℚ) ^ e / 2 ^ 52 := by
      rw [pow2_eq_zpow, zpow_sub₀ (by norm_num : (2 : ℚ) ≠ 0)]
      norm_cast
    have hupos : 0 < pow2 (e - 52) := pow2_pos _
    have herr := roundHalfEven_err (x / pow2 (e - 52))
    have heq : (roundHalfEven (x / pow2 (e - 52)) : ℚ) * pow2 (e - 52) - x =
        ((roundHalfEven (x / pow2 (e - 52)) : ℚ) - x / pow2 (e - 52)) * pow2 (e - 52) := by
      field_simp
    rw [heq, abs_mul, abs_of_pos hupos]
    calc |(roundHalfEven (x / pow2 (e - 52)) : ℚ) - x / pow2 (e - 52)| * pow2 (e - 52)
        ≤ 1 / 2 * pow2 (e - 52) := mul_le_mul_of_nonneg_right herr (le_of_lt hupos)
      _ = (2 : ℚ) ^ e / 2 ^ 53 := by rw [hulp]; ring
      _ ≤ |x| / 2 ^ 53 := by
          apply div_le_div_of_nonneg_right hlow
          positivity

theorem toDouble_bounds (x : ℚ) (hx : 0 ≤ x) :
    x * (1 - 1 / 2 ^ 53) ≤ toDouble x ∧ toDouble x ≤ x * (1 + 1 / 2 ^ 53) := by
  have h := toDouble_err x
  rw [abs_of_nonneg hx, abs_le] at h
  constructor
  · linarith [h.1]
  · linarith [h.2]

theorem toDouble_pos (x : ℚ) (hx : 0 < x) : 0 < toDouble x := by
  have h := (toDouble_bounds x (le_of_lt hx)).1
  have : 0 < x * (1 - 1 / 2 ^ 53) := by
    apply mul_pos hx
    norm_num
  linarith

theorem toDouble_loose (x : ℚ) (hx : 0 ≤ x) :
    x * (999 / 1000) ≤ toDouble x ∧ toDouble x ≤ x * (1001 / 1000) := by
  obtain ⟨h1, h2⟩ := toDouble_bounds x hx
  constructor
  · have : x * (999 / 1000) ≤ x * (1 - 1 / 2 ^ 53) :=
      mul_le_mul_of_nonneg_left (by norm_num) hx
    linarith
  · have : x * (1 + 1 / 2 ^ 53) ≤ x * (1001 / 1000) :=
      mul_le_mul_of_nonneg_left (by norm_num) hx
    linarith

theorem microQuotient_bounds (f : ℚ) (hf : 0 < f) :
    0 < microQuotient f ∧ microQuotient f < 16 + 1 / 2 := by
  unfold microQuotient
  simp only
  have h625 : (0.25 * 0.25 : ℚ) = 1 / 16 := by norm_num
  rw [h625]
  have hv1 := toDouble_loose (1 / 16 * f) (by positivity)
  have hv1pos : 0 < toDouble (1 / 16 * f) := toDouble_pos _ (by positivity)
  set v1 := toDouble (1 / 16 * f) with hv1def
  have hvar := toDouble_loose (v1 * f) (by positivity)
  have hvarpos : 0 < toDouble (v1 * f) := toDouble_pos _ (by positivity)
  set var := toDouble (v1 * f) with hvardef
  have hd := toDouble_loose (var + f) (by positivity)
  have hdpos : 0 < toDouble (var + f) := toDouble_pos _ (by positivity)
  set d := toDouble (var + f) with hddef
  have hf2 := toDouble_loose (f * f) (by positivity)
  have hf2pos : 0 < toDouble (f * f) := toDouble_pos _ (by positivity)
  set f2 := toDouble (f * f) with hf2def
  have hq0pos : 0 < f2 / d := div_pos hf2pos hdpos
  have hq := toDouble_loose (f2 / d) (le_of_lt hq0pos)
  refine ⟨toDouble_pos _ hq0pos, ?_⟩
  have hff : 0 < f * f := by positivity
  have hvarlow : (1 / 16) * (999 / 1000) * (999 / 1000) * (f * f) ≤ var := by
    have h1 : 1 / 16 * f * (999 / 1000) * f ≤ v1 * f :=
      mul_le_mul_of_nonneg_right hv1.1 (le_of_lt hf)
    nlinarith [hvar.1]
  have hdlow : (1 / 16) * (999 / 1000) * (999 / 1000) * (999 / 1000) * (f * f) ≤ d := by
    nlinarith [hd.1]
  have hq0 : f2 / d ≤ 161 / 10 := by
    rw [div_le_iff₀ hdpos]
    nlinarith [hf2.2]
  nlinarith [hq.2]

theorem cRound_le_of_lt_half (x : ℚ) (n : Int) (h0 : 0 ≤ x) (h : x < n + 1 / 2) :
    cRound x ≤ n := by
  unfold cRound
  rw [if_pos h0]
  have h1 : ⌊x + 1 / 2⌋ < n + 1 := by
    rw [Int.floor_lt]
    push_cast
    linarith
  omega

theorem toDouble_rel (x y a b : ℚ) (hy : 0 ≤ y) (ha : 0 ≤ a) (hl : y * a ≤ x)
    (hu : x ≤ y * b) :
    y * (a * (1 - 1 / 2 ^ 53)) ≤ toDouble x ∧ toDouble x ≤ y * (b * (1 + 1 / 2 ^ 53)) := by
  have hx : 0 ≤ x := le_trans (mul_nonneg hy ha) hl
  obtain ⟨h1, h2⟩ := toDouble_bounds x hx
  constructor
  · have : y * a * (1 - 1 / 2 ^ 53) ≤ x * (1 - 1 / 2 ^ 53) :=
      mul_le_mul_of_nonneg_right hl (by norm_num)
    linarith
  · have : x * (1 + 1 / 2 ^ 53) ≤ y * b * (1 + 1 / 2 ^ 53) :=
      mul_le_mul_of_nonneg_right hu (by norm_num)
    linarith

theorem framesDouble_close {α : Type} (sr : ℚ) (hopSize : Int) (ev : MusicalEvent α)
    (hsr : 0 < sr) (hhop : 0 < hopSize) (hd : 0 < ev.duration) (ht : 0 < ev.tempo) :
    eventFrames sr hopSize ev * (1 - 1 / 2 ^ 50) ≤ framesDouble sr hopSize ev ∧
      framesDouble sr hopSize ev ≤ eventFrames sr hopSize ev * (1 + 1 / 2 ^ 50) := by
  have hh : (0 : ℚ) < (hopSize : ℚ) := by exact_mod_cast hhop
  unfold framesDouble eventFrames
  simp only
  obtain ⟨a1, b1⟩ := toDouble_rel (ev.duration * 4) (ev.duration * 4) 1 1 (by positivity)
    (by norm_num) (by linarith) (by linarith)
  obtain ⟨a2, b2⟩ := toDouble_rel (toDouble (ev.duration * 4) * 60) (ev.duration * 4 * 60)
    (1 * (1 - 1 / 2 ^ 53)) (1 * (1 + 1 / 2 ^ 53)) (by positivity) (by norm_num)
    (by nlinarith) (by nlinarith)
  obtain ⟨a3, b3⟩ := toDouble_rel (toDouble (toDouble (ev.duration * 4) * 60) / ev.tempo)
    (ev.duration * 4 * 60 / ev.tempo)
    (1 * (1 - 1 / 2 ^ 53) * (1 - 1 / 2 ^ 53)) (1 * (1 + 1 / 2 ^ 53) * (1 + 1 / 2 ^ 53))
    (by positivity) (by norm_num)
    (by rw [div_mul_eq_mul_div]; exact div_le_div_of_nonneg_right a2 (le_of_lt ht))
    (by rw [div_mul_eq_mul_div]; exact div_le_div_of_nonneg_right b2 (le_of_lt ht))
  obtain ⟨a4, b4⟩ := toDouble_rel
    (toDouble (toDouble (toDouble (ev.duration * 4) * 60) / ev.tempo) * sr)
    (ev.duration * 4 * 60 / ev.tempo * sr)
    (1 * (1 - 1 / 2 ^ 53) * (1 - 1 / 2 ^ 53) * (1 - 1 / 2 ^ 53))
    (1 * (1 + 1 / 2 ^ 53) * (1 + 1 / 2 ^ 53) * (1 + 1 / 2 ^ 53))
    (by positivity) (by norm_num)
    (by nlinarith) (by nlinarith)
  obtain ⟨a5, b5⟩ := toDouble_rel
    (toDouble (toDouble (toDouble (toDouble (ev.duration * 4) * 60) / ev.tempo) * sr) /
      (hopSize : ℚ))
    (ev.duration * 4 * 60 / ev.tempo * sr / (hopSize : ℚ))
    (1 * (1 - 1 / 2 ^ 53) * (1 - 1 / 2 ^ 53) * (1 - 1 / 2 ^ 53) * (1 - 1 / 2 ^ 53))
    (1 * (1 + 1 / 2 ^ 53) * (1 + 1 / 2 ^ 53) * (1 + 1 / 2 ^ 53) * (1 + 1 / 2 ^ 53))
    (by positivity) (by norm_num)
    (by rw [div_mul_eq_mul_div]; exact div_le_div_of_nonneg_right a4 (le_of_lt hh))
    (by rw [div_mul_eq_mul_div]; exact div_le_div_of_nonneg_right b4 (le_of_lt hh))
  have hE : 0 ≤ ev.duration * 4 * 60 / ev.tempo * sr / (hopSize : ℚ) := by positivity
  constructor
  · refine le_trans (mul_le_mul_of_nonneg_left ?_ hE) a5
    norm_num
  · refine le_trans b5 (mul_le_mul_of_nonneg_left ?_ hE)
    norm_num

theorem framesDouble_pos {α : Type} (sr : ℚ) (hopSize : Int) (ev : MusicalEvent α)
    (hsr : 0 < sr) (hhop : 0 < hopSize) (hd : 0 < ev.duration) (ht : 0 < ev.tempo) :
    0 < framesDouble sr hopSize ev := by
  have h := (framesDouble_close sr hopSize ev hsr hhop hd ht).1
  have hf := eventFrames_pos sr hopSize ev hsr hhop hd ht
  have : 0 < eventFrames sr hopSize ev * (1 - 1 / 2 ^ 50) := mul_pos hf (by norm_num)
  linarith

theorem micro_ratio_eq (f : ℚ) (hf : 0 < f) :
    f * f / ((0.25 * 0.25) * f * f + f) = 16 * f / (f + 16) := by
  have h1 : (0.25 * 0.25 : ℚ) * f * f + f ≠ 0 := by positivity
  have h2 : f + 16 ≠ 0 := by positivity
  rw [div_eq_div_iff h1 h2]
  ring

theorem micro_ratio_lt (f : ℚ) (hf : 0 < f) : 16 * f / (f + 16) < 16 := by
  rw [div_lt_iff₀ (by positivity)]
  linarith

theorem cRound_le_of_lt (x : ℚ) (n : Int) (h0 : 0 ≤ x) (h : x < n) : cRound x ≤ n := by
  unfold cRound
  rw [if_pos h0]
  have h1 : ⌊x + 1 / 2⌋ < n + 1 := by
    rw [Int.floor_lt]
    push_cast
    linarith
  omega

theorem microQuotient_close (f : ℚ) (hf : 0 < f) :
    16 * f / (f + 16) * (1 - 1 / 2 ^ 49) ≤ microQuotient f ∧
      microQuotient f ≤ 16 * f / (f + 16) * (1 + 1 / 2 ^ 49) := by
  unfold microQuotient
  simp only
  have h625 : (0.25 * 0.25 : ℚ) = 1 / 16 := by norm_num
  rw [h625]
  have hff : 0 < f * f := by positivity
  have hY : 0 < f * f / 16 + f := by positivity
  have hG : 16 * f / (f + 16) = f * f / (f * f / 16 + f) := by
    rw [div_eq_div_iff (by positivity) (by positivity)]
    ring
  rw [hG]
  obtain ⟨a1, b1⟩ := toDouble_rel (1 / 16 * f) (1 / 16 * f) 1 1 (by positivity)
    (by norm_num) (by linarith) (by linarith)
  have hv1 : 0 < toDouble (1 / 16 * f) := toDouble_pos _ (by positivity)
  obtain ⟨a2, b2⟩ := toDouble_rel (toDouble (1 / 16 * f) * f) (f * f / 16)
    (1 * (1 - 1 / 2 ^ 53)) (1 * (1 + 1 / 2 ^ 53)) (by positivity) (by norm_num)
    (by nlinarith) (by nlinarith)
  have hvar : 0 < toDouble (toDouble (1 / 16 * f) * f) := toDouble_pos _ (by positivity)
  obtain ⟨a3, b3⟩ := toDouble_rel (toDouble (toDouble (1 / 16 * f) * f) + f) (f * f / 16 + f)
    (1 * (1 - 1 / 2 ^ 53) * (1 - 1 / 2 ^ 53)) (1 * (1 + 1 / 2 ^ 53) * (1 + 1 / 2 ^ 53))
    (le_of_lt hY) (by norm_num)
    (by
      have h1 : f * (1 * (1 - 1 / 2 ^ 53) * (1 - 1 / 2 ^ 53)) ≤ f * 1 :=
        mul_le_mul_of_nonneg_left (by norm_num) (le_of_lt hf)
      linarith)
    (by
      have h1 : f * 1 ≤ f * (1 * (1 + 1 / 2 ^ 53) * (1 + 1 / 2 ^ 53)) :=
        mul_le_mul_of_nonneg_left (by norm_num) (le_of_lt hf)
      linarith)
  have hd : 0 < toDouble (toDouble (toDouble (1 / 16 * f) * f) + f) :=
    toDouble_pos _ (by positivity)
  obtain ⟨a4, b4⟩ := toDouble_rel (f * f) (f * f) 1 1 (le_of_lt hff)
    (by norm_num) (by linarith) (by linarith)
  have hf2 : 0 < toDouble (f * f) := toDouble_pos _ hff
  set d := toDouble (toDouble (toDouble (1 / 16 * f) * f) + f) with hddef
  set f2 := toDouble (f * f) with hf2def
  have hlow : f * f / (f * f / 16 + f) * (1 - 1 / 2 ^ 50) ≤ f2 / d := by
    rw [div_mul_eq_mul_div, div_le_div_iff₀ hY hd]
    have hc : (1 - 1 / 2 ^ 50 : ℚ) * (1 * (1 + 1 / 2 ^ 53) * (1 + 1 / 2 ^ 53) * (1 + 1 / 2 ^ 53)) ≤
        1 * (1 - 1 / 2 ^ 53) := by norm_num
    have e1 := mul_le_mul_of_nonneg_left b3
      (by positivity : (0 : ℚ) ≤ f * f * (1 - 1 / 2 ^ 50))
    have e2 := mul_le_mul_of_nonneg_left hc (le_of_lt (mul_pos hff hY))
    have e3 := mul_le_mul_of_nonneg_right a4 (le_of_lt hY)
    linarith
  have hhigh : f2 / d ≤ f * f / (f * f / 16 + f) * (1 + 1 / 2 ^ 50) := by
    rw [div_mul_eq_mul_div, div_le_div_iff₀ hd hY]
    have hc : (1 * (1 + 1 / 2 ^ 53) : ℚ) ≤
        (1 + 1 / 2 ^ 50) * (1 * (1 - 1 / 2 ^ 53) * (1 - 1 / 2 ^ 53) * (1 - 1 / 2 ^ 53)) := by
      norm_num
    have e1 := mul_le_mul_of_nonneg_left a3
      (by positivity : (0 : ℚ) ≤ f * f * (1 + 1 / 2 ^ 50))
    have e2 := mul_le_mul_of_nonneg_left hc (le_of_lt (mul_pos hff hY))
    have e3 := mul_le_mul_of_nonneg_right b4 (le_of_lt hY)
    linarith
  have hGpos : 0 ≤ f * f / (f * f / 16 + f) := by positivity
  obtain ⟨a5, b5⟩ := toDouble_rel (f2 / d) (f * f / (f * f / 16 + f))
    (1 - 1 / 2 ^ 50) (1 + 1 / 2 ^ 50) hGpos (by norm_num) hlow hhigh
  constructor
  · refine le_trans (mul_le_mul_of_nonneg_left ?_ hGpos) a5
    norm_num
  · refine le_trans b5 (mul_le_mul_of_nonneg_left ?_ hGpos)
    norm_num

theorem micro_ratio_mono (x y : ℚ) (hx : 0 < x) (hxy : x ≤ y) :
    16 * x / (x + 16) ≤ 16 * y / (y + 16) := by
  rw [div_le_div_iff₀ (by positivity) (by linarith)]
  nlinarith

theorem micro_ratio_scale (x c : ℚ) (hx : 0 < x) (hc : 0 < c) :
    (c ≤ 1 → 16 * x / (x + 16) * c ≤ 16 * (x * c) / (x * c + 16)) ∧
      (1 ≤ c → 16 * (x * c) / (x * c + 16) ≤ 16 * x / (x + 16) * c) := by
  have hxc : 0 < x * c := mul_pos hx hc
  constructor
  · intro h
    rw [div_mul_eq_mul_div, div_le_div_iff₀ (by positivity) (by positivity)]
    have : 0 ≤ x * x * c * (1 - c) := by
      apply mul_nonneg (by positivity)
      linarith
    nlinarith
  · intro h
    rw [div_mul_eq_mul_div, div_le_div_iff₀ (by positivity) (by positivity)]
    have : 0 ≤ x * x * c * (c - 1) := by
      apply mul_nonneg (by positivity)
      linarith
    nlinarith

theorem microQuotient_framesDouble {α : Type} (sr : ℚ) (hopSize : Int) (ev : MusicalEvent α)
    (hsr : 0 < sr) (hhop : 0 < hopSize) (hd : 0 < ev.duration) (ht : 0 < ev.tempo) :
    |microQuotient (framesDouble sr hopSize ev) -
        16 * eventFrames sr hopSize ev / (eventFrames sr hopSize ev + 16)| ≤ 1 / 2 ^ 44 := by
  have hE := eventFrames_pos sr hopSize ev hsr hhop hd ht
  have hf := framesDouble_pos sr hopSize ev hsr hhop hd ht
  obtain ⟨c1, c2⟩ := framesDouble_close sr hopSize ev hsr hhop hd ht
  obtain ⟨q1, q2⟩ := microQuotient_close (framesDouble sr hopSize ev) hf
  set E := eventFrames sr hopSize ev with hEdef
  set f := framesDouble sr hopSize ev with hfdef
  have hlo : 0 < E * (1 - 1 / 2 ^ 50) := mul_pos hE (by norm_num)
  have m1 := micro_ratio_mono _ _ hlo c1
  have m2 := micro_ratio_mono _ _ hf c2
  have s1 := (micro_ratio_scale E (1 - 1 / 2 ^ 50) hE (by norm_num)).1 (by norm_num)
  have s2 := (micro_ratio_scale E (1 + 1 / 2 ^ 50) hE (by norm_num)).2 (by norm_num)
  have hG0 : 0 < 16 * E / (E + 16) := by positivity
  have hG16 : 16 * E / (E + 16) < 16 := by
    rw [div_lt_iff₀ (by positivity)]
    linarith
  have hGf : 0 < 16 * f / (f + 16) := by positivity
  have l1 : 16 * E / (E + 16) * (1 - 1 / 2 ^ 50) * (1 - 1 / 2 ^ 49) ≤ microQuotient f := by
    refine le_trans (mul_le_mul_of_nonneg_right (le_trans s1 m1) (by norm_num)) q1
  have l2 : microQuotient f ≤ 16 * E / (E + 16) * (1 + 1 / 2 ^ 50) * (1 + 1 / 2 ^ 49) := by
    refine le_trans q2 (mul_le_mul_of_nonneg_right (le_trans m2 s2) (by norm_num))
  rw [abs_le]
  constructor
  · have : 16 * E / (E + 16) * (1 - 1 / 2 ^ 48) ≤
        16 * E / (E + 16) * (1 - 1 / 2 ^ 50) * (1 - 1 / 2 ^ 49) := by
      rw [mul_assoc]
      exact mul_le_mul_of_nonneg_left (by norm_num) (le_of_lt hG0)
    have h16 : 16 * E / (E + 16) * (1 / 2 ^ 48) ≤ 16 * (1 / 2 ^ 48) :=
      mul_le_mul_of_nonneg_right (le_of_lt hG16) (by norm_num)
    have e : (16 : ℚ) * (1 / 2 ^ 48) = 1 / 2 ^ 44 := by norm_num
    linarith
  · have : 16 * E / (E + 16) * (1 + 1 / 2 ^ 50) * (1 + 1 / 2 ^ 49) ≤
        16 * E / (E + 16) * (1 + 1 / 2 ^ 48) := by
      rw [mul_assoc]
      exact mul_le_mul_of_nonneg_left (by norm_num) (le_of_lt hG0)
    have h16 : 16 * E / (E + 16) * (1 / 2 ^ 48) ≤ 16 * (1 / 2 ^ 48) :=
      mul_le_mul_of_nonneg_right (le_of_lt hG16) (by norm_num)
    have e : (16 : ℚ) * (1 / 2 ^ 48) = 1 / 2 ^ 44 := by norm_num
    linarith

theorem hasKey_initial_next (s : State) :
    hasKey initialLoop.chain.nextStates s = true ↔ s = startingState := by
  simp [initialLoop, hasKey_setTrans, hasKey_nil]

theorem hasKey_initial_prev (s : State) :
    hasKey initialLoop.chain.prevStates s = true ↔ s = startingState := by
  simp [initialLoop, hasKey_setTrans, hasKey_nil]

theorem mem_states_allItems {α : Type} (sr : ℚ) (hopSize : Int)
    (events : List (MusicalEvent α)) (s : State) :
    s ∈ (allItems sr hopSize events).map Item.state ↔
      s = lastState ∨ ∃ (e : Nat) (ev : MusicalEvent α), events[e]? = some ev ∧
        ∃ m : Nat, (m : Int) < microCount sr hopSize ev ∧ s = ⟨e, m⟩ := by
  unfold allItems
  simp only [List.map_append, List.mem_append, mem_states_eventItems, List.map_cons,
    List.map_nil, List.mem_singleton, zero_add]
  exact or_comm

/-- A property kept by every successful step holds after the loop. -/
theorem foldlM_invariant {β γ : Type} (P : β → Prop) (f : β → γ → Option β) (l : List γ)
    (init result : β) (h0 : P init)
    (hstep : ∀ b c b', P b → c ∈ l → f b c = some b' → P b')
    (hrun : l.foldlM f init = some result) : P result := by
  induction l generalizing init with
  | nil =>
    simp only [List.foldlM_nil, Option.pure_def, Option.some.injEq] at hrun
    rw [← hrun]
    exact h0
  | cons c rest ih =>
    simp only [List.foldlM_cons, Option.bind_eq_bind, Option.bind_eq_some] at hrun
    obtain ⟨b1, hb1, hrest⟩ := hrun
    exact ih b1 (hstep init c b1 h0 (by simp) hb1)
      (fun b c' b' hb hc hf => hstep b c' b' hb (List.mem_cons_of_mem _ hc) hf) hrest

/-! ## The beam width -/

theorem mergeSortNormalize_eq (hypotheses : List Hypothesis) :
    mergeSortNormalize hypotheses =
      (sortAndTrim hypotheses).map
        (fun h => { h with prob := h.prob / totalOf (sortAndTrim hypotheses) }) := rfl

theorem length_sortAndTrim_le (hypotheses : List Hypothesis) :
    (sortAndTrim hypotheses).length ≤ BEAM_SEARCH_WIDTH := by
  unfold sortAndTrim
  simp only
  split
  · rw [List.length_take]
    exact Nat.min_le_left _ _
  · omega

theorem length_mergeSortNormalize_le (hypotheses : List Hypothesis) :
    (mergeSortNormalize hypotheses).length ≤ BEAM_SEARCH_WIDTH := by
  rw [mergeSortNormalize_eq, List.length_map]
  exact length_sortAndTrim_le hypotheses

/-- A property of the starting list and of every list made by
`mergeSortNormalize` holds for every list of the forward pass. -/
theorem forward_all (P : List Hypothesis → Prop)
    (getLikelihood : Int → Int → Option ℚ) (nextStates : TransMap) (totalFrames : Nat)
    (forward : List (List Hypothesis))
    (h0 : P [Hypothesis.mk startingState 1])
    (hstep : ∀ proposals, P (mergeSortNormalize proposals))
    (h : getForwardProbs getLikelihood nextStates totalFrames = some forward) :
    ∀ l ∈ forward, P l := by
  unfold getForwardProbs at h
  refine foldlM_invariant (fun fw => ∀ l ∈ fw, P l) _ _ _ _ ?_ ?_ h
  · intro l hl
    simp only [List.mem_singleton] at hl
    rw [hl]
    exact h0
  · intro fw frame fw' hfw _ hf
    simp only [Option.bind_eq_bind, Option.bind_eq_some, Option.pure_def,
      Option.some.injEq] at hf
    obtain ⟨previous, _, proposals, _, _, _, hfw'⟩ := hf
    rw [← hfw']
    intro l hl
    rcases List.mem_append.mp hl with hl | hl
    · exact hfw l hl
    · simp only [List.mem_singleton] at hl
      rw [hl]
      exact hstep proposals

/-- A property of the empty list, of the last list and of every list made by
`mergeSortNormalize` holds for every list of the backward pass. -/
theorem backward_all (P : List Hypothesis → Prop)
    (getLikelihood : Int → Int → Option ℚ) (prevStates : TransMap) (totalFrames : Nat)
    (backward : List (List Hypothesis))
    (hnil : P []) (h0 : P [Hypothesis.mk lastState 1])
    (hstep : ∀ proposals, P (mergeSortNormalize proposals))
    (h : getBackwardProbs getLikelihood prevStates totalFrames = some backward) :
    ∀ l ∈ backward, P l := by
  unfold getBackwardProbs at h
  refine foldlM_invariant (fun bw => ∀ l ∈ bw, P l) _ _ _ _ ?_ ?_ h
  · intro l hl
    split at hl
    · rcases List.mem_or_eq_of_mem_set hl with hl | hl
      · rw [List.eq_of_mem_replicate hl]
        exact hnil
      · rw [hl]
        exact h0
    · rw [List.eq_of_mem_replicate hl]
      exact hnil
  · intro bw frame bw' hbw _ hf
    simp only [Option.bind_eq_bind, Option.bind_eq_some, Option.pure_def,
      Option.some.injEq] at hf
    obtain ⟨later, _, proposals, _, hbw'⟩ := hf
    rw [← hbw']
    intro l hl
    rcases List.mem_or_eq_of_mem_set hl with hl | hl
    · exact hbw l hl
    · rw [hl]
      exact hstep proposals

/-- C11: every per-frame list returned by `getForwardProbs` and by
`getBackwardProbs` has at most `BEAM_SEARCH_WIDTH = 200` hypotheses. -/
theorem beam_width_bound (getLikelihood : Int → Int → Option ℚ)
    (nextStates prevStates : TransMap) (totalFrames : Nat) :
    BEAM_SEARCH_WIDTH = 200 ∧
      (∀ forward, getForwardProbs getLikelihood nextStates totalFrames = some forward →
        ∀ l ∈ forward, l.length ≤ BEAM_SEARCH_WIDTH) ∧
      (∀ backward, getBackwardProbs getLikelihood prevStates totalFrames = some backward →
        ∀ l ∈ backward, l.length ≤ BEAM_SEARCH_WIDTH) := by
  refine ⟨rfl, ?_, ?_⟩
  · intro forward h
    exact forward_all (fun l => l.length ≤ BEAM_SEARCH_WIDTH) _ _ _ _
      (by decide) length_mergeSortNormalize_le h
  · intro backward h
    exact backward_all (fun l => l.length ≤ BEAM_SEARCH_WIDTH) _ _ _ _
      (by decide) (by decide) length_mergeSortNormalize_le h

theorem beam_width_bound_witness :
    getForwardProbs (fun _ _ => some 1) (SimpleHMM.new twoEvents).m_nextStates 2 =
        some [[Hypothesis.mk startingState 1],
          [Hypothesis.mk startingState (39 / 40), Hypothesis.mk ⟨0, 0⟩ (1 / 40)]] ∧
      ([Hypothesis.mk startingState (39 / 40), Hypothesis.mk ⟨0, 0⟩ (1 / 40)] :
        List Hypothesis).length ≤ BEAM_SEARCH_WIDTH :=
  ⟨by decide!,
    (beam_width_bound (fun _ _ => some 1) (SimpleHMM.new twoEvents).m_nextStates
      (SimpleHMM.new twoEvents).m_prevStates 2).2.1
      [[Hypothesis.mk startingState 1],
        [Hypothesis.mk startingState (39 / 40), Hypothesis.mk ⟨0, 0⟩ (1 / 40)]]
      (by decide!) _ (List.mem_cons_of_mem _ (List.mem_singleton.mpr rfl))⟩

/-! ## The loop over the window starts -/

theorem foldl_entry_mass (event : Int) (l : List Hypothesis) (init : ℚ) :
    l.foldl
        (fun score h =>
          if h.state.eventIndex = event ∧ h.state.microIndex = 0 then score + h.prob
          else score)
        init = init + massOf l ⟨event, 0⟩ := by
  induction l generalizing init with
  | nil => simp [massOf]
  | cons h rest ih =>
    rw [List.foldl_cons, ih]
    by_cases hc : h.state.eventIndex = event ∧ h.state.microIndex = 0
    · have hs : h.state = ⟨event, 0⟩ := by
        cases hst : h.state with
        | mk e m =>
          rw [hst] at hc
          simp only at hc
          rw [hc.1, hc.2]
      simp [massOf, hc, hs, List.filter_cons]
      ring
    · have hs : ¬ h.state = ⟨event, 0⟩ := by
        intro hst
        apply hc
        rw [hst]
        exact ⟨rfl, rfl⟩
      simp [massOf, hc, hs, List.filter_cons]

/-- The score computed by the two inner loops is the sum of the
specification. -/
theorem windowScore_eq_specScore (post : List (List Hypothesis)) (event : Int) (t : Nat) :
    windowScore post event t = specScore post event t := by
  unfold windowScore specScore entryMass
  have h3 : windowSize.toNat = 3 := rfl
  rw [h3]
  simp only [List.range', List.foldl_cons, List.foldl_nil, foldl_entry_mass, List.map_cons,
    List.map_nil, List.sum_cons, List.sum_nil]
  ring

/-- The loop over the window starts `s, …, s + n - 1`: either no score exceeds
the starting best score and the pair is unchanged, or the loop ends on the
first start of largest score. -/
theorem bestRange_spec (score : Nat → ℚ) (n s : Nat) (init : ℚ × Int) :
    ((List.range' s n).foldl
          (fun best frame =>
            if score frame > best.1 then (score frame, (frame : Int) + windowSize / 2)
            else best) init = init ∧
        ∀ t, s ≤ t → t < s + n → score t ≤ init.1) ∨
      ∃ t, s ≤ t ∧ t < s + n ∧
        (List.range' s n).foldl
          (fun best frame =>
            if score frame > best.1 then (score frame, (frame : Int) + windowSize / 2)
            else best) init = (score t, (t : Int) + windowSize / 2) ∧
        init.1 < score t ∧
        (∀ u, s ≤ u → u < t → score u < score t) ∧
        (∀ u, s ≤ u → u < s + n → score u ≤ score t) := by
  induction n generalizing s init with
  | zero =>
    left
    exact ⟨rfl, fun t h1 h2 => by omega⟩
  | succ k ih =>
    simp only [List.range', List.foldl_cons]
    by_cases hgt : score s > init.1
    · rw [if_pos hgt]
      rcases ih (s + 1) (score s, (s : Int) + windowSize / 2) with ⟨hr, hall⟩ | ⟨t, h1, h2, hr, hlt, hbefore, hmax⟩
      · right
        refine ⟨s, le_refl _, by omega, hr, hgt, fun u h1 h2 => by omega, ?_⟩
        intro u hu1 hu2
        by_cases hus : u = s
        · rw [hus]
        · exact hall u (by omega) (by omega)
      · right
        simp only at hlt
        refine ⟨t, by omega, by omega, hr, lt_trans hgt hlt, ?_, ?_⟩
        · intro u hu1 hu2
          by_cases hus : u = s
          · rw [hus]; exact hlt
          · exact hbefore u (by omega) hu2
        · intro u hu1 hu2
          by_cases hus : u = s
          · rw [hus]; exact le_of_lt hlt
          · exact hmax u (by omega) (by omega)
    · rw [if_neg hgt]
      rcases ih (s + 1) init with ⟨hr, hall⟩ | ⟨t, h1, h2, hr, hlt, hbefore, hmax⟩
      · left
        refine ⟨hr, ?_⟩
        intro u hu1 hu2
        by_cases hus : u = s
        · rw [hus]; exact not_lt.mp hgt
        · exact hall u (by omega) (by omega)
      · right
        refine ⟨t, by omega, by omega, hr, hlt, ?_, ?_⟩
        · intro u hu1 hu2
          by_cases hus : u = s
          · rw [hus]; exact lt_of_le_of_lt (not_lt.mp hgt) hlt
          · exact hbefore u (by omega) hu2
        · intro u hu1 hu2
          by_cases hus : u = s
          · rw [hus]; exact le_of_lt (lt_of_le_of_lt (not_lt.mp hgt) hlt)
          · exact hmax u (by omega) (by omega)

/-- The loop of `bestWindow`: without a window of positive score
`bestStartFrame` keeps its starting value; otherwise it ends as the first
window start of largest score plus `windowSize/2`. -/
theorem bestWindow_spec (post : List (List Hypothesis)) (event : Int) (startFrame : Nat)
    (indeterminate : Int) :
    (bestWindow post event startFrame indeterminate = (0, indeterminate) ∧
        ∀ t, startFrame ≤ t → t + windowSize.toNat ≤ post.length →
          specScore post event t ≤ 0) ∨
      ∃ t, startFrame ≤ t ∧ t + windowSize.toNat ≤ post.length ∧
        bestWindow post event startFrame indeterminate =
          (specScore post event t, (t : Int) + windowSize / 2) ∧
        0 < specScore post event t ∧
        (∀ u, startFrame ≤ u → u < t → specScore post event u < specScore post event t) ∧
        (∀ u, startFrame ≤ u → u + windowSize.toNat ≤ post.length →
          specScore post event u ≤ specScore post event t) := by
  have h3 : windowSize.toNat = 3 := rfl
  have hfun : (fun (best : ℚ × Int) (frame : Nat) =>
      let score := windowScore post event frame
      if score > best.1 then (score, (frame : Int) + windowSize / 2) else best) =
      (fun best frame =>
        if specScore post event frame > best.1 then
          (specScore post event frame, (frame : Int) + windowSize / 2)
        else best) := by
    funext best frame
    simp only [windowScore_eq_specScore]
  unfold bestWindow
  rw [hfun, h3]
  rcases bestRange_spec (specScore post event) (post.length + 1 - 3 - startFrame) startFrame
      (0, indeterminate) with ⟨hr, hall⟩ | ⟨t, h1, h2, hr, hlt, hbefore, hmax⟩
  · left
    exact ⟨hr, fun t ht1 ht2 => hall t ht1 (by omega)⟩
  · right
    exact ⟨t, h1, by omega, hr, hlt, hbefore, fun u hu1 hu2 => hmax u hu1 (by omega)⟩

/-! ## The loop over the events -/

theorem extractOnsets_succ (post : List (List Hypothesis)) (n : Nat)
    (indeterminate : Nat → Int) :
    extractOnsets post (n + 1) indeterminate =
      extractOnsets post n indeterminate ++
        [(bestWindow post (n : Int)
          (startFrameOf (extractOnsets post n indeterminate)).toNat (indeterminate n)).2] := by
  unfold extractOnsets
  rw [List.range_succ, List.foldl_append]
  rfl

theorem extractOnsets_getElem? (post : List (List Hypothesis)) (n e : Nat)
    (indeterminate : Nat → Int) (he : e < n) :
    (extractOnsets post n indeterminate)[e]? =
      some (bestWindow post (e : Int)
        (startFrameOf (extractOnsets post e indeterminate)).toNat (indeterminate e)).2 := by
  induction n with
  | zero => omega
  | succ k ih =>
    rw [extractOnsets_succ]
    by_cases hek : e = k
    · subst hek
      rw [List.getElem?_append_right (by rw [extractOnsets_length])]
      simp [extractOnsets_length]
    · rw [List.getElem?_append_left (by rw [extractOnsets_length]; omega)]
      exact ih (by omega)

theorem startFrameOf_nil : startFrameOf [] = 0 := rfl

theorem startFrameOf_extractOnsets_succ (post : List (List Hypothesis)) (k : Nat)
    (indeterminate : Nat → Int) :
    startFrameOf (extractOnsets post (k + 1) indeterminate) =
      max 0 ((extractOnsets post (k + 1) indeterminate).getD k 0 - windowSize / 2 + 1) := by
  have hlen := extractOnsets_length post (k + 1) indeterminate
  have hget : (extractOnsets post (k + 1) indeterminate).getLastD 0 =
      (extractOnsets post (k + 1) indeterminate).getD k 0 := by
    rw [extractOnsets_succ]
    simp [List.getD_eq_getElem?_getD, extractOnsets_length]
  unfold startFrameOf
  simp only [hlen, Nat.add_one_ne_zero, if_false, hget]
  split
  · rw [max_eq_left (by omega)]
  · rw [max_eq_right (by omega)]

/-- The entries before `e` of a longer run are the run over `e` events. -/
theorem extractOnsets_getD_prefix (post : List (List Hypothesis)) (n k : Nat)
    (indeterminate : Nat → Int) (hk : k < n) :
    (extractOnsets post n indeterminate).getD k 0 =
      (extractOnsets post (k + 1) indeterminate).getD k 0 := by
  rw [List.getD_eq_getElem?_getD, List.getD_eq_getElem?_getD,
    extractOnsets_getElem? post n k indeterminate hk,
    extractOnsets_getElem? post (k + 1) k indeterminate (by omega)]

theorem getAlignmentResults_eq {α : Type} (hmm : SimpleHMM α)
    (getLikelihood : Int → Int → Option ℚ) (indeterminate : Nat → Int) :
    hmm.getAlignmentResults getLikelihood indeterminate =
      (hmm.posteriors getLikelihood).map
        (fun post => extractOnsets post hmm.m_aligner.m_score.length indeterminate) := by
  unfold SimpleHMM.getAlignmentResults SimpleHMM.posteriors
  dsimp only
  cases getForwardProbs getLikelihood hmm.m_nextStates hmm.m_aligner.m_dataFeatures.length with
  | none => rfl
  | some forward =>
    cases getBackwardProbs getLikelihood hmm.m_prevStates
        hmm.m_aligner.m_dataFeatures.length with
    | none => rfl
    | some backward =>
      simp only [Option.bind_eq_bind, Option.some_bind, Option.pure_def]
      cases posterior forward backward hmm.m_aligner.m_dataFeatures.length with
      | none => rfl
      | some post => rfl

/-- The first window start of event `e`, from the results of a longer run. -/
theorem startFrameOf_prefix (post : List (List Hypothesis)) (n e : Nat)
    (indeterminate : Nat → Int) (he : e < n) :
    startFrameOf (extractOnsets post e indeterminate) =
      if e = 0 then 0
      else max 0 ((extractOnsets post n indeterminate).getD (e - 1) 0 - windowSize / 2 + 1) := by
  cases e with
  | zero => rfl
  | succ k =>
    rw [if_neg (Nat.succ_ne_zero k), startFrameOf_extractOnsets_succ, Nat.add_sub_cancel,
      extractOnsets_getD_prefix post n k indeterminate (by omega)]

/-- What the loop over the events emits for the event `e`: the indeterminate
value when no window has a positive score, and otherwise the first window
start of largest score plus `windowSize/2`. -/
theorem onset_cases (post : List (List Hypothesis)) (n e : Nat)
    (indeterminate : Nat → Int) (he : e < n) :
    ((extractOnsets post n indeterminate)[e]? = some (indeterminate e) ∧
        ∀ t, (if e = 0 then (0 : Int)
              else max 0 ((extractOnsets post n indeterminate).getD (e - 1) 0
                - windowSize / 2 + 1)).toNat ≤ t →
          t + windowSize.toNat ≤ post.length → specScore post e t ≤ 0) ∨
      ∃ t, (if e = 0 then (0 : Int)
              else max 0 ((extractOnsets post n indeterminate).getD (e - 1) 0
                - windowSize / 2 + 1)).toNat ≤ t ∧
        t + windowSize.toNat ≤ post.length ∧
        (extractOnsets post n indeterminate)[e]? = some ((t : Int) + windowSize / 2) ∧
        0 < specScore post e t ∧
        (∀ u, (if e = 0 then (0 : Int)
              else max 0 ((extractOnsets post n indeterminate).getD (e - 1) 0
                - windowSize / 2 + 1)).toNat ≤ u →
          u < t → specScore post e u < specScore post e t) ∧
        (∀ u, (if e = 0 then (0 : Int)
              else max 0 ((extractOnsets post n indeterminate).getD (e - 1) 0
                - windowSize / 2 + 1)).toNat ≤ u →
          u + windowSize.toNat ≤ post.length → specScore post e u ≤ specScore post e t) := by
  rw [extractOnsets_getElem? post n e indeterminate he,
    ← startFrameOf_prefix post n e indeterminate he]
  rcases bestWindow_spec post (e : Int) (startFrameOf (extractOnsets post e indeterminate)).toNat
      (indeterminate e) with ⟨hr, hall⟩ | ⟨t, h1, h2, hr, hpos, hbefore, hmax⟩
  · left
    exact ⟨by rw [hr], hall⟩
  · right
    exact ⟨t, h1, h2, by rw [hr], hpos, hbefore, hmax⟩

theorem specScore_of_empty (post : List (List Hypothesis)) (event : Int) (t : Nat)
    (h : ∀ l ∈ post, l = []) : specScore post event t = 0 := by
  have hget : ∀ u, post.getD u [] = [] := by
    intro u
    rw [List.getD_eq_getElem?_getD]
    cases hu : post[u]? with
    | none => rfl
    | some l => exact h l (List.getElem?_mem hu)
  unfold specScore
  apply List.sum_eq_zero
  intro x hx
  simp only [List.mem_map] at hx
  obtain ⟨u, _, rfl⟩ := hx
  simp only [entryMass, hget, massOf, List.filter_nil, List.map_nil, List.sum_nil]

/-- Without any posterior mass every event gets the indeterminate value. -/
theorem extractOnsets_of_empty (post : List (List Hypothesis)) (n : Nat)
    (indeterminate : Nat → Int) (h : ∀ l ∈ post, l = []) :
    extractOnsets post n indeterminate = (List.range n).map indeterminate := by
  apply List.ext_getElem?
  intro e
  by_cases he : e < n
  · rcases onset_cases post n e indeterminate he with ⟨hr, _⟩ | ⟨t, _, _, _, hpos, _⟩
    · rw [hr]
      simp [he]
    · rw [specScore_of_empty post e t h] at hpos
      exact absurd hpos (lt_irrefl 0)
  · rw [List.getElem?_eq_none (by rw [extractOnsets_length]; omega),
      List.getElem?_eq_none (by simp; omega)]

/-- The posterior has one list per frame: the sorted combination of the
forward and the backward list of that frame. -/
theorem posterior_spec (forward backward : List (List Hypothesis)) (totalFrames : Nat)
    (post : List (List Hypothesis)) (h : posterior forward backward totalFrames = some post) :
    post.length = totalFrames ∧
      ∀ t, t < totalFrames → ∃ f b, forward[t]? = some f ∧ backward[t]? = some b ∧
        post[t]? = some ((combineFrame f b).insertionSort (fun a b => a.gt b = true)) := by
  have key : ∀ (n : Nat) (raw : List (List Hypothesis)),
      (List.range n).foldlM
        (fun post frame => do
          let f ← forward[frame]?
          let b ← backward[frame]?
          pure (post ++ [combineFrame f b]))
        [] = some raw →
      raw.length = n ∧ ∀ t, t < n → ∃ f b, forward[t]? = some f ∧ backward[t]? = some b ∧
        raw[t]? = some (combineFrame f b) := by
    intro n
    induction n with
    | zero =>
      intro raw hraw
      simp only [List.range_zero, List.foldlM_nil, Option.pure_def, Option.some.injEq] at hraw
      rw [← hraw]
      exact ⟨rfl, fun t ht => by omega⟩
    | succ k ih =>
      intro raw hraw
      rw [List.range_succ, List.foldlM_append] at hraw
      simp only [Option.bind_eq_bind, Option.bind_eq_some, List.foldlM_cons, List.foldlM_nil,
        Option.pure_def, Option.some.injEq] at hraw
      obtain ⟨raw0, hraw0, raw1, ⟨f, hf, b, hb, hraw1⟩, heq⟩ := hraw
      obtain ⟨hlen, hall⟩ := ih raw0 hraw0
      rw [← heq, ← hraw1]
      refine ⟨by simp [hlen], ?_⟩
      intro t ht
      by_cases htk : t = k
      · subst htk
        refine ⟨f, b, hf, hb, ?_⟩
        rw [List.getElem?_append_right (by omega)]
        simp [hlen]
      · obtain ⟨f', b', hf', hb', hget⟩ := hall t (by omega)
        refine ⟨f', b', hf', hb', ?_⟩
        rw [List.getElem?_append_left (by omega)]
        exact hget
  unfold posterior at h
  simp only [Option.bind_eq_bind, Option.bind_eq_some, Option.pure_def, Option.some.injEq] at h
  obtain ⟨raw, hraw, hpost⟩ := h
  obtain ⟨hlen, hall⟩ := key totalFrames raw hraw
  rw [← hpost]
  refine ⟨by simp [hlen], ?_⟩
  intro t ht
  obtain ⟨f, b, hf, hb, hget⟩ := hall t ht
  exact ⟨f, b, hf, hb, by simp [hget]⟩

theorem posteriors_length {α : Type} (hmm : SimpleHMM α)
    (getLikelihood : Int → Int → Option ℚ) (post : List (List Hypothesis))
    (h : hmm.posteriors getLikelihood = some post) :
    post.length = hmm.m_aligner.m_dataFeatures.length := by
  unfold SimpleHMM.posteriors at h
  simp only [Option.bind_eq_bind, Option.bind_eq_some] at h
  obtain ⟨forward, _, backward, _, hpost⟩ := h
  exact (posterior_spec _ _ _ _ hpost).1

theorem results_of_posteriors {α : Type} (hmm : SimpleHMM α)
    (getLikelihood : Int → Int → Option ℚ) (indeterminate : Nat → Int)
    (post : List (List Hypothesis)) (results : List Int)
    (hpost : hmm.posteriors getLikelihood = some post)
    (hres : hmm.getAlignmentResults getLikelihood indeterminate = some results) :
    results = extractOnsets post hmm.m_aligner.m_score.length indeterminate := by
  rw [getAlignmentResults_eq, hpost] at hres
  simp only [Option.map_some', Option.some.injEq] at hres
  exact hres.symm

theorem new_m_aligner {α : Type} (aligner : AudioToScoreAligner α) :
    (SimpleHMM.new aligner).m_aligner = aligner := by
  unfold SimpleHMM.new
  simp only
  split <;> rfl

/-- C15: with two events of 62.5 frames and five feature frames, every
likelihood being 1, no posterior list has a hypothesis, so no window of either
event has a positive score, and `align` returns the two values held by the
uninitialised `bestStartFrame`, not `[0, 0]`. -/
theorem align_fiveFrames_indeterminate (indeterminate : Nat → Int) :
    (SimpleHMM.new fiveFrames.initializeLikelihoods).posteriors (fun _ _ => some 1) =
        some [[], [], [], [], []] ∧
      fiveFrames.align (fun _ _ => some 1) indeterminate =
        some [indeterminate 0, indeterminate 1] := by
  have hpost : (SimpleHMM.new fiveFrames.initializeLikelihoods).posteriors
      (fun _ _ => some 1) = some [[], [], [], [], []] := by decide!
  refine ⟨hpost, ?_⟩
  unfold AudioToScoreAligner.align
  rw [getAlignmentResults_eq, hpost, Option.map_some',
    extractOnsets_of_empty _ _ _ (by simp)]
  rfl

/-- C16: for an event with a window of positive score, `getAlignmentResults`
emits `t* + ⌊W/2⌋` with `W = 3`, where `t*` is the smallest window start
between `startFrame` and `F - W` of largest score, the score of a start `t`
being the posterior mass on the entry state of the event over the frames
`t, …, t + W - 1`; `startFrame` is 0 for the first event and
`max(0, results[e-1] - ⌊W/2⌋ + 1)` for the others. -/
theorem onset_first_best_window {α : Type} (hmm : SimpleHMM α)
    (getLikelihood : Int → Int → Option ℚ) (indeterminate : Nat → Int)
    (post : List (List Hypothesis)) (results : List Int)
    (hpost : hmm.posteriors getLikelihood = some post)
    (hres : hmm.getAlignmentResults getLikelihood indeterminate = some results) :
    (windowSize = 3 ∧ windowSize / 2 = 1 ∧
        post.length = hmm.m_aligner.m_dataFeatures.length) ∧
      ∀ e : Nat, e < hmm.m_aligner.m_score.length →
        (∃ t, specStartFrame results e ≤ t ∧ t + windowSize.toNat ≤ post.length ∧
          0 < specScore post e t) →
        ∃ tstar : Nat, specStartFrame results e ≤ tstar ∧
          tstar + windowSize.toNat ≤ post.length ∧
          results[e]? = some ((tstar : Int) + windowSize / 2) ∧
          (∀ t, specStartFrame results e ≤ t → t + windowSize.toNat ≤ post.length →
            specScore post e t ≤ specScore post e tstar) ∧
          (∀ t, specStartFrame results e ≤ t → t < tstar →
            specScore post e t < specScore post e tstar) := by
  refine ⟨⟨rfl, rfl, posteriors_length hmm getLikelihood post hpost⟩, ?_⟩
  intro e he hex
  have hr := results_of_posteriors hmm getLikelihood indeterminate post results hpost hres
  rw [hr] at hex ⊢
  rcases onset_cases post hmm.m_aligner.m_score.length e indeterminate he with
    ⟨_, hall⟩ | ⟨t, h1, h2, hget, _, hbefore, hmax⟩
  · obtain ⟨t, ht1, ht2, ht3⟩ := hex
    exact absurd ht3 (not_lt.mpr (hall t ht1 ht2))
  · exact ⟨t, h1, h2, hget, hmax, hbefore⟩

theorem onset_first_best_window_witness :
    ∃ tstar : Nat, specStartFrame [2, 5] 1 ≤ tstar ∧
      tstar + windowSize.toNat ≤ silentPost.length ∧
      ([2, 5] : List Int)[1]? = some ((tstar : Int) + windowSize / 2) ∧
      (∀ t, specStartFrame [2, 5] 1 ≤ t → t + windowSize.toNat ≤ silentPost.length →
        specScore silentPost (1 : Nat) t ≤ specScore silentPost (1 : Nat) tstar) ∧
      (∀ t, specStartFrame [2, 5] 1 ≤ t → t < tstar →
        specScore silentPost (1 : Nat) t < specScore silentPost (1 : Nat) tstar) :=
  (onset_first_best_window (SimpleHMM.new silentRun.initializeLikelihoods)
    (fun _ _ => some 1) (fun _ => 0) silentPost [2, 5] (by decide!) (by decide!)).2
    1 (by decide) ⟨4, by decide!⟩

/-- C18, as stated, fails: two events of 4 frames each (`M = 3`, `p = 1/4`),
ten all-zero feature frames and every likelihood 1 give the result `[2, 5]`,
not `[1, 2]`. -/
theorem silentRun_result :
    ((0 : Int) < silentRun.m_hopSize ∧
        (∀ ev ∈ silentRun.m_score, 0 < ev.duration ∧ 0 < ev.tempo) ∧
        silentRun.m_score.length = 2 ∧ 4 ≤ silentRun.m_dataFeatures.length ∧
        ∀ x ∈ silentRun.m_dataFeatures, ∀ v ∈ x, v = 0) ∧
      silentRun.align (fun _ _ => some 1) (fun _ => 0) = some [2, 5] := by
  decide!

/-- C18, amended: for a two-event score (positive durations and tempos, hop
size above 0) and `F ≥ 4` all-zero feature frames, every likelihood being 1,
when each of the two events has a window of positive score the result is
`[r0, r1]` with `1 ≤ r0`, `r0 + 1 ≤ r1` and `r1 ≤ F - 2`: the frames 1 and 2 are
the earliest that can be emitted, and they are not always the ones emitted. -/
theorem silent_two_events_bounds {α : Type} [Zero α] (a : AudioToScoreAligner α)
    (indeterminate : Nat → Int) (post : List (List Hypothesis)) (results : List Int)
    (hE : a.m_score.length = 2) (_hhop : 0 < a.m_hopSize)
    (_hpos : ∀ ev ∈ a.m_score, 0 < ev.duration ∧ 0 < ev.tempo)
    (_hF : 4 ≤ a.m_dataFeatures.length) (_hzero : ∀ x ∈ a.m_dataFeatures, ∀ v ∈ x, v = 0)
    (hpost : (SimpleHMM.new a.initializeLikelihoods).posteriors (fun _ _ => some 1) = some post)
    (hres : a.align (fun _ _ => some 1) indeterminate = some results)
    (h0 : ∃ t, specStartFrame results 0 ≤ t ∧ t + windowSize.toNat ≤ post.length ∧
      0 < specScore post (0 : Nat) t)
    (h1 : ∃ t, specStartFrame results 1 ≤ t ∧ t + windowSize.toNat ≤ post.length ∧
      0 < specScore post (1 : Nat) t) :
    ∃ r0 r1 : Int, results = [r0, r1] ∧ 1 ≤ r0 ∧ r0 + 1 ≤ r1 ∧
      r1 + 2 ≤ a.m_dataFeatures.length := by
  have hlen : post.length = a.m_dataFeatures.length := by
    rw [posteriors_length _ _ post hpost, new_m_aligner]
    rfl
  have hr := results_of_posteriors _ _ indeterminate post results hpost hres
  have hscore : (SimpleHMM.new a.initializeLikelihoods).m_aligner.m_score.length = 2 := by
    rw [new_m_aligner]
    exact hE
  rw [hscore] at hr
  have h3 : windowSize.toNat = 3 := rfl
  have hhalf : windowSize / 2 = 1 := rfl
  have hrlen : results.length = 2 := by rw [hr, extractOnsets_length]
  rw [hr] at h0 h1
  rcases onset_cases post 2 0 indeterminate (by omega) with
    ⟨_, hall⟩ | ⟨t0, _, ht0, hget0, _, _, _⟩
  · obtain ⟨t, ht1, ht2, ht3⟩ := h0
    exact absurd ht3 (not_lt.mpr (hall t ht1 ht2))
  · rcases onset_cases post 2 1 indeterminate (by omega) with
      ⟨_, hall⟩ | ⟨t1, hs1, ht1, hget1, _, _, _⟩
    · obtain ⟨t, ht1, ht2, ht3⟩ := h1
      exact absurd ht3 (not_lt.mpr (hall t ht1 ht2))
    · rw [← hr] at hget0 hget1 hs1
      have hd0 : results.getD 0 0 = (t0 : Int) + 1 := by
        rw [List.getD_eq_getElem?_getD, hget0, hhalf]
        rfl
      simp only [Nat.one_ne_zero, if_false, Nat.sub_self, hd0, hhalf] at hs1
      refine ⟨(t0 : Int) + 1, (t1 : Int) + 1, ?_, by omega, by omega, by omega⟩
      apply List.ext_getElem?
      intro i
      match i with
      | 0 => rw [hget0, hhalf]; rfl
      | 1 => rw [hget1, hhalf]; rfl
      | (j + 2) =>
        rw [List.getElem?_eq_none (by omega)]
        rfl

theorem silent_two_events_bounds_witness :
    ∃ r0 r1 : Int, ([2, 5] : List Int) = [r0, r1] ∧ 1 ≤ r0 ∧ r0 + 1 ≤ r1 ∧
      r1 + 2 ≤ silentRun.m_dataFeatures.length :=
  silent_two_events_bounds silentRun (fun _ => 0) silentPost [2, 5] (by decide) (by decide)
    (by decide!) (by decide) (by decide!) (by decide!) (by decide!)
    ⟨1, by decide!⟩ ⟨4, by decide!⟩

/-- C12: for a score whose only event has tempo 0 the constructor does not
fail: it adds the state `(0, 0)` of the event, the forward pass walks the graph
and reaches that state, and `align` returns a result. -/
theorem zeroTempo_still_aligned :
    (∃ ev ∈ zeroTempo.m_score, ev.tempo = 0) ∧
      hasKey (SimpleHMM.new zeroTempo.initializeLikelihoods).m_nextStates ⟨0, 0⟩ = true ∧
      getForwardProbs (fun _ _ => some 1)
          (SimpleHMM.new zeroTempo.initializeLikelihoods).m_nextStates 3 =
        some [[Hypothesis.mk startingState 1],
          [Hypothesis.mk startingState (39 / 40), Hypothesis.mk ⟨0, 0⟩ (1 / 40)],
          [Hypothesis.mk startingState (1521 / 1600), Hypothesis.mk ⟨0, 0⟩ (79 / 1600),
            Hypothesis.mk lastState 0]] ∧
      zeroTempo.align (fun _ _ => some 1) (fun _ => 0) = some [0] := by
  decide!

/-- Without any feature frame `align` returns a sequence with one entry per
event of the score. -/
theorem align_without_features {α : Type} [Zero α] (a : AudioToScoreAligner α)
    (getLikelihood : Int → Int → Option ℚ) (indeterminate : Nat → Int)
    (h : a.m_dataFeatures = []) :
    ∃ results, a.align getLikelihood indeterminate = some results ∧
      results.length = a.m_score.length := by
  have hF : (SimpleHMM.new a.initializeLikelihoods).m_aligner.m_dataFeatures.length = 0 := by
    rw [new_m_aligner]
    show a.m_dataFeatures.length = 0
    rw [h]
    rfl
  have hE : (SimpleHMM.new a.initializeLikelihoods).m_aligner.m_score.length =
      a.m_score.length := by
    rw [new_m_aligner]
    rfl
  have hpost : (SimpleHMM.new a.initializeLikelihoods).posteriors getLikelihood = some [] := by
    unfold SimpleHMM.posteriors
    rw [hF]
    rfl
  refine ⟨extractOnsets [] a.m_score.length indeterminate, ?_, extractOnsets_length _ _ _⟩
  unfold AudioToScoreAligner.align
  rw [getAlignmentResults_eq, hpost, hE]
  rfl

/-- C13: without any feature frame `align` does not fail: for a score of two
events it returns two entries, the values held by the uninitialised
`bestStartFrame`. -/
theorem align_noFrames_indeterminate (getLikelihood : Int → Int → Option ℚ)
    (indeterminate : Nat → Int) :
    noFrames.m_dataFeatures.length = 0 ∧ noFrames.m_score.length = 2 ∧
      noFrames.align getLikelihood indeterminate =
        some [indeterminate 0, indeterminate 1] := by
  refine ⟨rfl, rfl, ?_⟩
  have h : noFrames.align getLikelihood indeterminate =
      some (extractOnsets [] 2 indeterminate) := by
    rfl
  rw [h]
  simp [extractOnsets, List.range_succ, bestWindow_of_short]

/-- C14: when every likelihood is 0 the hypotheses kept at frame 1 have total
0; the forward and the backward pass still return their lists, the quotients by
the zero total among them, and `align` returns a result. -/
theorem zero_total_still_aligned :
    forwardProposals (fun _ _ => some 0)
          (SimpleHMM.new fiveFrames.initializeLikelihoods).m_nextStates 1
          [Hypothesis.mk startingState 1] =
        some [Hypothesis.mk startingState 0, Hypothesis.mk ⟨0, 0⟩ 0] ∧
      totalOf (sortAndTrim [Hypothesis.mk startingState 0, Hypothesis.mk ⟨0, 0⟩ 0]) = 0 ∧
      (getForwardProbs (fun _ _ => some 0)
          (SimpleHMM.new fiveFrames.initializeLikelihoods).m_nextStates 5).isSome = true ∧
      (getBackwardProbs (fun _ _ => some 0)
          (SimpleHMM.new fiveFrames.initializeLikelihoods).m_prevStates 5).isSome = true ∧
      fiveFrames.align (fun _ _ => some 0) (fun _ => 0) = some [0, 0] := by
  decide!

/-- C17: `getLikelihood` computes the cell `(0, 0)` and stores the value, but
the flag `calculated` of the cell is still `false` afterwards, so the next call
computes and stores again. -/
theorem getLikelihood_flag_never_set (exp log : ℚ → ℚ) :
    (oneFrame.initializeLikelihoods.getLikelihood exp log 0 0).map
        (fun r => (r.1, r.2.m_likelihoods.map (fun row => row.map (fun c => c.calculated)))) =
      some (exp (0 + 0 * log 1), [[false]]) := by
  rfl

/-! ## The orders on states and hypotheses -/

theorem State.lt_iff (a b : State) :
    a.lt b = true ↔ a.eventIndex < b.eventIndex ∨
      (a.eventIndex = b.eventIndex ∧ a.microIndex < b.microIndex) := by
  unfold State.lt
  split_ifs with h1 h2 h3
  · exact ⟨fun _ => Or.inl h1, fun _ => rfl⟩
  · exact ⟨fun h => h.elim, fun h => by omega⟩
  · exact ⟨fun _ => Or.inr ⟨by omega, h3⟩, fun _ => rfl⟩
  · exact ⟨fun h => h.elim, fun h => by omega⟩

theorem State.lt_irrefl (a : State) : ¬ a.lt a = true := by
  rw [State.lt_iff]
  omega

theorem State.lt_trans (a b c : State) (h1 : a.lt b = true) (h2 : b.lt c = true) :
    a.lt c = true := by
  rw [State.lt_iff] at h1 h2 ⊢
  omega

theorem State.lt_of_ne (a b : State) (hne : a ≠ b) (h : ¬ a.lt b = true) : b.lt a = true := by
  rw [State.lt_iff] at h ⊢
  have hne' : a.eventIndex ≠ b.eventIndex ∨ a.microIndex ≠ b.microIndex := by
    by_contra hc
    push_neg at hc
    apply hne
    cases a
    cases b
    simp only [State.mk.injEq]
    exact hc
  omega

theorem Hypothesis.lt_cases_iff (a b : Hypothesis) :
    a.lt b = true ↔ a.prob < b.prob ∨ (a.prob = b.prob ∧ a.state.lt b.state = true) := by
  unfold Hypothesis.lt
  split_ifs with h1 h2
  · exact ⟨fun _ => Or.inl h1, fun _ => rfl⟩
  · constructor
    · intro h
      exact h.elim
    · rintro (h | ⟨h, _⟩)
      · exact absurd h h1
      · rw [h] at h2
        exact absurd h2 (lt_irrefl _)
  · have heq : a.prob = b.prob := le_antisymm (not_lt.mp h2) (not_lt.mp h1)
    constructor
    · intro h
      exact Or.inr ⟨heq, h⟩
    · rintro (h | ⟨_, h⟩)
      · exact absurd h h1
      · exact h

theorem Hypothesis.eq_iff (a b : Hypothesis) :
    a.eq b = true ↔ a.state = b.state ∧ a.prob = b.prob := by
  unfold Hypothesis.eq
  split_ifs with h
  · exact ⟨fun _ => h, fun _ => rfl⟩
  · exact ⟨fun h' => h'.elim, fun h' => absurd h' h⟩

theorem Hypothesis.gt_iff (a b : Hypothesis) :
    a.gt b = true ↔ b.prob < a.prob ∨ (a.prob = b.prob ∧ b.state.lt a.state = true) := by
  have hgt : a.gt b = true ↔ ¬ a.lt b = true ∧ ¬ a.eq b = true := by
    unfold Hypothesis.gt
    cases a.lt b <;> cases a.eq b <;> simp
  rw [hgt, Hypothesis.lt_cases_iff, Hypothesis.eq_iff]
  constructor
  · rintro ⟨h1, h2⟩
    push_neg at h1
    rcases lt_trichotomy a.prob b.prob with hp | hp | hp
    · exact absurd hp (not_lt.mpr h1.1)
    · right
      refine ⟨hp, ?_⟩
      have hs : a.state ≠ b.state := fun e => h2 ⟨e, hp⟩
      have hnlt : ¬ a.state.lt b.state = true := by
        intro hc
        exact absurd hc (by simpa using h1.2 hp)
      exact State.lt_of_ne _ _ hs hnlt
    · left; exact hp
  · rintro (h | ⟨h, hs⟩)
    · refine ⟨?_, ?_⟩
      · rintro (h' | ⟨h', _⟩)
        · exact absurd h' (not_lt.mpr (le_of_lt h))
        · rw [h'] at h
          exact absurd h (lt_irrefl _)
      · rintro ⟨_, h'⟩
        rw [h'] at h
        exact absurd h (lt_irrefl _)
    · refine ⟨?_, ?_⟩
      · rintro (h' | ⟨_, h'⟩)
        · rw [h] at h'
          exact absurd h' (lt_irrefl _)
        · exact State.lt_irrefl _ (State.lt_trans _ _ _ h' hs)
      · rintro ⟨h', _⟩
        rw [h'] at hs
        exact State.lt_irrefl _ hs

theorem Hypothesis.gt_trans (a b c : Hypothesis) (h1 : a.gt b = true) (h2 : b.gt c = true) :
    a.gt c = true := by
  rw [Hypothesis.gt_iff] at h1 h2 ⊢
  rcases h1 with h1 | ⟨h1, h1'⟩
  · rcases h2 with h2 | ⟨h2, _⟩
    · left; exact lt_trans h2 h1
    · left; rw [← h2]; exact h1
  · rcases h2 with h2 | ⟨h2, h2'⟩
    · left; rw [h1]; exact h2
    · right; exact ⟨h1.trans h2, State.lt_trans _ _ _ h2' h1'⟩

theorem Hypothesis.gt_of_ne (a b : Hypothesis) (hne : a ≠ b) (h : ¬ a.gt b = true) :
    b.gt a = true := by
  rw [Hypothesis.gt_iff] at h ⊢
  push_neg at h
  rcases lt_trichotomy a.prob b.prob with hp | hp | hp
  · left; exact hp
  · right
    refine ⟨hp.symm, ?_⟩
    have hs : a.state ≠ b.state := by
      intro hs
      apply hne
      cases a
      cases b
      simp only [Hypothesis.mk.injEq]
      exact ⟨hs, hp⟩
    exact State.lt_of_ne _ _ hs.symm (h.2 hp)
  · exact absurd hp (not_lt.mpr h.1)

/-! ## Keys of the ordered maps -/

theorem mapInsert_cons {V : Type} (k' : State) (v' : V) (tl : List (State × V))
    (k : State) (v : V) :
    mapInsert ((k', v') :: tl) k v =
      if k' = k then (k, v) :: tl
      else if k.lt k' then (k, v) :: (k', v') :: tl
      else (k', v') :: mapInsert tl k v := rfl

theorem mem_keys_mapInsert {V : Type} (m : List (State × V)) (k : State) (v : V) (x : State) :
    x ∈ (mapInsert m k v).map Prod.fst ↔ x = k ∨ x ∈ m.map Prod.fst := by
  induction m with
  | nil => simp [mapInsert]
  | cons hd tl ih =>
    obtain ⟨k', v'⟩ := hd
    rw [mapInsert_cons]
    by_cases hk : k' = k
    · rw [if_pos hk, ← hk]
      simp
    · rw [if_neg hk]
      by_cases hlt : k.lt k' = true
      · rw [if_pos hlt]
        simp
      · rw [if_neg hlt]
        simp only [List.map_cons, List.mem_cons, ih]
        tauto

/-- The keys of an ordered map stay in strictly increasing order under
`mapInsert`. -/
theorem sorted_keys_mapInsert {V : Type} (m : List (State × V)) (k : State) (v : V)
    (h : (m.map Prod.fst).Pairwise (fun a b => a.lt b = true)) :
    ((mapInsert m k v).map Prod.fst).Pairwise (fun a b => a.lt b = true) := by
  induction m with
  | nil => simp [mapInsert]
  | cons hd tl ih =>
    obtain ⟨k', v'⟩ := hd
    simp only [List.map_cons, List.pairwise_cons] at h
    obtain ⟨hhd, htl⟩ := h
    rw [mapInsert_cons]
    by_cases hk : k' = k
    · rw [if_pos hk, ← hk]
      simp only [List.map_cons, List.pairwise_cons]
      exact ⟨hhd, htl⟩
    · rw [if_neg hk]
      by_cases hlt : k.lt k' = true
      · rw [if_pos hlt]
        simp only [List.map_cons, List.pairwise_cons]
        refine ⟨?_, hhd, htl⟩
        intro x hx
        rcases List.mem_cons.mp hx with hx | hx
        · rw [hx]; exact hlt
        · exact State.lt_trans _ _ _ hlt (hhd x hx)
      · rw [if_neg hlt]
        simp only [List.map_cons, List.pairwise_cons]
        refine ⟨?_, ih htl⟩
        intro x hx
        rcases (mem_keys_mapInsert tl k v x).mp hx with hx | hx
        · rw [hx]
          exact State.lt_of_ne _ _ (fun e => hk e.symm) hlt
        · exact hhd x hx

theorem nodup_of_sorted_keys (keys : List State)
    (h : keys.Pairwise (fun a b => a.lt b = true)) : keys.Nodup := by
  apply List.Pairwise.imp _ h
  intro a b hab heq
  rw [heq] at hab
  exact State.lt_irrefl _ hab

theorem mem_of_mapFind {V : Type} (m : List (State × V)) (k : State) (v : V)
    (h : mapFind m k = some v) : (k, v) ∈ m := by
  induction m with
  | nil => simp [mapFind] at h
  | cons hd tl ih =>
    obtain ⟨k', v'⟩ := hd
    by_cases hk : k' = k
    · simp only [mapFind, hk, if_true, Option.some.injEq] at h
      rw [hk, h]
      simp
    · simp only [mapFind, hk, if_false] at h
      exact List.mem_cons_of_mem _ (ih h)

theorem mapFind_of_mem {V : Type} (m : List (State × V)) (k : State) (v : V)
    (hnodup : (m.map Prod.fst).Nodup) (h : (k, v) ∈ m) : mapFind m k = some v := by
  induction m with
  | nil => simp at h
  | cons hd tl ih =>
    obtain ⟨k', v'⟩ := hd
    simp only [List.map_cons, List.nodup_cons] at hnodup
    rcases List.mem_cons.mp h with h | h
    · simp only [Prod.mk.injEq] at h
      simp [mapFind, h.1, h.2]
    · have hk : k' ≠ k := by
        intro e
        apply hnodup.1
        rw [e]
        exact List.mem_map_of_mem Prod.fst h
      simp only [mapFind, hk, if_false]
      exact ih hnodup.2 h

/-! ## The merge of the hypotheses -/

theorem massOf_nil (s : State) : massOf [] s = 0 := rfl

theorem massOf_cons (h : Hypothesis) (rest : List Hypothesis) (s : State) :
    massOf (h :: rest) s = (if h.state = s then h.prob else 0) + massOf rest s := by
  unfold massOf
  by_cases hs : h.state = s <;> simp [List.filter_cons, hs]

theorem massOf_append (l1 l2 : List Hypothesis) (s : State) :
    massOf (l1 ++ l2) s = massOf l1 s + massOf l2 s := by
  unfold massOf
  simp [List.filter_append]

theorem massOf_of_not_mem (l : List Hypothesis) (s : State)
    (h : s ∉ l.map Hypothesis.state) : massOf l s = 0 := by
  induction l with
  | nil => rfl
  | cons hd tl ih =>
    simp only [List.map_cons, List.mem_cons, not_or] at h
    rw [massOf_cons, if_neg (fun e => h.1 e.symm), ih h.2, zero_add]

/-- The merge loop from a map `m`: a state of the list gets its old value, if
any, plus its mass in the list; the other states keep their entry. -/
theorem mapFind_merge_foldl (hypotheses : List Hypothesis) (m : List (State × ℚ))
    (s : State) :
    mapFind
        (hypotheses.foldl
          (fun merged h =>
            match mapFind merged h.state with
            | none => mapInsert merged h.state h.prob
            | some v => mapInsert merged h.state (v + h.prob))
          m) s =
      if s ∈ hypotheses.map Hypothesis.state then
        some ((mapFind m s).getD 0 + massOf hypotheses s)
      else mapFind m s := by
  induction hypotheses generalizing m with
  | nil => simp
  | cons h rest ih =>
    rw [List.foldl_cons, ih]
    have hstep : ∀ x, mapFind
        (match mapFind m h.state with
          | none => mapInsert m h.state h.prob
          | some v => mapInsert m h.state (v + h.prob)) x =
        if x = h.state then some ((mapFind m h.state).getD 0 + h.prob) else mapFind m x := by
      intro x
      cases hm : mapFind m h.state with
      | none => simp [mapFind_mapInsert]
      | some v => simp [mapFind_mapInsert]
    rw [hstep, massOf_cons]
    by_cases hs : s = h.state
    · subst hs
      simp only [if_true, List.map_cons, List.mem_cons, true_or, Option.getD_some]
      by_cases hmem : h.state ∈ rest.map Hypothesis.state
      · rw [if_pos hmem]
        congr 1
        ring
      · rw [if_neg hmem, massOf_of_not_mem rest _ hmem]
        congr 1
        ring
    · have hs' : ¬ h.state = s := fun e => hs e.symm
      simp only [hs, hs', if_false, List.map_cons, List.mem_cons, false_or, zero_add]

theorem mapFind_mergeHypotheses (hypotheses : List Hypothesis) (s : State) :
    mapFind (mergeHypotheses hypotheses) s =
      if s ∈ hypotheses.map Hypothesis.state then some (massOf hypotheses s) else none := by
  unfold mergeHypotheses
  rw [mapFind_merge_foldl]
  simp [mapFind]

theorem sorted_keys_mergeHypotheses (hypotheses : List Hypothesis) :
    ((mergeHypotheses hypotheses).map Prod.fst).Pairwise (fun a b => a.lt b = true) := by
  unfold mergeHypotheses
  have key : ∀ (l : List Hypothesis) (m : List (State × ℚ)),
      (m.map Prod.fst).Pairwise (fun a b => a.lt b = true) →
      ((l.foldl
          (fun merged h =>
            match mapFind merged h.state with
            | none => mapInsert merged h.state h.prob
            | some v => mapInsert merged h.state (v + h.prob))
          m).map Prod.fst).Pairwise (fun a b => a.lt b = true) := by
    intro l
    induction l with
    | nil => intro m hm; exact hm
    | cons h rest ih =>
      intro m hm
      rw [List.foldl_cons]
      apply ih
      cases mapFind m h.state with
      | none => exact sorted_keys_mapInsert m _ _ hm
      | some v => exact sorted_keys_mapInsert m _ _ hm
  exact key hypotheses [] (by simp)

/-! ## The sort and the trim -/

theorem sorted_orderedInsert_gt (a : Hypothesis) (l : List Hypothesis)
    (hs : l.Pairwise (fun x y => x.gt y = true)) (ha : a ∉ l) :
    (l.orderedInsert (fun x y => x.gt y = true) a).Pairwise (fun x y => x.gt y = true) := by
  induction l with
  | nil => simp
  | cons b rest ih =>
    simp only [List.pairwise_cons] at hs
    obtain ⟨hb, hrest⟩ := hs
    simp only [List.mem_cons, not_or] at ha
    simp only [List.orderedInsert]
    by_cases hab : a.gt b = true
    · rw [if_pos hab]
      simp only [List.pairwise_cons]
      refine ⟨?_, hb, hrest⟩
      intro x hx
      rcases List.mem_cons.mp hx with hx | hx
      · rw [hx]; exact hab
      · exact Hypothesis.gt_trans _ _ _ hab (hb x hx)
    · rw [if_neg hab]
      simp only [List.pairwise_cons]
      refine ⟨?_, ih hrest ha.2⟩
      intro x hx
      rcases (List.mem_orderedInsert _).mp hx with hx | hx
      · rw [hx]
        exact Hypothesis.gt_of_ne _ _ ha.1 hab
      · exact hb x hx

/-- The sort puts pairwise distinct hypotheses in strictly decreasing
order. -/
theorem sorted_insertionSort_gt (l : List Hypothesis) (hn : l.Nodup) :
    (l.insertionSort (fun x y => x.gt y = true)).Pairwise (fun x y => x.gt y = true) := by
  induction l with
  | nil => simp
  | cons b rest ih =>
    simp only [List.nodup_cons] at hn
    simp only [List.insertionSort]
    apply sorted_orderedInsert_gt _ _ (ih hn.2)
    rw [List.mem_insertionSort]
    exact hn.1

theorem totalOf_eq_sum (l : List Hypothesis) : totalOf l = (l.map Hypothesis.prob).sum := by
  unfold totalOf
  have key : ∀ (l : List Hypothesis) (init : ℚ),
      l.foldl (fun t h => t + h.prob) init = init + (l.map Hypothesis.prob).sum := by
    intro l
    induction l with
    | nil => intro init; simp
    | cons h rest ih =>
      intro init
      rw [List.foldl_cons, ih]
      simp only [List.map_cons, List.sum_cons]
      ring
  rw [key, zero_add]

/-- The hypotheses kept at a frame: the first `BEAM_SEARCH_WIDTH` of a list
that holds each proposed state once, with the mass proposed for it, in strictly
decreasing order. -/
theorem sortAndTrim_spec (hypotheses : List Hypothesis) :
    ∃ sorted : List Hypothesis,
      sortAndTrim hypotheses = sorted.take BEAM_SEARCH_WIDTH ∧
      (sorted.map Hypothesis.state).Nodup ∧
      (∀ h, h ∈ sorted ↔
        h.state ∈ hypotheses.map Hypothesis.state ∧ h.prob = massOf hypotheses h.state) ∧
      sorted.Pairwise (fun x y => x.gt y = true) := by
  have hkeys := nodup_of_sorted_keys _ (sorted_keys_mergeHypotheses hypotheses)
  have hstates : (((mergeHypotheses hypotheses).map
      (fun kv => Hypothesis.mk kv.1 kv.2)).map Hypothesis.state) =
      (mergeHypotheses hypotheses).map Prod.fst := by
    rw [List.map_map]
    rfl
  have hnodup : (((mergeHypotheses hypotheses).map
      (fun kv => Hypothesis.mk kv.1 kv.2)).map Hypothesis.state).Nodup := by
    rw [hstates]
    exact hkeys
  refine ⟨((mergeHypotheses hypotheses).map (fun kv => Hypothesis.mk kv.1 kv.2)).insertionSort
    (fun a b => a.gt b = true), ?_, ?_, ?_, ?_⟩
  · unfold sortAndTrim
    simp only
    split
    · rfl
    · rw [List.take_of_length_le (by omega)]
  · exact ((List.perm_insertionSort _ _).map Hypothesis.state).nodup_iff.mpr hnodup
  · intro h
    rw [List.mem_insertionSort, List.mem_map]
    constructor
    · rintro ⟨⟨k, v⟩, hmem, rfl⟩
      have hfind := mapFind_of_mem _ k v hkeys hmem
      rw [mapFind_mergeHypotheses] at hfind
      by_cases hk : k ∈ hypotheses.map Hypothesis.state
      · rw [if_pos hk] at hfind
        exact ⟨hk, (Option.some.inj hfind).symm⟩
      · rw [if_neg hk] at hfind
        exact absurd hfind (by simp)
    · rintro ⟨hk, hv⟩
      refine ⟨(h.state, h.prob), ?_, rfl⟩
      apply mem_of_mapFind
      rw [mapFind_mergeHypotheses, if_pos hk, hv]
  · exact sorted_insertionSort_gt _ (List.Nodup.of_map _ hnodup)

theorem nodup_states_mergeSortNormalize (hypotheses : List Hypothesis) :
    ((mergeSortNormalize hypotheses).map Hypothesis.state).Nodup := by
  obtain ⟨sorted, htake, hnodup, _, _⟩ := sortAndTrim_spec hypotheses
  have hmap : (mergeSortNormalize hypotheses).map Hypothesis.state =
      (sortAndTrim hypotheses).map Hypothesis.state := by
    rw [mergeSortNormalize_eq, List.map_map]
    rfl
  rw [hmap, htake]
  exact hnodup.sublist ((List.take_sublist _ _).map _)

/-! ## The posterior of one frame -/

theorem mem_combine_foldl (forward backward acc : List Hypothesis) (h : Hypothesis) :
    h ∈ forward.foldl
        (fun hypotheses hypo1 =>
          match backward.find? (fun hypo2 => decide (hypo1.state = hypo2.state)) with
          | some hypo2 => hypotheses ++ [Hypothesis.mk hypo1.state (hypo1.prob * hypo2.prob)]
          | none => hypotheses)
        acc ↔
      h ∈ acc ∨ ∃ h1 ∈ forward, ∃ h2,
        backward.find? (fun hypo2 => decide (h1.state = hypo2.state)) = some h2 ∧
          h = Hypothesis.mk h1.state (h1.prob * h2.prob) := by
  induction forward generalizing acc with
  | nil => simp
  | cons h1 rest ih =>
    rw [List.foldl_cons, ih]
    cases hf : backward.find? (fun hypo2 => decide (h1.state = hypo2.state)) with
    | none =>
      simp only [List.mem_cons, exists_eq_or_imp, hf, false_and, exists_false, false_or,
        reduceCtorEq]
    | some h2 =>
      simp only [List.mem_append, List.mem_singleton, List.mem_cons, exists_eq_or_imp, hf,
        Option.some.injEq, exists_eq_left']
      tauto

theorem states_combine_foldl (forward backward acc : List Hypothesis) :
    ∃ l, l.Sublist (forward.map Hypothesis.state) ∧
      (forward.foldl
        (fun hypotheses hypo1 =>
          match backward.find? (fun hypo2 => decide (hypo1.state = hypo2.state)) with
          | some hypo2 => hypotheses ++ [Hypothesis.mk hypo1.state (hypo1.prob * hypo2.prob)]
          | none => hypotheses)
        acc).map Hypothesis.state = acc.map Hypothesis.state ++ l := by
  induction forward generalizing acc with
  | nil => exact ⟨[], by simp, by simp⟩
  | cons h1 rest ih =>
    rw [List.foldl_cons]
    cases hf : backward.find? (fun hypo2 => decide (h1.state = hypo2.state)) with
    | none =>
      obtain ⟨l, hl, heq⟩ := ih acc
      exact ⟨l, by simpa using hl.cons h1.state, heq⟩
    | some h2 =>
      obtain ⟨l, hl, heq⟩ := ih (acc ++ [Hypothesis.mk h1.state (h1.prob * h2.prob)])
      refine ⟨h1.state :: l, by simpa using hl.cons₂ h1.state, ?_⟩
      rw [heq]
      simp

theorem find?_state_iff (backward : List Hypothesis) (s : State) (h2 : Hypothesis)
    (hnodup : (backward.map Hypothesis.state).Nodup) :
    backward.find? (fun hypo2 => decide (s = hypo2.state)) = some h2 ↔
      h2 ∈ backward ∧ s = h2.state := by
  constructor
  · intro h
    have h1 := List.find?_some h
    simp only [decide_eq_true_eq] at h1
    exact ⟨List.mem_of_find?_eq_some h, h1⟩
  · rintro ⟨hmem, hs⟩
    cases hf : backward.find? (fun hypo2 => decide (s = hypo2.state)) with
    | none =>
      rw [List.find?_eq_none] at hf
      exact absurd (by simpa using hs) (hf h2 hmem)
    | some h3 =>
      have h3s := List.find?_some hf
      simp only [decide_eq_true_eq] at h3s
      have h3mem := List.mem_of_find?_eq_some hf
      have := List.inj_on_of_nodup_map hnodup h3mem hmem (h3s.symm.trans hs)
      rw [this]

/-- The posterior list of a frame holds one hypothesis for each state present
in both lists, with the product of the two probabilities. -/
theorem combineFrame_spec (forward backward : List Hypothesis)
    (hf : (forward.map Hypothesis.state).Nodup) (hb : (backward.map Hypothesis.state).Nodup) :
    ((combineFrame forward backward).map Hypothesis.state).Nodup ∧
      ∀ h, h ∈ combineFrame forward backward ↔
        ∃ h1 ∈ forward, ∃ h2 ∈ backward, h1.state = h2.state ∧
          h = Hypothesis.mk h1.state (h1.prob * h2.prob) := by
  constructor
  · obtain ⟨l, hl, heq⟩ := states_combine_foldl forward backward []
    unfold combineFrame
    rw [heq]
    simpa using hf.sublist hl
  · intro h
    unfold combineFrame
    rw [mem_combine_foldl]
    simp only [List.not_mem_nil, false_or]
    constructor
    · rintro ⟨h1, hm1, h2, hfind, rfl⟩
      obtain ⟨hm2, hs⟩ := (find?_state_iff backward h1.state h2 hb).mp hfind
      exact ⟨h1, hm1, h2, hm2, hs, rfl⟩
    · rintro ⟨h1, hm1, h2, hm2, hs, rfl⟩
      exact ⟨h1, hm1, h2, (find?_state_iff backward h1.state h2 hb).mpr ⟨hm2, hs⟩, rfl⟩

/-- C20: for every frame `t` below `F` the posterior list holds exactly one
hypothesis for each state present in both the forward and the backward list
of `t`, with the product of the two probabilities, not renormalised, and no
other hypothesis; the states of each of the three lists are pairwise
distinct. -/
theorem posterior_combination (getLikelihood : Int → Int → Option ℚ)
    (nextStates prevStates : TransMap) (totalFrames : Nat)
    (forward backward post : List (List Hypothesis))
    (hfw : getForwardProbs getLikelihood nextStates totalFrames = some forward)
    (hbw : getBackwardProbs getLikelihood prevStates totalFrames = some backward)
    (hpost : posterior forward backward totalFrames = some post) :
    post.length = totalFrames ∧
      ∀ t, t < totalFrames → ∃ f b p, forward[t]? = some f ∧ backward[t]? = some b ∧
        post[t]? = some p ∧
        (f.map Hypothesis.state).Nodup ∧ (b.map Hypothesis.state).Nodup ∧
        (p.map Hypothesis.state).Nodup ∧
        ∀ h, h ∈ p ↔ ∃ h1 ∈ f, ∃ h2 ∈ b, h1.state = h2.state ∧
          h = Hypothesis.mk h1.state (h1.prob * h2.prob) := by
  obtain ⟨hlen, hall⟩ := posterior_spec forward backward totalFrames post hpost
  refine ⟨hlen, ?_⟩
  intro t ht
  obtain ⟨f, b, hf, hb, hp⟩ := hall t ht
  have hfn : (f.map Hypothesis.state).Nodup :=
    forward_all (fun l => (l.map Hypothesis.state).Nodup) _ _ _ _ (by simp)
      nodup_states_mergeSortNormalize hfw f (List.getElem?_mem hf)
  have hbn : (b.map Hypothesis.state).Nodup :=
    backward_all (fun l => (l.map Hypothesis.state).Nodup) _ _ _ _ (by simp) (by simp)
      nodup_states_mergeSortNormalize hbw b (List.getElem?_mem hb)
  obtain ⟨hcn, hcm⟩ := combineFrame_spec f b hfn hbn
  refine ⟨f, b, _, hf, hb, hp, hfn, hbn, ?_, ?_⟩
  · exact ((List.perm_insertionSort _ _).map Hypothesis.state).nodup_iff.mpr hcn
  · intro h
    rw [List.mem_insertionSort]
    exact hcm h

theorem posterior_combination_witness :
    ∃ f b p, shortForward[2]? = some f ∧ shortBackward[2]? = some b ∧
      shortPost[2]? = some p ∧
      (f.map Hypothesis.state).Nodup ∧ (b.map Hypothesis.state).Nodup ∧
      (p.map Hypothesis.state).Nodup ∧
      ∀ h, h ∈ p ↔ ∃ h1 ∈ f, ∃ h2 ∈ b, h1.state = h2.state ∧
        h = Hypothesis.mk h1.state (h1.prob * h2.prob) :=
  (posterior_combination (fun _ _ => some 1) (SimpleHMM.new shortEvents).m_nextStates
    (SimpleHMM.new shortEvents).m_prevStates 4 shortForward shortBackward shortPost
    (by decide!) (by decide!) (by decide!)).2 2 (by decide)

/-! ## The backward recurrence -/

theorem foldl_append_map {β γ : Type} (g : γ → β) (l : List γ) (acc : List β) :
    l.foldl (fun hs x => hs ++ [g x]) acc = acc ++ l.map g := by
  induction l generalizing acc with
  | nil => simp
  | cons x rest ih =>
    rw [List.foldl_cons, ih]
    simp

theorem massOf_predecessors (preds : List (State × ℚ)) (c l : ℚ) (s : State) :
    massOf (preds.map (fun prev => Hypothesis.mk prev.1 (c * prev.2 * l))) s =
      ((preds.filter (fun e => decide (e.1 = s))).map (fun e => c * e.2 * l)).sum := by
  induction preds with
  | nil => rfl
  | cons e rest ih =>
    rw [List.map_cons, massOf_cons, ih]
    by_cases hs : e.1 = s
    · simp [List.filter_cons, hs]
    · simp [List.filter_cons, hs]

/-- The mass of a state in the proposals of the backward pass is the sum of
the specification. -/
theorem backwardProposals_mass (getLikelihood : Int → Int → Option ℚ)
    (prevStates : TransMap) (t : Nat) (later proposals : List Hypothesis) (s : State)
    (h : backwardProposals getLikelihood prevStates t later = some proposals) :
    massOf proposals s = specBackwardMass getLikelihood prevStates t later s := by
  have key : ∀ (later acc proposals : List Hypothesis),
      later.foldlM
        (fun hypotheses hypo => do
          let like ← getLikelihood (t + 1) hypo.state.eventIndex
          let predecessors ← mapFind prevStates hypo.state
          pure (predecessors.foldl
            (fun hypotheses prev =>
              hypotheses ++ [Hypothesis.mk prev.1 (hypo.prob * prev.2 * like)])
            hypotheses))
        acc = some proposals →
      massOf proposals s = massOf acc s + specBackwardMass getLikelihood prevStates t later s := by
    intro later
    induction later with
    | nil =>
      intro acc proposals hrun
      simp only [List.foldlM_nil, Option.pure_def, Option.some.injEq] at hrun
      rw [← hrun]
      simp [specBackwardMass]
    | cons hypo rest ih =>
      intro acc proposals hrun
      simp only [List.foldlM_cons, Option.bind_eq_bind, Option.bind_eq_some, Option.pure_def,
        Option.some.injEq] at hrun
      obtain ⟨acc1, ⟨like, hlike, preds, hpreds, hacc1⟩, hrest⟩ := hrun
      rw [ih acc1 proposals hrest, ← hacc1, foldl_append_map, massOf_append,
        massOf_predecessors]
      simp only [specBackwardMass, List.map_cons, List.sum_cons, hlike, hpreds,
        Option.getD_some]
      ring
  have := key later [] proposals h
  rw [this, massOf_nil, zero_add]

/-- The loop of the backward pass over the frames `k - 1, …, 0`: the lists
at `k` and after are untouched, and each list before `k` is made from the
final list of the frame after it. -/
theorem backward_loop (getLikelihood : Int → Int → Option ℚ) (prevStates : TransMap)
    (k : Nat) (start result : List (List Hypothesis)) (hk : k < start.length)
    (h : (List.range k).reverse.foldlM
        (fun backward frame => do
          let later ← backward[frame + 1]?
          let proposals ← backwardProposals getLikelihood prevStates frame later
          pure (backward.set frame (mergeSortNormalize proposals)))
        start = some result) :
    result.length = start.length ∧ (∀ t, k ≤ t → result[t]? = start[t]?) ∧
      ∀ t, t < k → ∃ later proposals, result[t + 1]? = some later ∧
        backwardProposals getLikelihood prevStates t later = some proposals ∧
        result[t]? = some (mergeSortNormalize proposals) := by
  induction k generalizing start with
  | zero =>
    simp only [List.range_zero, List.reverse_nil, List.foldlM_nil, Option.pure_def,
      Option.some.injEq] at h
    rw [← h]
    exact ⟨rfl, fun t _ => rfl, fun t ht => by omega⟩
  | succ j ih =>
    rw [List.range_succ, List.reverse_append, List.reverse_singleton, List.singleton_append,
      List.foldlM_cons] at h
    simp only [Option.bind_eq_bind, Option.bind_eq_some, Option.pure_def,
      Option.some.injEq] at h
    obtain ⟨start1, ⟨later, hlater, proposals, hprop, hstart1⟩, hrest⟩ := h
    have hlen1 : start1.length = start.length := by
      rw [← hstart1, List.length_set]
    obtain ⟨hlen, hkeep, hmade⟩ := ih start1 (by omega) hrest
    refine ⟨by rw [hlen, hlen1], ?_, ?_⟩
    · intro t ht
      rw [hkeep t (by omega), ← hstart1, List.getElem?_set_ne (by omega)]
    · intro t ht
      by_cases htj : t = j
      · subst htj
        refine ⟨later, proposals, ?_, hprop, ?_⟩
        · rw [hkeep (t + 1) (by omega), ← hstart1, List.getElem?_set_ne (by omega)]
          exact hlater
        · rw [hkeep t (le_refl _), ← hstart1, List.getElem?_set_self (by omega)]
      · exact hmade t (by omega)

theorem getBackwardProbs_spec (getLikelihood : Int → Int → Option ℚ)
    (prevStates : TransMap) (totalFrames : Nat) (backward : List (List Hypothesis))
    (h : getBackwardProbs getLikelihood prevStates totalFrames = some backward) :
    backward.length = totalFrames ∧
      (0 < totalFrames → backward[totalFrames - 1]? = some [Hypothesis.mk lastState 1]) ∧
      ∀ t, t + 1 < totalFrames → ∃ later proposals, backward[t + 1]? = some later ∧
        backwardProposals getLikelihood prevStates t later = some proposals ∧
        backward[t]? = some (mergeSortNormalize proposals) := by
  unfold getBackwardProbs at h
  simp only at h
  by_cases hF : totalFrames > 0
  · rw [if_pos hF] at h
    obtain ⟨hlen, hkeep, hmade⟩ := backward_loop getLikelihood prevStates (totalFrames - 1) _ _
      (by rw [List.length_set, List.length_replicate]; omega) h
    rw [List.length_set, List.length_replicate] at hlen
    refine ⟨hlen, ?_, ?_⟩
    · intro _
      rw [hkeep _ (le_refl _), List.getElem?_set_self (by rw [List.length_replicate]; omega)]
    · intro t ht
      exact hmade t (by omega)
  · rw [if_neg hF] at h
    have h0 : totalFrames = 0 := by omega
    subst h0
    simp only [Nat.zero_sub, List.range_zero, List.reverse_nil, List.foldlM_nil,
      Option.pure_def, Option.some.injEq, List.replicate_zero] at h
    rw [← h]
    exact ⟨rfl, fun hc => by omega, fun t ht => by omega⟩

/-- The states proposed by the backward pass are the predecessors, in
`prevStates`, of the states of the list of the frame after. -/
theorem backwardProposals_states (getLikelihood : Int → Int → Option ℚ)
    (prevStates : TransMap) (t : Nat) (later proposals : List Hypothesis) (s : State)
    (h : backwardProposals getLikelihood prevStates t later = some proposals) :
    s ∈ proposals.map Hypothesis.state ↔
      ∃ h' ∈ later, ∃ e ∈ (mapFind prevStates h'.state).getD [], e.1 = s := by
  have key : ∀ (later acc proposals : List Hypothesis),
      later.foldlM
        (fun hypotheses hypo => do
          let like ← getLikelihood (t + 1) hypo.state.eventIndex
          let predecessors ← mapFind prevStates hypo.state
          pure (predecessors.foldl
            (fun hypotheses prev =>
              hypotheses ++ [Hypothesis.mk prev.1 (hypo.prob * prev.2 * like)])
            hypotheses))
        acc = some proposals →
      (s ∈ proposals.map Hypothesis.state ↔
        s ∈ acc.map Hypothesis.state ∨
          ∃ h' ∈ later, ∃ e ∈ (mapFind prevStates h'.state).getD [], e.1 = s) := by
    intro later
    induction later with
    | nil =>
      intro acc proposals hrun
      simp only [List.foldlM_nil, Option.pure_def, Option.some.injEq] at hrun
      rw [← hrun]
      simp
    | cons hypo rest ih =>
      intro acc proposals hrun
      simp only [List.foldlM_cons, Option.bind_eq_bind, Option.bind_eq_some, Option.pure_def,
        Option.some.injEq] at hrun
      obtain ⟨acc1, ⟨like, _, preds, hpreds, hacc1⟩, hrest⟩ := hrun
      have hB : s ∈ (preds.map
          (fun prev => Hypothesis.mk prev.1 (hypo.prob * prev.2 * like))).map Hypothesis.state ↔
          ∃ e ∈ preds, e.1 = s := by
        simp only [List.map_map, List.mem_map, Function.comp]
      have hR : (∃ h' ∈ hypo :: rest, ∃ e ∈ (mapFind prevStates h'.state).getD [], e.1 = s) ↔
          (∃ e ∈ preds, e.1 = s) ∨
            ∃ h' ∈ rest, ∃ e ∈ (mapFind prevStates h'.state).getD [], e.1 = s := by
        simp only [List.mem_cons, exists_eq_or_imp, hpreds, Option.getD_some]
      rw [ih acc1 proposals hrest, ← hacc1, foldl_append_map, List.map_append, List.mem_append,
        hB, hR, or_assoc]
  have := key later [] proposals h
  simpa using this

/-- C19: the backward list of the last frame is the ending state with
probability 1; for every earlier frame `t` the mass proposed for a state `s` is
the sum, over the hypotheses `(s', b)` of the list at `t + 1` and the
transitions from `s` to `s'`, of `b * p(s → s') * L(t + 1, s'.eventIndex)`, and
the list stored at `t` is made of the proposed states, each once with its mass,
in strictly decreasing order, cut to `BEAM_SEARCH_WIDTH = 200` and divided by
the total of what is kept. -/
theorem backward_recurrence (getLikelihood : Int → Int → Option ℚ)
    (prevStates : TransMap) (totalFrames : Nat) (backward : List (List Hypothesis))
    (h : getBackwardProbs getLikelihood prevStates totalFrames = some backward) :
    backward.length = totalFrames ∧
      (0 < totalFrames → backward[totalFrames - 1]? = some [Hypothesis.mk lastState 1]) ∧
      ∀ t, t + 1 < totalFrames → ∃ later proposals sorted : List Hypothesis,
        backward[t + 1]? = some later ∧
        backwardProposals getLikelihood prevStates t later = some proposals ∧
        (∀ s, massOf proposals s = specBackwardMass getLikelihood prevStates t later s) ∧
        (sorted.map Hypothesis.state).Nodup ∧
        (∀ x, x ∈ sorted ↔
          (∃ h' ∈ later, ∃ e ∈ (mapFind prevStates h'.state).getD [], e.1 = x.state) ∧
            x.prob = specBackwardMass getLikelihood prevStates t later x.state) ∧
        sorted.Pairwise (fun x y => x.gt y = true) ∧
        backward[t]? = some ((sorted.take BEAM_SEARCH_WIDTH).map
          (fun x => Hypothesis.mk x.state
            (x.prob / ((sorted.take BEAM_SEARCH_WIDTH).map Hypothesis.prob).sum))) := by
  obtain ⟨hlen, hlast, hmade⟩ := getBackwardProbs_spec getLikelihood prevStates totalFrames
    backward h
  refine ⟨hlen, hlast, ?_⟩
  intro t ht
  obtain ⟨later, proposals, hlater, hprop, hstored⟩ := hmade t ht
  obtain ⟨sorted, htake, hnodup, hmem, hsorted⟩ := sortAndTrim_spec proposals
  refine ⟨later, proposals, sorted, hlater, hprop, ?_, hnodup, ?_, hsorted, ?_⟩
  · intro s
    exact backwardProposals_mass getLikelihood prevStates t later proposals s hprop
  · intro x
    rw [hmem, backwardProposals_states getLikelihood prevStates t later proposals x.state hprop,
      backwardProposals_mass getLikelihood prevStates t later proposals x.state hprop]
  · rw [hstored, mergeSortNormalize_eq, totalOf_eq_sum, htake]

theorem backward_recurrence_witness :
    ∃ later proposals sorted : List Hypothesis,
      shortBackward[2 + 1]? = some later ∧
      backwardProposals (fun _ _ => some 1) (SimpleHMM.new shortEvents).m_prevStates 2 later =
        some proposals ∧
      (∀ s, massOf proposals s =
        specBackwardMass (fun _ _ => some 1) (SimpleHMM.new shortEvents).m_prevStates 2
          later s) ∧
      (sorted.map Hypothesis.state).Nodup ∧
      (∀ x, x ∈ sorted ↔
        (∃ h' ∈ later,
          ∃ e ∈ (mapFind (SimpleHMM.new shortEvents).m_prevStates h'.state).getD [],
            e.1 = x.state) ∧
          x.prob = specBackwardMass (fun _ _ => some 1)
            (SimpleHMM.new shortEvents).m_prevStates 2 later x.state) ∧
      sorted.Pairwise (fun x y => x.gt y = true) ∧
      shortBackward[2]? = some ((sorted.take BEAM_SEARCH_WIDTH).map
        (fun x => Hypothesis.mk x.state
          (x.prob / ((sorted.take BEAM_SEARCH_WIDTH).map Hypothesis.prob).sum))) :=
  (backward_recurrence (fun _ _ => some 1) (SimpleHMM.new shortEvents).m_prevStates 4
    shortBackward (by decide!)).2.2 2 (by decide)

/-! ## The bound on the number of micro states -/

theorem microCount_le {α : Type} (sr : ℚ) (hopSize : Int) (ev : MusicalEvent α)
    (hsr : 0 < sr) (hhop : 0 < hopSize) (hd : 0 < ev.duration) (ht : 0 < ev.tempo) :
    microCount sr hopSize ev ≤ 16 := by
  have hf := framesDouble_pos sr hopSize ev hsr hhop hd ht
  obtain ⟨hq0, hq1⟩ := microQuotient_bounds _ hf
  unfold microCount
  simp only
  split
  · omega
  · exact cRound_le_of_lt_half _ 16 (le_of_lt hq0) (by exact_mod_cast hq1)

theorem mem_keys_iff_hasKey (m : TransMap) (x : State) :
    x ∈ m.map Prod.fst ↔ hasKey m x = true := by
  unfold hasKey
  induction m with
  | nil => simp [mapFind]
  | cons hd tl ih =>
    obtain ⟨k, v⟩ := hd
    by_cases hk : k = x
    · simp [mapFind, hk]
    · simp only [List.map_cons, List.mem_cons, mapFind, if_neg hk]
      rw [← ih]
      constructor
      · rintro (h | h)
        · exact absurd h.symm hk
        · exact h
      · intro h
        exact Or.inr h

theorem sorted_keys_setTrans (m : TransMap) (a b : State) (v : ℚ)
    (h : (m.map Prod.fst).Pairwise (fun x y => x.lt y = true)) :
    ((setTrans m a b v).map Prod.fst).Pairwise (fun x y => x.lt y = true) :=
  sorted_keys_mapInsert m a _ h

theorem sorted_keys_foldl_add (items : List Item) (c : Chain)
    (hn : (c.nextStates.map Prod.fst).Pairwise (fun x y => x.lt y = true))
    (hp : (c.prevStates.map Prod.fst).Pairwise (fun x y => x.lt y = true)) :
    (((items.foldl Chain.add c).nextStates.map Prod.fst).Pairwise (fun x y => x.lt y = true)) ∧
      (((items.foldl Chain.add c).prevStates.map Prod.fst).Pairwise
        (fun x y => x.lt y = true)) := by
  induction items generalizing c with
  | nil => exact ⟨hn, hp⟩
  | cons it rest ih =>
    rw [List.foldl_cons]
    apply ih
    · exact sorted_keys_setTrans _ _ _ _ (sorted_keys_setTrans _ _ _ _ hn)
    · exact sorted_keys_setTrans _ _ _ _ (sorted_keys_setTrans _ _ _ _ hp)

theorem sorted_keys_new {α : Type} (aligner : AudioToScoreAligner α) :
    (((SimpleHMM.new aligner).m_nextStates.map Prod.fst).Pairwise
        (fun x y => x.lt y = true)) ∧
      (((SimpleHMM.new aligner).m_prevStates.map Prod.fst).Pairwise
        (fun x y => x.lt y = true)) := by
  by_cases hhop : aligner.m_hopSize = 0
  · unfold SimpleHMM.new
    simp [hhop]
  · rw [new_nextStates_eq aligner hhop, new_prevStates_eq aligner hhop]
    apply sorted_keys_foldl_add
    · exact sorted_keys_setTrans _ _ _ _ List.Pairwise.nil
    · exact sorted_keys_setTrans _ _ _ _ List.Pairwise.nil

theorem hasKey_new_next {α : Type} (aligner : AudioToScoreAligner α)
    (hhop : aligner.m_hopSize ≠ 0) (s : State) :
    hasKey (SimpleHMM.new aligner).m_nextStates s = true ↔
      s = startingState ∨ s = lastState ∨
        ∃ (e : Nat) (ev : MusicalEvent α), aligner.m_score[e]? = some ev ∧
          ∃ m : Nat, (m : Int) < microCount aligner.m_inputSampleRate aligner.m_hopSize ev ∧
            s = ⟨e, m⟩ := by
  rw [new_nextStates_eq aligner hhop,
    hasKey_foldl_next _ _ ((hasKey_initial_next _).mpr rfl), hasKey_initial_next,
    mem_states_allItems]

theorem hasKey_new_prev {α : Type} (aligner : AudioToScoreAligner α)
    (hhop : aligner.m_hopSize ≠ 0) (s : State) :
    hasKey (SimpleHMM.new aligner).m_prevStates s = true ↔
      hasKey (SimpleHMM.new aligner).m_nextStates s = true := by
  rw [hasKey_new_next aligner hhop, new_prevStates_eq aligner hhop, hasKey_foldl_prev,
    hasKey_initial_prev, mem_states_allItems]

theorem length_keys_le (keys : List State) (E : Nat) (hnd : keys.Nodup)
    (h : ∀ s ∈ keys, s = startingState ∨ s = lastState ∨
      ∃ e m : Nat, e < E ∧ m < 16 ∧ s = ⟨e, m⟩) :
    keys.length ≤ 16 * E + 2 := by
  have hsub : keys.toFinset ⊆ ({startingState, lastState} : Finset State) ∪
      (Finset.range E ×ˢ Finset.range 16).image (fun p => (⟨p.1, p.2⟩ : State)) := by
    intro s hs
    rw [List.mem_toFinset] at hs
    rw [Finset.mem_union]
    rcases h s hs with h1 | h1 | ⟨e, m, he, hm, hs'⟩
    · left; rw [h1]; simp
    · left; rw [h1]; simp
    · right
      rw [Finset.mem_image]
      exact ⟨(e, m), by simp [he, hm], hs'.symm⟩
  have hcard := Finset.card_le_card hsub
  rw [List.toFinset_card_of_nodup hnd] at hcard
  have h1 := Finset.card_union_le ({startingState, lastState} : Finset State)
    ((Finset.range E ×ˢ Finset.range 16).image (fun p => (⟨p.1, p.2⟩ : State)))
  have h2 : (({startingState, lastState} : Finset State)).card ≤ 2 := Finset.card_le_two
  have h3 := Finset.card_image_le (s := Finset.range E ×ˢ Finset.range 16)
    (f := fun p => (⟨p.1, p.2⟩ : State))
  rw [Finset.card_product, Finset.card_range, Finset.card_range] at h3
  omega

theorem length_states_new {α : Type} (aligner : AudioToScoreAligner α)
    (hhop : aligner.m_hopSize ≠ 0)
    (hM : ∀ ev ∈ aligner.m_score,
      microCount aligner.m_inputSampleRate aligner.m_hopSize ev ≤ 16) :
    (SimpleHMM.new aligner).m_nextStates.length ≤ 16 * aligner.m_score.length + 2 ∧
      (SimpleHMM.new aligner).m_prevStates.length ≤ 16 * aligner.m_score.length + 2 := by
  have hkey : ∀ s, hasKey (SimpleHMM.new aligner).m_nextStates s = true →
      s = startingState ∨ s = lastState ∨
        ∃ e m : Nat, e < aligner.m_score.length ∧ m < 16 ∧ s = ⟨e, m⟩ := by
    intro s hs
    rcases (hasKey_new_next aligner hhop s).mp hs with h1 | h1 | ⟨e, ev, hev, m, hm, hs'⟩
    · exact Or.inl h1
    · exact Or.inr (Or.inl h1)
    · right; right
      have hlt : e < aligner.m_score.length := by
        rcases Nat.lt_or_ge e aligner.m_score.length with h | h
        · exact h
        · rw [List.getElem?_eq_none h] at hev
          exact absurd hev (by simp)
      have := hM ev (List.getElem?_mem hev)
      exact ⟨e, m, hlt, by omega, hs'⟩
  obtain ⟨hsn, hsp⟩ := sorted_keys_new aligner
  constructor
  · rw [← List.length_map (SimpleHMM.new aligner).m_nextStates Prod.fst]
    apply length_keys_le _ _ (nodup_of_sorted_keys _ hsn)
    intro s hs
    exact hkey s ((mem_keys_iff_hasKey _ _).mp hs)
  · rw [← List.length_map (SimpleHMM.new aligner).m_prevStates Prod.fst]
    apply length_keys_le _ _ (nodup_of_sorted_keys _ hsp)
    intro s hs
    exact hkey s ((hasKey_new_prev aligner hhop s).mp ((mem_keys_iff_hasKey _ _).mp hs))

/-- C21: for an event of positive duration and tempo, with a positive sample
rate and hop size, `frames` is positive, the quotient
`frames^2 / (0.0625 * frames^2 + frames)` is `16 * frames / (frames + 16)`, which
is below 16, the `double` passed to `round` is within `2^-44` of it, and the
count `M` lies between 1 and 16; a score of `E` such events gives at most
`16 * E + 2` states, each a key of both maps once. -/
theorem microCount_bounds {α : Type} (aligner : AudioToScoreAligner α)
    (hsr : 0 < aligner.m_inputSampleRate) (hhop : 0 < aligner.m_hopSize)
    (hpos : ∀ ev ∈ aligner.m_score, 0 < ev.duration ∧ 0 < ev.tempo) :
    (∀ ev : MusicalEvent α, 0 < ev.duration → 0 < ev.tempo →
        0 < eventFrames aligner.m_inputSampleRate aligner.m_hopSize ev ∧
        eventFrames aligner.m_inputSampleRate aligner.m_hopSize ev ^ 2 /
            (0.0625 * eventFrames aligner.m_inputSampleRate aligner.m_hopSize ev ^ 2 +
              eventFrames aligner.m_inputSampleRate aligner.m_hopSize ev) =
          16 * eventFrames aligner.m_inputSampleRate aligner.m_hopSize ev /
            (eventFrames aligner.m_inputSampleRate aligner.m_hopSize ev + 16) ∧
        16 * eventFrames aligner.m_inputSampleRate aligner.m_hopSize ev /
            (eventFrames aligner.m_inputSampleRate aligner.m_hopSize ev + 16) < 16 ∧
        microCount aligner.m_inputSampleRate aligner.m_hopSize ev =
          max 1 (cRound (microQuotient
            (framesDouble aligner.m_inputSampleRate aligner.m_hopSize ev))) ∧
        |microQuotient (framesDouble aligner.m_inputSampleRate aligner.m_hopSize ev) -
            16 * eventFrames aligner.m_inputSampleRate aligner.m_hopSize ev /
              (eventFrames aligner.m_inputSampleRate aligner.m_hopSize ev + 16)| ≤
          1 / 2 ^ 44 ∧
        1 ≤ microCount aligner.m_inputSampleRate aligner.m_hopSize ev ∧
        microCount aligner.m_inputSampleRate aligner.m_hopSize ev ≤ 16) ∧
      ((SimpleHMM.new aligner).m_nextStates.map Prod.fst).Nodup ∧
      ((SimpleHMM.new aligner).m_prevStates.map Prod.fst).Nodup ∧
      (SimpleHMM.new aligner).m_nextStates.length ≤ 16 * aligner.m_score.length + 2 ∧
      (SimpleHMM.new aligner).m_prevStates.length ≤ 16 * aligner.m_score.length + 2 := by
  have hne : aligner.m_hopSize ≠ 0 := by omega
  obtain ⟨hsn, hsp⟩ := sorted_keys_new aligner
  obtain ⟨hln, hlp⟩ := length_states_new aligner hne
    (fun ev hev => microCount_le _ _ ev hsr hhop (hpos ev hev).1 (hpos ev hev).2)
  refine ⟨?_, nodup_of_sorted_keys _ hsn, nodup_of_sorted_keys _ hsp, hln, hlp⟩
  intro ev hd ht
  have hf := eventFrames_pos aligner.m_inputSampleRate aligner.m_hopSize ev hsr hhop hd ht
  refine ⟨hf, ?_, micro_ratio_lt _ hf, ?_,
    microQuotient_framesDouble _ _ ev hsr hhop hd ht, microCount_pos _ _ ev,
    microCount_le _ _ ev hsr hhop hd ht⟩
  · rw [← micro_ratio_eq _ hf]
    congr 1
    · ring
    · ring
  · unfold microCount
    simp only
    split
    · rw [max_eq_left]; omega
    · rw [max_eq_right]; omega

theorem microCount_bounds_witness :
    microCount twoEvents.m_inputSampleRate twoEvents.m_hopSize
        { duration := 1 / 2, tempo := 120, eventTemplate := ([1] : List ℚ) } = 13 ∧
      microCount twoEvents.m_inputSampleRate twoEvents.m_hopSize
        { duration := 1 / 2, tempo := 120, eventTemplate := ([1] : List ℚ) } ≤ 16 ∧
      (SimpleHMM.new twoEvents).m_nextStates.length = 28 ∧
      (SimpleHMM.new twoEvents).m_nextStates.length ≤ 16 * twoEvents.m_score.length + 2 :=
  ⟨by decide!,
    ((microCount_bounds twoEvents (by decide!) (by decide) (by decide!)).1
      { duration := 1 / 2, tempo := 120, eventTemplate := [1] } (by decide!) (by decide!)).2.2.2.2.2.2,
    by decide!,
    (microCount_bounds twoEvents (by decide!) (by decide) (by decide!)).2.2.2.1⟩

/-! ## Consecutive onsets -/

/-- C22: with the window size 3, an event that has a window of positive score
is given a frame `r` with `1 ≤ r ≤ F - 2`, and when it is not the first event
the frame given to the event before it is at most `r - 1`. -/
theorem onsets_strictly_increase {α : Type} (hmm : SimpleHMM α)
    (getLikelihood : Int → Int → Option ℚ) (indeterminate : Nat → Int)
    (post : List (List Hypothesis)) (results : List Int)
    (hpost : hmm.posteriors getLikelihood = some post)
    (hres : hmm.getAlignmentResults getLikelihood indeterminate = some results) :
    windowSize = 3 ∧
      ∀ e : Nat, e < hmm.m_aligner.m_score.length →
        (∃ t, specStartFrame results e ≤ t ∧ t + windowSize.toNat ≤ post.length ∧
          0 < specScore post e t) →
        ∃ r : Int, results[e]? = some r ∧ 1 ≤ r ∧
          r ≤ (hmm.m_aligner.m_dataFeatures.length : Int) - 2 ∧
          (1 ≤ e → ∃ q : Int, results[e - 1]? = some q ∧ q + 1 ≤ r) := by
  refine ⟨rfl, ?_⟩
  intro e he hex
  have hlen := posteriors_length hmm getLikelihood post hpost
  have hr := results_of_posteriors hmm getLikelihood indeterminate post results hpost hres
  have hrlen : results.length = hmm.m_aligner.m_score.length := by
    rw [hr, extractOnsets_length]
  have h3 : windowSize.toNat = 3 := rfl
  have hhalf : windowSize / 2 = 1 := rfl
  unfold specStartFrame at hex
  rw [hr] at hex
  rcases onset_cases post hmm.m_aligner.m_score.length e indeterminate he with
    ⟨_, hall⟩ | ⟨t, hs, ht, hget, _, _, _⟩
  · obtain ⟨t, ht1, ht2, ht3⟩ := hex
    exact absurd ht3 (not_lt.mpr (hall t ht1 ht2))
  · rw [← hr] at hget hs
    rw [hhalf] at hget hs
    refine ⟨(t : Int) + 1, hget, by omega, by omega, ?_⟩
    intro he1
    have hlt : e - 1 < results.length := by omega
    refine ⟨results[e - 1], List.getElem?_eq_getElem hlt, ?_⟩
    have hd : results.getD (e - 1) 0 = results[e - 1] := by
      rw [List.getD_eq_getElem?_getD, List.getElem?_eq_getElem hlt]
      rfl
    rw [if_neg (by omega), hd] at hs
    omega

theorem onsets_strictly_increase_witness :
    ∃ r : Int, ([2, 5] : List Int)[1]? = some r ∧ 1 ≤ r ∧
      r ≤ ((SimpleHMM.new silentRun.initializeLikelihoods).m_aligner.m_dataFeatures.length : Int)
        - 2 ∧
      (1 ≤ 1 → ∃ q : Int, ([2, 5] : List Int)[1 - 1]? = some q ∧ q + 1 ≤ r) :=
  (onsets_strictly_increase (SimpleHMM.new silentRun.initializeLikelihoods)
    (fun _ _ => some 1) (fun _ => 0) silentPost [2, 5] (by decide!) (by decide!)).2
    1 (by decide) ⟨4, by decide!⟩

/-! ## Order of the results -/

end PianoAligner
